import Mathlib

/-!
# lwnode: source text scanner, UTF-8 to Latin-1 conversion, call records, strSplit

A shallow embedding of `src/api/utils/string-util.cc` and `src/api/function.cc`.

* Byte strings and `std::basic_string<uint8_t>` results are `List Nat`; a value
  of the list is one byte (or, for a result, one `ResultCharType`).
* A cursor `sequence` together with its bound `endSequence` is the list of the
  bytes in `[sequence, endSequence)`: `sequence < endSequence` is
  `0 < sequence.length` and `sequence + 1 < endSequence` is `1 < sequence.length`.
* `readCallback` takes the cursor and gives the character read and the advanced
  cursor; it gives `none` when the read would leave `[sequence, endSequence)`.
* The `while` loops recurse on a fuel argument; `Run.outOfFuel` is the answer of
  a loop that was given too little of it.
-/

namespace StringUtil

/-- Outcome of running a loop of the scanner. -/
inductive Run (α : Type) where
  | outOfFuel : Run α
  | outOfBounds : Run α
  | ok : α → Run α
  deriving DecidableEq, Repr

/-- The table `UTF8Sequence::s_offsetsFromUTF8`, as 32-bit unsigned values. -/
def s_offsetsFromUTF8 : List Nat :=
  [0x00000000, 0x00003080, 0x000E2080, 0x03C82080, 0xFA082080, 0x82082080]

/-- The function `isLineTerminator`. -/
def isLineTerminator (ch : Nat) : Bool :=
  ch == 13 || ch == 10 || ch == 0x2028 || ch == 0x2029

/-- The cast `(ResultCharType)character` to a one byte character. -/
def toResultChar (character : Nat) : Nat := character % 256

/-- The read callback of `stripCommentsFromLatin1SourceString`:
`auto ret = *sequence; sequence++; return ret;`. -/
def latin1Read : List Nat → Option (Nat × List Nat)
  | [] => none
  | b :: rest => some (b, rest)

/-- The loop of lines 51-72 of `stripCommentsFromSourceString`, entered after an
opening quote. The answer is `(false, _, result)` when the function returns
false inside the loop, and `(true, sequence, result)` when the loop is left. -/
def stringLoop (willFailureWithNonLatin1Char : Bool)
    (readCallback : List Nat → Option (Nat × List Nat)) (quote : Nat) :
    Nat → List Nat → List Nat → Run (Bool × List Nat × List Nat)
  | 0, _, _ => .outOfFuel
  | fuel + 1, sequence, result =>
    if 0 < sequence.length then
      match readCallback sequence with
      | none => .outOfBounds
      | some (character, sequence1) =>
        if willFailureWithNonLatin1Char && decide (character > 255) then
          .ok (false, sequence1, result)
        else
          let result1 := result ++ [toResultChar character]
          if character = quote then
            .ok (true, sequence1, result1)
          else if character = 92 then
            if 1 < sequence1.length then
              match readCallback sequence1 with
              | none => .outOfBounds
              | some (character2, forwardSequence) =>
                if character2 = quote then
                  stringLoop willFailureWithNonLatin1Char readCallback quote fuel
                    forwardSequence (result1 ++ [toResultChar character2])
                else if character2 = 92 then
                  stringLoop willFailureWithNonLatin1Char readCallback quote fuel
                    forwardSequence (result1 ++ [toResultChar character2])
                else
                  stringLoop willFailureWithNonLatin1Char readCallback quote fuel
                    sequence1 result1
            else
              stringLoop willFailureWithNonLatin1Char readCallback quote fuel
                sequence1 result1
          else
            stringLoop willFailureWithNonLatin1Char readCallback quote fuel
              sequence1 result1
    else
      .ok (true, sequence, result)

/-- The `do ... while` loop of lines 78-80: reads characters until the cursor
reaches the end or a line terminator was read. Gives the last character read
and the cursor. -/
def skipLineLoop (readCallback : List Nat → Option (Nat × List Nat)) :
    Nat → List Nat → Run (Nat × List Nat)
  | 0, _ => .outOfFuel
  | fuel + 1, sequence =>
    match readCallback sequence with
    | none => .outOfBounds
    | some (character, sequence1) =>
      if 0 < sequence1.length ∧ ¬ isLineTerminator character = true then
        skipLineLoop readCallback fuel sequence1
      else
        .ok (character, sequence1)

/-- Lines 81-88: after a line comment, a CR is looked past; the character is
replaced by what was read there, and the cursor follows only for a LF. -/
def lineCommentTail (readCallback : List Nat → Option (Nat × List Nat))
    (character : Nat) (sequence : List Nat) : Run (Nat × List Nat) :=
  if character = 13 ∧ 1 < sequence.length then
    match readCallback sequence with
    | none => .outOfBounds
    | some (character1, forwardSequence) =>
      if character1 = 10 then .ok (10, forwardSequence)
      else .ok (character1, sequence)
  else
    .ok (character, sequence)

/-- The loop of lines 91-108, entered after `/*`. Gives the cursor and the
result when the loop is left. -/
def blockCommentLoop (readCallback : List Nat → Option (Nat × List Nat)) :
    Nat → List Nat → List Nat → Run (List Nat × List Nat)
  | 0, _, _ => .outOfFuel
  | fuel + 1, sequence, result =>
    if 0 < sequence.length then
      match readCallback sequence with
      | none => .outOfBounds
      | some (character, sequence1) =>
        if character = 42 ∧ 1 < sequence1.length then
          match readCallback sequence1 with
          | none => .outOfBounds
          | some (character1, sequence2) =>
            if character1 = 47 then .ok (sequence2, result)
            else blockCommentLoop readCallback fuel sequence2 result
        else if isLineTerminator character = true then
          if character = 13 ∧ 1 < sequence1.length then
            match readCallback sequence1 with
            | none => .outOfBounds
            | some (character1, forwardSequence) =>
              if character1 = 10 then
                blockCommentLoop readCallback fuel forwardSequence
                  (result ++ [toResultChar 10])
              else
                blockCommentLoop readCallback fuel sequence1
                  (result ++ [toResultChar 10])
          else
            blockCommentLoop readCallback fuel sequence1 (result ++ [toResultChar 10])
        else
          blockCommentLoop readCallback fuel sequence1 result
    else
      .ok (sequence, result)

/-- Lines 115-118, the end of an iteration of the outer loop: the Latin-1 check
and the append of the current character. `(false, _, _)` is `return false`. -/
def emitCharacter (willFailureWithNonLatin1Char : Bool) (character : Nat)
    (sequence result : List Nat) : Run (Bool × List Nat × List Nat) :=
  if willFailureWithNonLatin1Char && decide (character > 255) then
    .ok (false, sequence, result)
  else
    .ok (true, sequence, result ++ [toResultChar character])

/-- One iteration of the outer loop (lines 47-118) at a cursor with
`sequence < endSequence`. The inner loops run on `fuel`. The answer is
`(false, _, result)` for `return false` and `(true, sequence, result)` when the
iteration ends (by `continue` or by reaching the end of the body). -/
def loopBody (willFailureWithNonLatin1Char : Bool)
    (readCallback : List Nat → Option (Nat × List Nat)) (fuel : Nat)
    (sequence result : List Nat) : Run (Bool × List Nat × List Nat) :=
  match readCallback sequence with
  | none => .outOfBounds
  | some (character, sequence1) =>
    if character = 39 ∨ character = 34 ∨ character = 96 then
      stringLoop willFailureWithNonLatin1Char readCallback character fuel sequence1
        (result ++ [toResultChar character])
    else if character = 47 ∧ 1 < sequence1.length then
      match readCallback sequence1 with
      | none => .outOfBounds
      | some (character1, sequence2) =>
        if character1 = 47 ∧ (result.length = 0 ∨ result.getLast? ≠ some 92) then
          match skipLineLoop readCallback fuel sequence2 with
          | .outOfFuel => .outOfFuel
          | .outOfBounds => .outOfBounds
          | .ok (character2, sequence3) =>
            match lineCommentTail readCallback character2 sequence3 with
            | .outOfFuel => .outOfFuel
            | .outOfBounds => .outOfBounds
            | .ok (character3, sequence4) =>
              emitCharacter willFailureWithNonLatin1Char character3 sequence4 result
        else if character1 = 42 then
          match blockCommentLoop readCallback fuel sequence2 result with
          | .outOfFuel => .outOfFuel
          | .outOfBounds => .outOfBounds
          | .ok (sequence3, result1) => .ok (true, sequence3, result1)
        else
          emitCharacter willFailureWithNonLatin1Char character1 sequence2
            (result ++ [toResultChar 47])
    else
      emitCharacter willFailureWithNonLatin1Char character sequence1 result

/-- The template `stripCommentsFromSourceString`: the outer `while` loop. The
answer is the returned flag and the result string. -/
def stripCommentsFromSourceString (willFailureWithNonLatin1Char : Bool)
    (readCallback : List Nat → Option (Nat × List Nat)) :
    Nat → List Nat → List Nat → Run (Bool × List Nat)
  | 0, _, _ => .outOfFuel
  | fuel + 1, sequence, result =>
    if 0 < sequence.length then
      match loopBody willFailureWithNonLatin1Char readCallback fuel sequence result with
      | .outOfFuel => .outOfFuel
      | .outOfBounds => .outOfBounds
      | .ok (false, _, result1) => .ok (false, result1)
      | .ok (true, sequence1, result1) =>
        stripCommentsFromSourceString willFailureWithNonLatin1Char readCallback fuel
          sequence1 result1
    else
      .ok (true, result)

/-- The function `stripCommentsFromLatin1SourceString` on the bytes of
`[start, end)`: the scan without Latin-1 check into an empty result. The scan
never runs out of fuel or bounds (`latin1_scan_total`), so the last branch is
never taken. -/
def stripCommentsFromLatin1SourceString (s : List Nat) : List Nat :=
  match stripCommentsFromSourceString false latin1Read (s.length + 1) s [] with
  | .ok (_, result) => result
  | _ => []

/-- Modelled from the spec: `UTF8Sequence::getLength` is declared in
`string-util.h`, which is not among the sources. It "determines the multi-byte
sequence length from the lead byte"; the lengths are those of UTF-8 with up to
five continuation bytes, one for each entry of `s_offsetsFromUTF8`. A byte that
starts no sequence (a continuation byte, `0xFE`, `0xFF`) gives 0. -/
def getLength (b0 : Nat) : Nat :=
  if b0 < 0x80 then 1
  else if b0 < 0xC0 then 0
  else if b0 < 0xE0 then 2
  else if b0 < 0xF0 then 3
  else if b0 < 0xF8 then 4
  else if b0 < 0xFC then 5
  else if b0 < 0xFE then 6
  else 0

/-- Modelled from the spec: the accumulation of `UTF8Sequence::read`, which is
declared in `string-util.h`, not among the sources. The raw bit pattern of a
sequence is `acc := acc * 64 + b` over its bytes from `acc = 0`, in 32-bit
unsigned arithmetic. -/
def accumulate (bytes : List Nat) : Nat :=
  bytes.foldl (fun acc b => (acc * 64 + b) % 2 ^ 32) 0

/-- Modelled from the spec: `UTF8Sequence::read` is declared in `string-util.h`,
which is not among the sources. It "accumulates the raw bit pattern across all
continuation bytes, and subtracts the fixed per-length magic offset to yield the
true codepoint; advances the cursor by the consumed byte count". The answer is
`none` when `length` is 0 or the sequence would end behind `endSequence`. -/
def read (sequence : List Nat) (length : Nat) : Option (Nat × List Nat) :=
  if length = 0 ∨ sequence.length < length then none
  else
    some ((accumulate (sequence.take length) + 2 ^ 32 - s_offsetsFromUTF8.getD (length - 1) 0)
        % 2 ^ 32,
      sequence.drop length)

/-- The read callback of `convertUTF8ToLatin1`:
`UTF8Sequence::read(sequence, UTF8Sequence::getLength(*sequence))`. -/
def utf8Read (sequence : List Nat) : Option (Nat × List Nat) :=
  match sequence with
  | [] => none
  | b0 :: _ => read sequence (getLength b0)

/-- The loop of `convertUTF8ToLatin1` for `stripComment = false` (lines 152-164). -/
def convertLoop : Nat → List Nat → List Nat → Run (Bool × List Nat)
  | 0, _, _ => .outOfFuel
  | fuel + 1, sequence, oneByteString =>
    if 0 < sequence.length then
      match utf8Read sequence with
      | none => .outOfBounds
      | some (character, sequence1) =>
        if character > 255 then .ok (false, oneByteString)
        else convertLoop fuel sequence1 (oneByteString ++ [toResultChar character])
    else
      .ok (true, oneByteString)

/-- The function `UTF8Sequence::convertUTF8ToLatin1` on the bytes of
`[sequence, endSequence)`: the returned flag and `oneByteString` after the call.
Every iteration of either loop reads at least one byte, so the length of the
input bounds the number of iterations. -/
def convertUTF8ToLatin1 (oneByteString sequence : List Nat) (stripComment : Bool) :
    Run (Bool × List Nat) :=
  if stripComment then
    stripCommentsFromSourceString true utf8Read (sequence.length + 1) sequence oneByteString
  else
    convertLoop (sequence.length + 1) sequence oneByteString

/-- The call `getline(ss, token, delimiter)` on the unread characters `ss` of the
stream: `none` when no character can be extracted (the stream fails and the loop
of `strSplit` ends), else the token and the characters left unread. The
delimiter that ends the token is extracted and not stored. -/
def getline (ss : List Nat) (delimiter : Nat) : Option (List Nat × List Nat) :=
  match ss with
  | [] => none
  | _ :: _ =>
    some (ss.takeWhile (fun c => c != delimiter), (ss.dropWhile (fun c => c != delimiter)).tail)

/-- The loop of `strSplit` (lines 173-175). -/
def strSplitLoop (delimiter : Nat) : Nat → List Nat → List (List Nat) → Run (List (List Nat))
  | 0, _, _ => .outOfFuel
  | fuel + 1, ss, tokens =>
    match getline ss delimiter with
    | none => .ok tokens
    | some (token, ss1) => strSplitLoop delimiter fuel ss1 (tokens ++ [token])

/-- The function `strSplit`. Every call of `getline` that succeeds extracts at
least one character, so the length of `str` bounds the number of iterations. -/
def strSplit (str : List Nat) (delimiter : Nat) : Run (List (List Nat)) :=
  strSplitLoop delimiter (str.length + 1) str []

/-! ## Notions used in the statements

`ReadsWell w rd G` says that on every non-empty cursor of the class `G` the
callback `rd` reads a character, moves the cursor forward and stays in `G`; with
the Latin-1 check on (`w = true`) the character read is at most 255, and a
character below 128 takes one byte. -/

/-- The class of cursors `G` is closed under reading with `rd`. -/
def ReadsWell (w : Bool) (rd : List Nat → Option (Nat × List Nat))
    (G : List Nat → Prop) : Prop :=
  ∀ s, G s → s ≠ [] →
    ∃ c s', rd s = some (c, s') ∧ s'.length < s.length ∧ G s' ∧ (w = true → c ≤ 255) ∧
      (c < 128 → s.length = s'.length + 1)

/-- Whether `result.back()` is a backslash; false on the empty result. -/
def lastIsBackslash (result : List Nat) : Bool := decide (result.getLast? = some 92)

/-- The number of line terminators of a text, a CR immediately followed by a LF
counting once. -/
def countLineTerminators : List Nat → Nat
  | [] => 0
  | 13 :: 10 :: t => countLineTerminators t + 1
  | c :: t => (if isLineTerminator c = true then 1 else 0) + countLineTerminators t

/-- Whether a text contains the two-byte sequence `*/`. -/
def containsCommentEnd : List Nat → Bool
  | [] => false
  | c :: t => (c == 42 && t.head? == some 47) || containsCommentEnd t

/-- The standard UTF-8 encoding of a code point up to `0x10FFFF`. -/
def utf8Encode (c : Nat) : List Nat :=
  if c < 0x80 then [c]
  else if c < 0x800 then [0xC0 + c / 64, 0x80 + c % 64]
  else if c < 0x10000 then [0xE0 + c / 4096, 0x80 + c / 64 % 64, 0x80 + c % 64]
  else [0xF0 + c / 262144, 0x80 + c / 4096 % 64, 0x80 + c / 64 % 64, 0x80 + c % 64]

/-- The UTF-8 text of a sequence of code points. -/
def utf8EncodeAll : List Nat → List Nat
  | [] => []
  | c :: cs => utf8Encode c ++ utf8EncodeAll cs

/-- The elements of `tokens` joined with the delimiter between them. -/
def joinWith (delimiter : Nat) : List (List Nat) → List Nat
  | [] => []
  | [t] => t
  | t :: ts => t ++ delimiter :: joinWith delimiter ts

/-- The computation of the codec on the bytes of one sequence: `acc := acc * 64 + b`
over the bytes from `acc = 0`, then the subtraction of `s_offsetsFromUTF8[n]` for
`n` continuation bytes, in 32-bit unsigned arithmetic. -/
def decodeWithOffset (bytes : List Nat) : Nat :=
  (bytes.foldl (fun acc b => (acc * 64 + b) % 2 ^ 32) 0 + 2 ^ 32 -
    s_offsetsFromUTF8.getD (bytes.length - 1) 0) % 2 ^ 32

/-- The elements of `tokens`, each followed by the delimiter. -/
def terminateWith (delimiter : Nat) : List (List Nat) → List Nat
  | [] => []
  | t :: ts => t ++ delimiter :: terminateWith delimiter ts

/-- The guard `(!result.size() || result.back() != '\\')` of line 76 with the
evaluation order of `||`: `result.back()` is evaluated only behind a non-zero
`result.size()`, and the answer is `none` if it were evaluated on an empty
result. -/
def lineCommentGuard (result : List Nat) : Option Bool :=
  if result.length = 0 then some true
  else
    match result.getLast? with
    | none => none
    | some b => some (decide (b ≠ 92))

/-! ## The template for any `ResultCharType` -/

/-- The loop of lines 51-72 for any `ResultCharType`: `stringLoop` with the cast
`(ResultCharType)character` given as `cast`. -/
def stringLoopAs (cast : Nat → Nat) (willFailureWithNonLatin1Char : Bool)
    (readCallback : List Nat → Option (Nat × List Nat)) (quote : Nat) :
    Nat → List Nat → List Nat → Run (Bool × List Nat × List Nat)
  | 0, _, _ => .outOfFuel
  | fuel + 1, sequence, result =>
    if 0 < sequence.length then
      match readCallback sequence with
      | none => .outOfBounds
      | some (character, sequence1) =>
        if willFailureWithNonLatin1Char && decide (character > 255) then
          .ok (false, sequence1, result)
        else
          let result1 := result ++ [cast character]
          if character = quote then
            .ok (true, sequence1, result1)
          else if character = 92 then
            if 1 < sequence1.length then
              match readCallback sequence1 with
              | none => .outOfBounds
              | some (character2, forwardSequence) =>
                if character2 = quote then
                  stringLoopAs cast willFailureWithNonLatin1Char readCallback quote fuel
                    forwardSequence (result1 ++ [cast character2])
                else if character2 = 92 then
                  stringLoopAs cast willFailureWithNonLatin1Char readCallback quote fuel
                    forwardSequence (result1 ++ [cast character2])
                else
                  stringLoopAs cast willFailureWithNonLatin1Char readCallback quote fuel
                    sequence1 result1
            else
              stringLoopAs cast willFailureWithNonLatin1Char readCallback quote fuel
                sequence1 result1
          else
            stringLoopAs cast willFailureWithNonLatin1Char readCallback quote fuel
              sequence1 result1
    else
      .ok (true, sequence, result)

/-- The loop of lines 91-108 for any `ResultCharType`: `blockCommentLoop` with
the cast given as `cast`. -/
def blockCommentLoopAs (cast : Nat → Nat) (readCallback : List Nat → Option (Nat × List Nat)) :
    Nat → List Nat → List Nat → Run (List Nat × List Nat)
  | 0, _, _ => .outOfFuel
  | fuel + 1, sequence, result =>
    if 0 < sequence.length then
      match readCallback sequence with
      | none => .outOfBounds
      | some (character, sequence1) =>
        if character = 42 ∧ 1 < sequence1.length then
          match readCallback sequence1 with
          | none => .outOfBounds
          | some (character1, sequence2) =>
            if character1 = 47 then .ok (sequence2, result)
            else blockCommentLoopAs cast readCallback fuel sequence2 result
        else if isLineTerminator character = true then
          if character = 13 ∧ 1 < sequence1.length then
            match readCallback sequence1 with
            | none => .outOfBounds
            | some (character1, forwardSequence) =>
              if character1 = 10 then
                blockCommentLoopAs cast readCallback fuel forwardSequence
                  (result ++ [cast 10])
              else
                blockCommentLoopAs cast readCallback fuel sequence1
                  (result ++ [cast 10])
          else
            blockCommentLoopAs cast readCallback fuel sequence1 (result ++ [cast 10])
        else
          blockCommentLoopAs cast readCallback fuel sequence1 result
    else
      .ok (sequence, result)

/-- Lines 115-118 for any `ResultCharType`: `emitCharacter` with the cast given
as `cast`. -/
def emitCharacterAs (cast : Nat → Nat) (willFailureWithNonLatin1Char : Bool) (character : Nat)
    (sequence result : List Nat) : Run (Bool × List Nat × List Nat) :=
  if willFailureWithNonLatin1Char && decide (character > 255) then
    .ok (false, sequence, result)
  else
    .ok (true, sequence, result ++ [cast character])

/-- One iteration of the outer loop for any `ResultCharType`: `loopBody` with the
cast given as `cast`. -/
def loopBodyAs (cast : Nat → Nat) (willFailureWithNonLatin1Char : Bool)
    (readCallback : List Nat → Option (Nat × List Nat)) (fuel : Nat)
    (sequence result : List Nat) : Run (Bool × List Nat × List Nat) :=
  match readCallback sequence with
  | none => .outOfBounds
  | some (character, sequence1) =>
    if character = 39 ∨ character = 34 ∨ character = 96 then
      stringLoopAs cast willFailureWithNonLatin1Char readCallback character fuel sequence1
        (result ++ [cast character])
    else if character = 47 ∧ 1 < sequence1.length then
      match readCallback sequence1 with
      | none => .outOfBounds
      | some (character1, sequence2) =>
        if character1 = 47 ∧ (result.length = 0 ∨ result.getLast? ≠ some 92) then
          match skipLineLoop readCallback fuel sequence2 with
          | .outOfFuel => .outOfFuel
          | .outOfBounds => .outOfBounds
          | .ok (character2, sequence3) =>
            match lineCommentTail readCallback character2 sequence3 with
            | .outOfFuel => .outOfFuel
            | .outOfBounds => .outOfBounds
            | .ok (character3, sequence4) =>
              emitCharacterAs cast willFailureWithNonLatin1Char character3 sequence4 result
        else if character1 = 42 then
          match blockCommentLoopAs cast readCallback fuel sequence2 result with
          | .outOfFuel => .outOfFuel
          | .outOfBounds => .outOfBounds
          | .ok (sequence3, result1) => .ok (true, sequence3, result1)
        else
          emitCharacterAs cast willFailureWithNonLatin1Char character1 sequence2
            (result ++ [cast 47])
    else
      emitCharacterAs cast willFailureWithNonLatin1Char character sequence1 result

/-- The template `stripCommentsFromSourceString` for any `ResultCharType`, the
cast `(ResultCharType)character` being the parameter `cast`: with
`cast = toResultChar` it is the scan into one byte characters, with the
identity it is the scan into a result that holds every code point as read. -/
def stripCommentsFromSourceStringAs (cast : Nat → Nat) (willFailureWithNonLatin1Char : Bool)
    (readCallback : List Nat → Option (Nat × List Nat)) :
    Nat → List Nat → List Nat → Run (Bool × List Nat)
  | 0, _, _ => .outOfFuel
  | fuel + 1, sequence, result =>
    if 0 < sequence.length then
      match loopBodyAs cast willFailureWithNonLatin1Char readCallback fuel sequence result with
      | .outOfFuel => .outOfFuel
      | .outOfBounds => .outOfBounds
      | .ok (false, _, result1) => .ok (false, result1)
      | .ok (true, sequence1, result1) =>
        stripCommentsFromSourceStringAs cast willFailureWithNonLatin1Char readCallback fuel
          sequence1 result1
    else
      .ok (true, result)

end StringUtil

/-! ## The call record of `function.cc` -/

namespace EscargotShim

/-- The loop of `toWrapperArgs` (lines 45-47) from the index `i`:
`for (; i < argc; i++) values[argc - i - 1] = ValueWrap::createValue(argv[i])`.
The answer is `none` when an index leaves `argv` or the allocated array, or when
the fuel does not reach the end of the loop. -/
def fillArguments {V H : Type} (createValue : V → H) (argc : Nat) (argv : List V) :
    Nat → Nat → List (Option H) → Option (List (Option H))
  | 0, _, _ => none
  | fuel + 1, i, values =>
    if i < argc then
      match argv[i]? with
      | none => none
      | some a =>
        if argc - i - 1 < values.length then
          fillArguments createValue argc argv fuel (i + 1)
            (values.set (argc - i - 1) (some (createValue a)))
        else none
    else some values

/-- The function `FunctionCallbackInfoWrap::toWrapperArgs`: the array of
`argc + 1` slots it allocates, a slot being `none` until it is written, and the
index `argc - 1` of the returned base `values + argc - 1`. The answer is `none`
when a write would leave the array. -/
def toWrapperArgs {V H : Type} (createValue : V → H) (thisValue : V) (argc : Nat)
    (argv : List V) : Option (List (Option H) × Int) :=
  match fillArguments createValue argc argv (argc + 1) 0 (List.replicate (argc + 1) none) with
  | none => none
  | some values =>
    if argc < values.length then
      some (values.set argc (some (createValue thisValue)), (argc : Int) - 1)
    else none

/-- The slot of the array at `offset` slots from the base: `none` outside the
array and on a slot that was never written. -/
def slotAt {H : Type} (values : List (Option H)) (base offset : Int) : Option H :=
  if 0 ≤ base + offset then (values[(base + offset).toNat]?).join else none

/-- The fields of the base `v8::FunctionCallbackInfo` that the destructor reads:
the base address `values_`, in slots, and `length_`, which `Length()` returns. -/
structure FunctionCallbackInfoWrap where
  values_ : Int
  length_ : Int
  deriving DecidableEq, Repr

/-- The constructor `FunctionCallbackInfoWrap::FunctionCallbackInfoWrap` (lines
25-33), as far as the argument array goes: `toWrapperArgs` allocates the array,
here at the address `start`, and the base class is given the returned base
`start + argc - 1` and `argc`. -/
def FunctionCallbackInfoWrap.create {V H : Type} (createValue : V → H) (start : Int)
    (thisValue : V) (argc : Nat) (argv : List V) : Option FunctionCallbackInfoWrap :=
  match toWrapperArgs createValue thisValue argc argv with
  | none => none
  | some (_, base) => some { values_ := start + base, length_ := argc }

/-- The method `Length()` of the base class. -/
def FunctionCallbackInfoWrap.Length (info : FunctionCallbackInfoWrap) : Int := info.length_

/-- The pointer that the destructor passes to `delete[]` (lines 54-56):
`reinterpret_cast<HandleWrap**>(this->values_) - this->Length() + 1`. -/
def FunctionCallbackInfoWrap.released (info : FunctionCallbackInfoWrap) : Int :=
  info.values_ - info.Length + 1

end EscargotShim

/-! ## The loops of the scanner return -/

namespace StringUtil

theorem latin1Read_readsWell : ReadsWell false latin1Read (fun _ => True) := by
  intro s _ hs
  cases s with
  | nil => exact absurd rfl hs
  | cons b t => exact ⟨b, t, rfl, by simp, trivial, by simp, by simp⟩

theorem check_false_of_le (w : Bool) (c : Nat) (h : w = true → c ≤ 255) :
    (w && decide (c > 255)) = false := by
  cases w with
  | false => rfl
  | true =>
    have := h rfl
    simp only [Bool.true_and, decide_eq_false_iff_not]
    omega

theorem stringLoop_nil (w : Bool) (rd : List Nat → Option (Nat × List Nat)) (q f : Nat)
    (r : List Nat) : stringLoop w rd q (f + 1) [] r = .ok (true, [], r) := by
  simp [stringLoop]

/-- One iteration of the string loop at a cursor where a character that passes
the Latin-1 check is read. -/
theorem stringLoop_step {w : Bool} {rd : List Nat → Option (Nat × List Nat)} {q c : Nat}
    {s s1 : List Nat} (f : Nat) (r : List Nat) (hs : s ≠ []) (hc : rd s = some (c, s1))
    (hchk : (w && decide (c > 255)) = false) :
    stringLoop w rd q (f + 1) s r =
      if c = q then .ok (true, s1, r ++ [toResultChar c])
      else if c = 92 ∧ 1 < s1.length then
        match rd s1 with
        | none => .outOfBounds
        | some (c2, fwd) =>
          if c2 = q ∨ c2 = 92 then
            stringLoop w rd q f fwd (r ++ [toResultChar c] ++ [toResultChar c2])
          else stringLoop w rd q f s1 (r ++ [toResultChar c])
      else stringLoop w rd q f s1 (r ++ [toResultChar c]) := by
  have hpos : 0 < s.length := List.length_pos.mpr hs
  rw [stringLoop]
  simp only [hpos, if_true, hc, hchk]
  by_cases hq : c = q
  · simp only [hq, if_true, Bool.false_eq_true, if_false]
  · by_cases hb : c = 92
    · subst hb
      by_cases h2 : 1 < s1.length
      · simp only [hq, h2, if_true, if_false, Bool.false_eq_true, true_and, and_self]
        cases hrd2 : rd s1 with
        | none => rfl
        | some p =>
          obtain ⟨c2, fwd⟩ := p
          by_cases h1 : c2 = q
          · simp only [h1, if_true, true_or]
          · by_cases h3 : c2 = 92
            · subst h3
              simp only [h1, if_true, if_false, or_true]
            · simp only [h1, h3, if_false, or_self]
      · simp only [hq, h2, if_true, if_false, Bool.false_eq_true, and_false]
    · simp only [hq, hb, if_false, Bool.false_eq_true, false_and]

theorem stringLoop_total {w : Bool} {rd : List Nat → Option (Nat × List Nat)}
    {G : List Nat → Prop} (hrd : ReadsWell w rd G) (q : Nat) :
    ∀ (n : Nat) (s : List Nat), G s → s.length ≤ n →
      ∃ s' o, s'.length ≤ s.length ∧ G s' ∧
        ∀ f r, s.length < f → stringLoop w rd q f s r = .ok (true, s', r ++ o) := by
  intro n
  induction n with
  | zero =>
    intro s hG hn
    have hs : s = [] := List.length_eq_zero.mp (Nat.le_zero.mp hn)
    subst hs
    refine ⟨[], [], le_refl _, hG, ?_⟩
    intro f r hf
    cases f with
    | zero => simp at hf
    | succ f => simp [stringLoop_nil]
  | succ n ih =>
    intro s hG hn
    by_cases hs : s = []
    · subst hs
      refine ⟨[], [], le_refl _, hG, ?_⟩
      intro f r hf
      cases f with
      | zero => simp at hf
      | succ f => simp [stringLoop_nil]
    · obtain ⟨c, s1, hc, hlt, hG1, hle, -⟩ := hrd s hG hs
      have hchk := check_false_of_le w c hle
      by_cases hq : c = q
      · refine ⟨s1, [toResultChar c], by omega, hG1, ?_⟩
        intro f r hf
        cases f with
        | zero => simp at hf
        | succ f => rw [stringLoop_step f r hs hc hchk, if_pos hq]
      · obtain ⟨sa, oa, hla, hGa, ha⟩ := ih s1 hG1 (by omega)
        have plain : ∀ f r, s.length ≤ f →
            stringLoop w rd q f s1 (r ++ [toResultChar c]) =
              .ok (true, sa, r ++ toResultChar c :: oa) := by
          intro f r hf
          rw [ha f _ (by omega)]
          simp
        by_cases hb : c = 92 ∧ 1 < s1.length
        · have hs1 : s1 ≠ [] := by
            intro h; rw [h] at hb; simp at hb
          obtain ⟨c2, s2, hc2, hlt2, hG2, hle2, -⟩ := hrd s1 hG1 hs1
          by_cases hesc : c2 = q ∨ c2 = 92
          · obtain ⟨sb, ob, hlb, hGb, hb2⟩ := ih s2 hG2 (by omega)
            refine ⟨sb, toResultChar c :: toResultChar c2 :: ob, by omega, hGb, ?_⟩
            intro f r hf
            cases f with
            | zero => simp at hf
            | succ f =>
              rw [stringLoop_step f r hs hc hchk, if_neg hq, if_pos hb, hc2]
              simp only [if_pos hesc]
              rw [hb2 f _ (by omega)]
              simp
          · refine ⟨sa, toResultChar c :: oa, by omega, hGa, ?_⟩
            intro f r hf
            cases f with
            | zero => simp at hf
            | succ f =>
              rw [stringLoop_step f r hs hc hchk, if_neg hq, if_pos hb, hc2]
              simp only [if_neg hesc]
              exact plain f r (by omega)
        · refine ⟨sa, toResultChar c :: oa, by omega, hGa, ?_⟩
          intro f r hf
          cases f with
          | zero => simp at hf
          | succ f =>
            rw [stringLoop_step f r hs hc hchk, if_neg hq, if_neg hb]
            exact plain f r (by omega)

/-- One iteration of the line comment loop. -/
theorem skipLineLoop_step {rd : List Nat → Option (Nat × List Nat)} {c : Nat}
    {s s1 : List Nat} (f : Nat) (hc : rd s = some (c, s1)) :
    skipLineLoop rd (f + 1) s =
      if 0 < s1.length ∧ ¬ isLineTerminator c = true then skipLineLoop rd f s1
      else .ok (c, s1) := by
  rw [skipLineLoop]
  simp only [hc]

theorem skipLineLoop_total {w : Bool} {rd : List Nat → Option (Nat × List Nat)}
    {G : List Nat → Prop} (hrd : ReadsWell w rd G) :
    ∀ (n : Nat) (s : List Nat), G s → s ≠ [] → s.length ≤ n →
      ∃ c s', s'.length < s.length ∧ G s' ∧ (w = true → c ≤ 255) ∧
        ∀ f, s.length ≤ f → skipLineLoop rd f s = .ok (c, s') := by
  intro n
  induction n with
  | zero =>
    intro s _ hs hn
    exact absurd (List.length_eq_zero.mp (Nat.le_zero.mp hn)) hs
  | succ n ih =>
    intro s hG hs hn
    obtain ⟨c, s1, hc, hlt, hG1, hle, -⟩ := hrd s hG hs
    have hpos : 0 < s.length := List.length_pos.mpr hs
    by_cases hgo : 0 < s1.length ∧ ¬ isLineTerminator c = true
    · have hs1 : s1 ≠ [] := List.length_pos.mp hgo.1
      obtain ⟨c', s', hl, hG', hle', h⟩ := ih s1 hG1 hs1 (by omega)
      refine ⟨c', s', by omega, hG', hle', ?_⟩
      intro f hf
      cases f with
      | zero => omega
      | succ f => rw [skipLineLoop_step f hc, if_pos hgo, h f (by omega)]
    · refine ⟨c, s1, hlt, hG1, hle, ?_⟩
      intro f hf
      cases f with
      | zero => omega
      | succ f => rw [skipLineLoop_step f hc, if_neg hgo]

theorem lineCommentTail_total {w : Bool} {rd : List Nat → Option (Nat × List Nat)}
    {G : List Nat → Prop} (hrd : ReadsWell w rd G) (c : Nat) (s : List Nat) (hG : G s)
    (hle : w = true → c ≤ 255) :
    ∃ c' s', s'.length ≤ s.length ∧ G s' ∧ (w = true → c' ≤ 255) ∧
      lineCommentTail rd c s = .ok (c', s') := by
  by_cases h : c = 13 ∧ 1 < s.length
  · have hs : s ≠ [] := by
      intro h0; rw [h0] at h; simp at h
    obtain ⟨c1, s1, hc1, hlt1, hG1, hle1, -⟩ := hrd s hG hs
    by_cases h10 : c1 = 10
    · refine ⟨10, s1, by omega, hG1, fun _ => by omega, ?_⟩
      rw [lineCommentTail, if_pos h, hc1]
      simp only [if_pos h10]
    · refine ⟨c1, s, le_refl _, hG, hle1, ?_⟩
      rw [lineCommentTail, if_pos h, hc1]
      simp only [if_neg h10]
  · refine ⟨c, s, le_refl _, hG, hle, ?_⟩
    rw [lineCommentTail, if_neg h]

theorem blockCommentLoop_nil (rd : List Nat → Option (Nat × List Nat)) (f : Nat)
    (r : List Nat) : blockCommentLoop rd (f + 1) [] r = .ok ([], r) := by
  simp [blockCommentLoop]

/-- One iteration of the block comment loop. -/
theorem blockCommentLoop_step {rd : List Nat → Option (Nat × List Nat)} {c : Nat}
    {s s1 : List Nat} (f : Nat) (r : List Nat) (hs : s ≠ []) (hc : rd s = some (c, s1)) :
    blockCommentLoop rd (f + 1) s r =
      if c = 42 ∧ 1 < s1.length then
        match rd s1 with
        | none => .outOfBounds
        | some (c1, s2) =>
          if c1 = 47 then .ok (s2, r) else blockCommentLoop rd f s2 r
      else if isLineTerminator c = true then
        if c = 13 ∧ 1 < s1.length then
          match rd s1 with
          | none => .outOfBounds
          | some (c1, fwd) =>
            if c1 = 10 then blockCommentLoop rd f fwd (r ++ [10])
            else blockCommentLoop rd f s1 (r ++ [10])
        else blockCommentLoop rd f s1 (r ++ [10])
      else blockCommentLoop rd f s1 r := by
  have hpos : 0 < s.length := List.length_pos.mpr hs
  rw [blockCommentLoop]
  simp only [hpos, if_true, hc]
  rfl

theorem blockCommentLoop_total {w : Bool} {rd : List Nat → Option (Nat × List Nat)}
    {G : List Nat → Prop} (hrd : ReadsWell w rd G) :
    ∀ (n : Nat) (s : List Nat), G s → s.length ≤ n →
      ∃ s' o, s'.length ≤ s.length ∧ G s' ∧
        ∀ f r, s.length < f → blockCommentLoop rd f s r = .ok (s', r ++ o) := by
  intro n
  induction n with
  | zero =>
    intro s hG hn
    have hs : s = [] := List.length_eq_zero.mp (Nat.le_zero.mp hn)
    subst hs
    refine ⟨[], [], le_refl _, hG, ?_⟩
    intro f r hf
    cases f with
    | zero => simp at hf
    | succ f => simp [blockCommentLoop_nil]
  | succ n ih =>
    intro s hG hn
    by_cases hs : s = []
    · subst hs
      refine ⟨[], [], le_refl _, hG, ?_⟩
      intro f r hf
      cases f with
      | zero => simp at hf
      | succ f => simp [blockCommentLoop_nil]
    · obtain ⟨c, s1, hc, hlt, hG1, hle, -⟩ := hrd s hG hs
      obtain ⟨sa, oa, hla, hGa, ha⟩ := ih s1 hG1 (by omega)
      by_cases hstar : c = 42 ∧ 1 < s1.length
      · have hs1 : s1 ≠ [] := by
          intro h; rw [h] at hstar; simp at hstar
        obtain ⟨c1, s2, hc1, hlt1, hG2, -, -⟩ := hrd s1 hG1 hs1
        by_cases hsl : c1 = 47
        · refine ⟨s2, [], by omega, hG2, ?_⟩
          intro f r hf
          cases f with
          | zero => simp at hf
          | succ f =>
            rw [blockCommentLoop_step f r hs hc, if_pos hstar, hc1]
            simp only [if_pos hsl, List.append_nil]
        · obtain ⟨sb, ob, hlb, hGb, hb⟩ := ih s2 hG2 (by omega)
          refine ⟨sb, ob, by omega, hGb, ?_⟩
          intro f r hf
          cases f with
          | zero => simp at hf
          | succ f =>
            rw [blockCommentLoop_step f r hs hc, if_pos hstar, hc1]
            simp only [if_neg hsl]
            exact hb f r (by omega)
      · by_cases hterm : isLineTerminator c = true
        · by_cases hcr : c = 13 ∧ 1 < s1.length
          · have hs1 : s1 ≠ [] := by
              intro h; rw [h] at hcr; simp at hcr
            obtain ⟨c1, s2, hc1, hlt1, hG2, -, -⟩ := hrd s1 hG1 hs1
            by_cases hlf : c1 = 10
            · obtain ⟨sb, ob, hlb, hGb, hb⟩ := ih s2 hG2 (by omega)
              refine ⟨sb, 10 :: ob, by omega, hGb, ?_⟩
              intro f r hf
              cases f with
              | zero => simp at hf
              | succ f =>
                rw [blockCommentLoop_step f r hs hc, if_neg hstar, if_pos hterm,
                  if_pos hcr, hc1]
                simp only [if_pos hlf]
                rw [hb f _ (by omega)]
                simp
            · refine ⟨sa, 10 :: oa, by omega, hGa, ?_⟩
              intro f r hf
              cases f with
              | zero => simp at hf
              | succ f =>
                rw [blockCommentLoop_step f r hs hc, if_neg hstar, if_pos hterm,
                  if_pos hcr, hc1]
                simp only [if_neg hlf]
                rw [ha f _ (by omega)]
                simp
          · refine ⟨sa, 10 :: oa, by omega, hGa, ?_⟩
            intro f r hf
            cases f with
            | zero => simp at hf
            | succ f =>
              rw [blockCommentLoop_step f r hs hc, if_neg hstar, if_pos hterm, if_neg hcr]
              rw [ha f _ (by omega)]
              simp
        · refine ⟨sa, oa, by omega, hGa, ?_⟩
          intro f r hf
          cases f with
          | zero => simp at hf
          | succ f =>
            rw [blockCommentLoop_step f r hs hc, if_neg hstar, if_neg hterm]
            exact ha f r (by omega)

theorem guard_iff (result : List Nat) :
    (result.length = 0 ∨ result.getLast? ≠ some 92) ↔ lastIsBackslash result = false := by
  unfold lastIsBackslash
  constructor
  · intro h
    rcases h with h | h
    · have : result = [] := List.length_eq_zero.mp h
      subst this
      simp
    · simpa using h
  · intro h
    right
    simpa using h

theorem lastIsBackslash_append (r o : List Nat) :
    lastIsBackslash (r ++ o) = if o = [] then lastIsBackslash r else lastIsBackslash o := by
  unfold lastIsBackslash
  cases o with
  | nil => simp
  | cons a t =>
    rw [List.getLast?_append_of_ne_nil r (by simp)]
    simp

theorem emitCharacter_ok (w : Bool) (c : Nat) (s r : List Nat)
    (hchk : (w && decide (c > 255)) = false) :
    emitCharacter w c s r = .ok (true, s, r ++ [toResultChar c]) := by
  rw [emitCharacter, hchk]
  simp

/-- The iteration of the outer loop at a cursor where `c` is read. -/
theorem loopBody_step {w : Bool} {rd : List Nat → Option (Nat × List Nat)} {c : Nat}
    {s s1 : List Nat} (f : Nat) (r : List Nat) (hc : rd s = some (c, s1)) :
    loopBody w rd f s r =
      if c = 39 ∨ c = 34 ∨ c = 96 then
        stringLoop w rd c f s1 (r ++ [toResultChar c])
      else if c = 47 ∧ 1 < s1.length then
        match rd s1 with
        | none => .outOfBounds
        | some (c1, s2) =>
          if c1 = 47 ∧ (r.length = 0 ∨ r.getLast? ≠ some 92) then
            match skipLineLoop rd f s2 with
            | .outOfFuel => .outOfFuel
            | .outOfBounds => .outOfBounds
            | .ok (c2, s3) =>
              match lineCommentTail rd c2 s3 with
              | .outOfFuel => .outOfFuel
              | .outOfBounds => .outOfBounds
              | .ok (c3, s4) => emitCharacter w c3 s4 r
          else if c1 = 42 then
            match blockCommentLoop rd f s2 r with
            | .outOfFuel => .outOfFuel
            | .outOfBounds => .outOfBounds
            | .ok (s3, r1) => .ok (true, s3, r1)
          else emitCharacter w c1 s2 (r ++ [toResultChar 47])
      else emitCharacter w c s1 r := by
  rw [loopBody]
  simp only [hc]

theorem loopBody_total {w : Bool} {rd : List Nat → Option (Nat × List Nat)}
    {G : List Nat → Prop} (hrd : ReadsWell w rd G) (s : List Nat) (hG : G s) (hs : s ≠ [])
    (bs : Bool) :
    ∃ s' o, s'.length < s.length ∧ G s' ∧
      ∀ f r, s.length ≤ f → lastIsBackslash r = bs →
        loopBody w rd f s r = .ok (true, s', r ++ o) := by
  obtain ⟨c, s1, hc, hlt, hG1, hle, -⟩ := hrd s hG hs
  by_cases hq : c = 39 ∨ c = 34 ∨ c = 96
  · obtain ⟨s', o, hl, hG', h⟩ := stringLoop_total hrd c s1.length s1 hG1 (le_refl _)
    refine ⟨s', toResultChar c :: o, by omega, hG', ?_⟩
    intro f r hf _
    rw [loopBody_step f r hc, if_pos hq, h f _ (by omega)]
    simp
  · by_cases hsl : c = 47 ∧ 1 < s1.length
    · have hs1 : s1 ≠ [] := by
        intro h; rw [h] at hsl; simp at hsl
      obtain ⟨c1, s2, hc1, hlt1, hG2, hle1, hone⟩ := hrd s1 hG1 hs1
      by_cases hline : c1 = 47 ∧ bs = false
      · have hs2 : s2 ≠ [] := by
          have := hone (by omega)
          intro h; rw [h] at this; simp at this; omega
        obtain ⟨c2, s3, hl3, hG3, hle2, h3⟩ :=
          skipLineLoop_total hrd s2.length s2 hG2 hs2 (le_refl _)
        obtain ⟨c3, s4, hl4, hG4, hle3, h4⟩ := lineCommentTail_total hrd c2 s3 hG3 hle2
        refine ⟨s4, [toResultChar c3], by omega, hG4, ?_⟩
        intro f r hf hbs
        have hguard : c1 = 47 ∧ (r.length = 0 ∨ r.getLast? ≠ some 92) :=
          ⟨hline.1, (guard_iff r).mpr (hbs.trans hline.2)⟩
        rw [loopBody_step f r hc, if_neg hq, if_pos hsl, hc1]
        simp only [if_pos hguard]
        rw [h3 f (by omega)]
        simp only [h4]
        exact emitCharacter_ok w c3 s4 r (check_false_of_le w c3 hle3)
      · by_cases hblock : c1 = 42
        · obtain ⟨s3, o, hl3, hG3, h3⟩ :=
            blockCommentLoop_total hrd s2.length s2 hG2 (le_refl _)
          refine ⟨s3, o, by omega, hG3, ?_⟩
          intro f r hf hbs
          have hguard : ¬ (c1 = 47 ∧ (r.length = 0 ∨ r.getLast? ≠ some 92)) := by
            intro h; omega
          rw [loopBody_step f r hc, if_neg hq, if_pos hsl, hc1]
          simp only [if_neg hguard, if_pos hblock]
          rw [h3 f r (by omega)]
        · refine ⟨s2, [toResultChar 47, toResultChar c1], by omega, hG2, ?_⟩
          intro f r hf hbs
          have hguard : ¬ (c1 = 47 ∧ (r.length = 0 ∨ r.getLast? ≠ some 92)) := by
            intro h
            apply hline
            refine ⟨h.1, ?_⟩
            rw [← hbs]
            exact (guard_iff r).mp h.2
          rw [loopBody_step f r hc, if_neg hq, if_pos hsl, hc1]
          simp only [if_neg hguard, if_neg hblock]
          rw [emitCharacter_ok w c1 s2 _ (check_false_of_le w c1 hle1)]
          simp
    · refine ⟨s1, [toResultChar c], hlt, hG1, ?_⟩
      intro f r hf _
      rw [loopBody_step f r hc, if_neg hq, if_neg hsl]
      exact emitCharacter_ok w c s1 r (check_false_of_le w c hle)

theorem scan_nil (w : Bool) (rd : List Nat → Option (Nat × List Nat)) (f : Nat)
    (r : List Nat) : stripCommentsFromSourceString w rd (f + 1) [] r = .ok (true, r) := by
  simp [stripCommentsFromSourceString]

/-- The outer loop after an iteration that ends normally. -/
theorem scan_step {w : Bool} {rd : List Nat → Option (Nat × List Nat)} {s s' r r' : List Nat}
    (f : Nat) (hs : s ≠ []) (h : loopBody w rd f s r = .ok (true, s', r')) :
    stripCommentsFromSourceString w rd (f + 1) s r =
      stripCommentsFromSourceString w rd f s' r' := by
  have hpos : 0 < s.length := List.length_pos.mpr hs
  rw [stripCommentsFromSourceString]
  simp only [hpos, if_true, h]

/-- The outer loop after an iteration that returns false. -/
theorem scan_step_false {w : Bool} {rd : List Nat → Option (Nat × List Nat)}
    {s s' r r' : List Nat} (f : Nat) (hs : s ≠ [])
    (h : loopBody w rd f s r = .ok (false, s', r')) :
    stripCommentsFromSourceString w rd (f + 1) s r = .ok (false, r') := by
  have hpos : 0 < s.length := List.length_pos.mpr hs
  rw [stripCommentsFromSourceString]
  simp only [hpos, if_true, h]

/-- On cursors that read well the scan returns true, with an output that
depends on the result so far only through `lastIsBackslash`, and on no fuel
above the length of the input. -/
theorem scan_total {w : Bool} {rd : List Nat → Option (Nat × List Nat)}
    {G : List Nat → Prop} (hrd : ReadsWell w rd G) :
    ∀ (n : Nat) (s : List Nat), G s → s.length ≤ n → ∀ bs : Bool,
      ∃ o, ∀ f r, s.length < f → lastIsBackslash r = bs →
        stripCommentsFromSourceString w rd f s r = .ok (true, r ++ o) := by
  intro n
  induction n with
  | zero =>
    intro s hG hn bs
    have hs : s = [] := List.length_eq_zero.mp (Nat.le_zero.mp hn)
    subst hs
    refine ⟨[], ?_⟩
    intro f r hf _
    cases f with
    | zero => simp at hf
    | succ f => simp [scan_nil]
  | succ n ih =>
    intro s hG hn bs
    by_cases hs : s = []
    · subst hs
      refine ⟨[], ?_⟩
      intro f r hf _
      cases f with
      | zero => simp at hf
      | succ f => simp [scan_nil]
    · obtain ⟨s', o1, hl, hG', h1⟩ := loopBody_total hrd s hG hs bs
      obtain ⟨o2, h2⟩ := ih s' hG' (by omega) (if o1 = [] then bs else lastIsBackslash o1)
      refine ⟨o1 ++ o2, ?_⟩
      intro f r hf hbs
      cases f with
      | zero => simp at hf
      | succ f =>
        rw [scan_step f hs (h1 f r (by omega) hbs)]
        rw [h2 f (r ++ o1) (by omega) (by rw [lastIsBackslash_append, hbs])]
        simp

/-- The single-byte scan never runs out of fuel or bounds, and what it appends
to a result that does not end in a backslash is the output of
`stripCommentsFromLatin1SourceString`. -/
theorem latin1_scan_continue (s : List Nat) (f : Nat) (r : List Nat) (hf : s.length < f)
    (hr : lastIsBackslash r = false) :
    stripCommentsFromSourceString false latin1Read f s r =
      .ok (true, r ++ stripCommentsFromLatin1SourceString s) := by
  obtain ⟨o, h⟩ := scan_total latin1Read_readsWell s.length s trivial (le_refl _) false
  have h0 := h (s.length + 1) [] (by omega) (by simp [lastIsBackslash])
  have hs : stripCommentsFromLatin1SourceString s = o := by
    unfold stripCommentsFromLatin1SourceString
    rw [h0]
    simp
  rw [hs]
  exact h f r hf hr

theorem latin1_scan_total (s : List Nat) :
    stripCommentsFromSourceString false latin1Read (s.length + 1) s [] =
      .ok (true, stripCommentsFromLatin1SourceString s) := by
  have := latin1_scan_continue s (s.length + 1) [] (by omega) (by simp [lastIsBackslash])
  simpa using this

/-! ## The single-byte scan: plain text and strings -/

theorem toResultChar_of_lt {c : Nat} (h : c < 256) : toResultChar c = c :=
  Nat.mod_eq_of_lt h

/-- A character that is no quote and no slash is appended as it is. -/
theorem loopBody_plain (f c : Nat) (t r : List Nat) (hq : ¬ (c = 39 ∨ c = 34 ∨ c = 96))
    (hs : c ≠ 47) (hb : c < 256) :
    loopBody false latin1Read f (c :: t) r = .ok (true, t, r ++ [c]) := by
  have hc : latin1Read (c :: t) = some (c, t) := rfl
  rw [loopBody_step f r hc, if_neg hq, if_neg (by intro h; exact hs h.1),
    emitCharacter_ok false c t r rfl, toResultChar_of_lt hb]

/-- The outer loop copies a prefix without quotes and slashes. -/
theorem scan_copies_plain (pre : List Nat) (hb : ∀ b ∈ pre, b < 256) (h47 : 47 ∉ pre)
    (h39 : 39 ∉ pre) (h34 : 34 ∉ pre) (h96 : 96 ∉ pre) (f : Nat) (s r : List Nat) :
    stripCommentsFromSourceString false latin1Read (f + pre.length) (pre ++ s) r =
      stripCommentsFromSourceString false latin1Read f s (r ++ pre) := by
  induction pre generalizing r with
  | nil => simp
  | cons c t ih =>
    simp only [List.mem_cons, not_or] at h47 h39 h34 h96
    have hq : ¬ (c = 39 ∨ c = 34 ∨ c = 96) := by
      intro h
      rcases h with h | h | h
      · exact h39.1 h.symm
      · exact h34.1 h.symm
      · exact h96.1 h.symm
    have hstep := loopBody_plain (f + t.length) c (t ++ s) r hq (fun h => h47.1 h.symm)
      (hb c (List.mem_cons_self _ _))
    have : f + (c :: t).length = (f + t.length) + 1 := by simp; omega
    rw [this, List.cons_append, scan_step _ (by simp) hstep,
      ih (fun b hb' => hb b (List.mem_cons_of_mem _ hb')) h47.2 h39.2 h34.2 h96.2]
    simp

theorem lastIsBackslash_concat (r : List Nat) (c : Nat) :
    lastIsBackslash (r ++ [c]) = decide (c = 92) := by
  unfold lastIsBackslash
  rw [List.getLast?_concat]
  simp

theorem lastIsBackslash_of_not_mem (r : List Nat) (h : 92 ∉ r) : lastIsBackslash r = false := by
  unfold lastIsBackslash
  simp only [decide_eq_false_iff_not]
  intro hl
  exact h (List.mem_of_getLast?_eq_some hl)

/-- One iteration of the string loop of the single-byte scan. -/
theorem stringLoop_latin1_step (q f c : Nat) (t r : List Nat) :
    stringLoop false latin1Read q (f + 1) (c :: t) r =
      if c = q then .ok (true, t, r ++ [toResultChar c])
      else if c = 92 ∧ 1 < t.length then
        match latin1Read t with
        | none => .outOfBounds
        | some (c2, fwd) =>
          if c2 = q ∨ c2 = 92 then
            stringLoop false latin1Read q f fwd (r ++ [toResultChar c] ++ [toResultChar c2])
          else stringLoop false latin1Read q f t (r ++ [toResultChar c])
      else stringLoop false latin1Read q f t (r ++ [toResultChar c]) :=
  @stringLoop_step false latin1Read q c (c :: t) t f r (by simp) rfl rfl

/-- The string loop copies characters that are neither the quote nor a backslash. -/
theorem stringLoop_copies_plain (q : Nat) (body : List Nat) (hb : ∀ b ∈ body, b < 256)
    (hq : q ∉ body) (h92 : 92 ∉ body) (f : Nat) (t r : List Nat) :
    stringLoop false latin1Read q (f + body.length) (body ++ t) r =
      stringLoop false latin1Read q f t (r ++ body) := by
  induction body generalizing r with
  | nil => simp
  | cons c u ih =>
    simp only [List.mem_cons, not_or] at hq h92
    have : f + (c :: u).length = (f + u.length) + 1 := by simp; omega
    rw [this, List.cons_append, stringLoop_latin1_step,
      if_neg (fun h => hq.1 h.symm), if_neg (fun h => h92.1 h.1.symm),
      toResultChar_of_lt (hb c (List.mem_cons_self _ _)),
      ih (fun b hb' => hb b (List.mem_cons_of_mem _ hb')) hq.2 h92.2]
    simp

/-- The string loop ends at the quote. -/
theorem stringLoop_close (q : Nat) (hq : q < 256) (f : Nat) (t r : List Nat) :
    stringLoop false latin1Read q (f + 1) (q :: t) r = .ok (true, t, r ++ [q]) := by
  rw [stringLoop_latin1_step, if_pos rfl, toResultChar_of_lt hq]

/-- In the string loop a backslash followed by the quote, with more input after
it, is copied with the quote and the loop goes on behind both. -/
theorem stringLoop_escaped_quote (q : Nat) (hq : q < 256) (hq92 : q ≠ 92) (f : Nat)
    (t r : List Nat) (ht : t ≠ []) :
    stringLoop false latin1Read q (f + 1) (92 :: q :: t) r =
      stringLoop false latin1Read q f t (r ++ [92, q]) := by
  have hlen : 1 < (q :: t).length := by
    cases t with
    | nil => exact absurd rfl ht
    | cons a u => simp
  have hc2 : latin1Read (q :: t) = some (q, t) := rfl
  rw [stringLoop_latin1_step, if_neg (fun h => hq92 h.symm),
    if_pos ⟨rfl, hlen⟩, hc2]
  simp only [true_or, if_true]
  rw [toResultChar_of_lt (by omega : 92 < 256), toResultChar_of_lt hq]
  simp

theorem quote_lt {q : Nat} (h : q = 39 ∨ q = 34 ∨ q = 96) : q < 256 := by omega

theorem quote_ne_backslash {q : Nat} (h : q = 39 ∨ q = 34 ∨ q = 96) : q ≠ 92 := by omega

/-- The outer loop at an opening quote runs the string loop. -/
theorem scan_quote (q : Nat) (hq : q = 39 ∨ q = 34 ∨ q = 96) (f : Nat) (t r s' r' : List Nat)
    (h : stringLoop false latin1Read q f t (r ++ [q]) = .ok (true, s', r')) :
    stripCommentsFromSourceString false latin1Read (f + 1) (q :: t) r =
      stripCommentsFromSourceString false latin1Read f s' r' := by
  have hc : latin1Read (q :: t) = some (q, t) := rfl
  apply scan_step f (by simp)
  rw [loopBody_step f r hc, if_pos hq, toResultChar_of_lt (quote_lt hq)]
  exact h

theorem strip_eq_of_scan {s o : List Nat} {b : Bool}
    (h : stripCommentsFromSourceString false latin1Read (s.length + 1) s [] = .ok (b, o)) :
    stripCommentsFromLatin1SourceString s = o := by
  unfold stripCommentsFromLatin1SourceString
  rw [h]

/-- C1. Quoted text is copied untouched: for a quote character `q`, a byte
string `body` without `q` and without backslash, and any `rest`, the output for
`q ++ body ++ q ++ rest` is `q ++ body ++ q` followed by the output for `rest`. -/
theorem strip_quoted_copied (q : Nat) (body rest : List Nat)
    (hq : q = 39 ∨ q = 34 ∨ q = 96) (hb : ∀ b ∈ body, b < 256) (hqb : q ∉ body)
    (h92 : 92 ∉ body) :
    stripCommentsFromLatin1SourceString (q :: body ++ q :: rest) =
      q :: body ++ q :: stripCommentsFromLatin1SourceString rest := by
  apply strip_eq_of_scan (b := true)
  have hstr : stringLoop false latin1Read q ((rest.length + 1 + 1) + body.length)
      (body ++ q :: rest) ([] ++ [q]) = .ok (true, rest, [q] ++ body ++ [q]) := by
    rw [stringLoop_copies_plain q body hb hqb h92, stringLoop_close q (quote_lt hq)]
    simp
  have hlen : (q :: body ++ q :: rest).length + 1 = ((rest.length + 1 + 1) + body.length) + 1 := by
    simp; omega
  rw [hlen, List.cons_append, scan_quote q hq _ _ _ _ _ hstr,
    latin1_scan_continue rest _ _ (by omega)
      (by rw [lastIsBackslash_concat]; simp [quote_ne_backslash hq])]
  simp

/-- C1, at the input `"a // not a comment" // real comment<LF>b`: the theorem
applies with `body = a // not a comment`, and the whole output is
`"a // not a comment" <LF>b`. -/
theorem strip_quoted_copied_witness :
    ((34 : Nat) = 39 ∨ (34 : Nat) = 34 ∨ (34 : Nat) = 96) ∧
    (∀ b ∈ [97, 32, 47, 47, 32, 110, 111, 116, 32, 97, 32, 99, 111, 109, 109, 101, 110, 116],
      b < 256) ∧
    34 ∉ [97, 32, 47, 47, 32, 110, 111, 116, 32, 97, 32, 99, 111, 109, 109, 101, 110, 116] ∧
    92 ∉ [97, 32, 47, 47, 32, 110, 111, 116, 32, 97, 32, 99, 111, 109, 109, 101, 110, 116] ∧
    stripCommentsFromLatin1SourceString
      (34 :: [97, 32, 47, 47, 32, 110, 111, 116, 32, 97, 32, 99, 111, 109, 109, 101, 110, 116] ++
        34 :: [32, 47, 47, 32, 114, 101, 97, 108, 32, 99, 111, 109, 109, 101, 110, 116, 10, 98]) =
      34 :: [97, 32, 47, 47, 32, 110, 111, 116, 32, 97, 32, 99, 111, 109, 109, 101, 110, 116] ++
        34 :: stripCommentsFromLatin1SourceString
          [32, 47, 47, 32, 114, 101, 97, 108, 32, 99, 111, 109, 109, 101, 110, 116, 10, 98] ∧
    stripCommentsFromLatin1SourceString
      [34, 97, 32, 47, 47, 32, 110, 111, 116, 32, 97, 32, 99, 111, 109, 109, 101, 110, 116, 34,
        32, 47, 47, 32, 114, 101, 97, 108, 32, 99, 111, 109, 109, 101, 110, 116, 10, 98] =
      [34, 97, 32, 47, 47, 32, 110, 111, 116, 32, 97, 32, 99, 111, 109, 109, 101, 110, 116, 34,
        32, 10, 98] :=
  ⟨by decide, by decide, by decide, by decide,
    strip_quoted_copied 34 _ _ (by decide) (by decide) (by decide) (by decide), by decide⟩

/-- C5. Identity on comment-free input: a byte string without `/` and without
quote characters is returned as it is. -/
theorem strip_plain_identity (s : List Nat) (hb : ∀ b ∈ s, b < 256) (h47 : 47 ∉ s)
    (h39 : 39 ∉ s) (h34 : 34 ∉ s) (h96 : 96 ∉ s) :
    stripCommentsFromLatin1SourceString s = s := by
  apply strip_eq_of_scan (b := true)
  have := scan_copies_plain s hb h47 h39 h34 h96 1 [] []
  simp only [List.append_nil, List.nil_append] at this
  rw [Nat.add_comm, this, scan_nil]

theorem strip_plain_identity_witness :
    (∀ b ∈ [97, 92, 42, 10, 13, 255], b < 256) ∧ 47 ∉ [97, 92, 42, 10, 13, 255] ∧
    39 ∉ [97, 92, 42, 10, 13, 255] ∧ 34 ∉ [97, 92, 42, 10, 13, 255] ∧
    96 ∉ [97, 92, 42, 10, 13, 255] ∧
    stripCommentsFromLatin1SourceString [97, 92, 42, 10, 13, 255] = [97, 92, 42, 10, 13, 255] :=
  ⟨by decide, by decide, by decide, by decide, by decide,
    strip_plain_identity _ (by decide) (by decide) (by decide) (by decide) (by decide)⟩

/-- C6. An escaped quote does not end a string: with `s1` and `s2` free of the
quote `q` and of backslashes, the output for
`q ++ s1 ++ backslash ++ q ++ s2 ++ q ++ rest` is that text up to the last `q`
shown, followed by the output for `rest`. -/
theorem strip_escaped_quote (q : Nat) (s1 s2 rest : List Nat)
    (hq : q = 39 ∨ q = 34 ∨ q = 96) (hb1 : ∀ b ∈ s1, b < 256) (hq1 : q ∉ s1) (h921 : 92 ∉ s1)
    (hb2 : ∀ b ∈ s2, b < 256) (hq2 : q ∉ s2) (h922 : 92 ∉ s2) :
    stripCommentsFromLatin1SourceString (q :: s1 ++ 92 :: q :: s2 ++ q :: rest) =
      q :: s1 ++ 92 :: q :: s2 ++ q :: stripCommentsFromLatin1SourceString rest := by
  apply strip_eq_of_scan (b := true)
  have hstr : stringLoop false latin1Read q ((((rest.length + 1 + 1 + 1) + s2.length) + 1) + s1.length)
      (s1 ++ 92 :: q :: (s2 ++ q :: rest)) ([] ++ [q]) =
        .ok (true, rest, [q] ++ s1 ++ [92, q] ++ s2 ++ [q]) := by
    rw [stringLoop_copies_plain q s1 hb1 hq1 h921,
      stringLoop_escaped_quote q (quote_lt hq) (quote_ne_backslash hq) _ _ _ (by simp),
      stringLoop_copies_plain q s2 hb2 hq2 h922, stringLoop_close q (quote_lt hq)]
    simp
  have hlen : (q :: s1 ++ 92 :: q :: s2 ++ q :: rest).length + 1 =
      ((((rest.length + 1 + 1 + 1) + s2.length) + 1) + s1.length) + 1 := by
    simp; omega
  have hshape : q :: s1 ++ 92 :: q :: s2 ++ q :: rest = q :: (s1 ++ 92 :: q :: (s2 ++ q :: rest)) := by
    simp
  rw [hlen, hshape, scan_quote q hq _ _ _ _ _ hstr,
    latin1_scan_continue rest _ _ (by omega)
      (by rw [lastIsBackslash_concat]; simp [quote_ne_backslash hq])]
  simp

/-- C6, at the six bytes `"a\"b"`: they are returned unchanged. -/
theorem strip_escaped_quote_witness :
    ((34 : Nat) = 39 ∨ (34 : Nat) = 34 ∨ (34 : Nat) = 96) ∧
    (∀ b ∈ [97], b < 256) ∧ 34 ∉ [97] ∧ 92 ∉ [97] ∧
    (∀ b ∈ [98], b < 256) ∧ 34 ∉ [98] ∧ 92 ∉ [98] ∧
    stripCommentsFromLatin1SourceString (34 :: [97] ++ 92 :: 34 :: [98] ++ 34 :: []) =
      34 :: [97] ++ 92 :: 34 :: [98] ++ 34 :: stripCommentsFromLatin1SourceString [] ∧
    stripCommentsFromLatin1SourceString [34, 97, 92, 34, 98, 34] = [34, 97, 92, 34, 98, 34] :=
  ⟨by decide, by decide, by decide, by decide, by decide, by decide, by decide,
    strip_escaped_quote 34 [97] [98] [] (by decide) (by decide) (by decide) (by decide)
      (by decide) (by decide) (by decide), by decide⟩

/-! ## The single-byte scan: line comments -/

theorem isLineTerminator_byte {c : Nat} (hb : c < 256) (h13 : c ≠ 13) (h10 : c ≠ 10) :
    isLineTerminator c = false := by
  unfold isLineTerminator
  simp only [Bool.or_eq_false_iff, beq_eq_false_iff_ne, ne_eq]
  omega

/-- The line comment loop reads up to the first LF of a text without CR. -/
theorem skipLineLoop_latin1_body (body : List Nat) (hb : ∀ b ∈ body, b < 256)
    (h13 : 13 ∉ body) (h10 : 10 ∉ body) (rest : List Nat) :
    ∀ f, body.length < f → skipLineLoop latin1Read f (body ++ 10 :: rest) = .ok (10, rest) := by
  induction body with
  | nil =>
    intro f hf
    cases f with
    | zero => simp at hf
    | succ f =>
      have hc : latin1Read (10 :: rest) = some (10, rest) := rfl
      rw [List.nil_append, skipLineLoop_step f hc, if_neg]
      intro h
      exact h.2 (by decide)
  | cons c u ih =>
    intro f hf
    simp only [List.mem_cons, not_or] at h13 h10
    cases f with
    | zero => simp at hf
    | succ f =>
      have hc : latin1Read (c :: (u ++ 10 :: rest)) = some (c, u ++ 10 :: rest) := rfl
      have hlt := isLineTerminator_byte (hb c (List.mem_cons_self _ _))
        (fun h => h13.1 h.symm) (fun h => h10.1 h.symm)
      rw [List.cons_append, skipLineLoop_step f hc, if_pos ⟨by simp, by simp [hlt]⟩]
      exact ih (fun b hb' => hb b (List.mem_cons_of_mem _ hb')) h13.2 h10.2 f
        (by simp at hf; omega)

/-- The outer loop at `//` with more input behind it, after a result that does
not end in a backslash. -/
theorem loopBody_latin1_lineComment (f : Nat) (t r : List Nat) (ht : t ≠ [])
    (hr : lastIsBackslash r = false) :
    loopBody false latin1Read f (47 :: 47 :: t) r =
      match skipLineLoop latin1Read f t with
      | .outOfFuel => .outOfFuel
      | .outOfBounds => .outOfBounds
      | .ok (c2, s3) =>
        match lineCommentTail latin1Read c2 s3 with
        | .outOfFuel => .outOfFuel
        | .outOfBounds => .outOfBounds
        | .ok (c3, s4) => emitCharacter false c3 s4 r := by
  have hc : latin1Read (47 :: 47 :: t) = some (47, 47 :: t) := rfl
  have hc1 : latin1Read (47 :: t) = some (47, t) := rfl
  have hlen : 1 < (47 :: t).length := by
    cases t with
    | nil => exact absurd rfl ht
    | cons a u => simp
  rw [loopBody_step f r hc, if_neg (by omega), if_pos ⟨rfl, hlen⟩, hc1]
  exact if_pos ⟨rfl, (guard_iff r).mpr hr⟩

/-- C2. A line comment ended by LF is removed and the LF kept: with `pre` free
of `/`, quotes and backslashes and `body` free of CR and LF, the output for
`pre ++ "//" ++ body ++ LF ++ rest` is `pre ++ LF` followed by the output for
`rest`. -/
theorem strip_line_comment_lf (pre body rest : List Nat) (hbp : ∀ b ∈ pre, b < 256)
    (h47 : 47 ∉ pre) (h39 : 39 ∉ pre) (h34 : 34 ∉ pre) (h96 : 96 ∉ pre) (h92 : 92 ∉ pre)
    (hbb : ∀ b ∈ body, b < 256) (h13 : 13 ∉ body) (h10 : 10 ∉ body) :
    stripCommentsFromLatin1SourceString (pre ++ 47 :: 47 :: body ++ 10 :: rest) =
      pre ++ 10 :: stripCommentsFromLatin1SourceString rest := by
  apply strip_eq_of_scan (b := true)
  have hlen : (pre ++ 47 :: 47 :: body ++ 10 :: rest).length + 1 =
      ((body.length + rest.length + 3) + 1) + pre.length := by
    simp; omega
  have hshape : pre ++ 47 :: 47 :: body ++ 10 :: rest = pre ++ 47 :: 47 :: (body ++ 10 :: rest) := by
    simp
  have hbody : loopBody false latin1Read (body.length + rest.length + 3)
      (47 :: 47 :: (body ++ 10 :: rest)) ([] ++ pre) = .ok (true, rest, pre ++ [10]) := by
    rw [loopBody_latin1_lineComment _ _ _ (by simp)
        (by simpa using lastIsBackslash_of_not_mem pre h92),
      skipLineLoop_latin1_body body hbb h13 h10 rest _ (by omega)]
    simp [lineCommentTail, emitCharacter, toResultChar]
  rw [hlen, hshape, scan_copies_plain pre hbp h47 h39 h34 h96, scan_step _ (by simp) hbody,
    latin1_scan_continue rest _ _ (by omega) (by rw [lastIsBackslash_concat]; simp)]
  simp

theorem strip_line_comment_lf_witness :
    (∀ b ∈ [97, 32], b < 256) ∧ 47 ∉ [97, 32] ∧ 39 ∉ [97, 32] ∧ 34 ∉ [97, 32] ∧
    96 ∉ [97, 32] ∧ 92 ∉ [97, 32] ∧
    (∀ b ∈ [32, 34, 47, 42, 120], b < 256) ∧ 13 ∉ [32, 34, 47, 42, 120] ∧
    10 ∉ [32, 34, 47, 42, 120] ∧
    stripCommentsFromLatin1SourceString
      ([97, 32] ++ 47 :: 47 :: [32, 34, 47, 42, 120] ++ 10 :: [98, 47, 47, 99, 10]) =
      [97, 32] ++ 10 :: stripCommentsFromLatin1SourceString [98, 47, 47, 99, 10] ∧
    stripCommentsFromLatin1SourceString
      [97, 32, 47, 47, 32, 34, 47, 42, 120, 10, 98, 47, 47, 99, 10] = [97, 32, 10, 98, 10] :=
  ⟨by decide, by decide, by decide, by decide, by decide, by decide, by decide, by decide,
    by decide,
    strip_line_comment_lf [97, 32] [32, 34, 47, 42, 120] [98, 47, 47, 99, 10] (by decide)
      (by decide) (by decide) (by decide) (by decide) (by decide) (by decide) (by decide)
      (by decide),
    by decide⟩

/-! ## The single-byte scan: block comments -/

theorem countLineTerminators_crlf (t : List Nat) :
    countLineTerminators (13 :: 10 :: t) = countLineTerminators t + 1 := rfl

theorem countLineTerminators_cr_other (d : Nat) (t : List Nat) (hd : d ≠ 10) :
    countLineTerminators (13 :: d :: t) = countLineTerminators (d :: t) + 1 := by
  rw [countLineTerminators]
  · simp [isLineTerminator]; omega
  · intro t' _ h
    simp only [List.cons.injEq] at h
    exact hd h.1

theorem countLineTerminators_cons (c : Nat) (t : List Nat) (hc : c ≠ 13) :
    countLineTerminators (c :: t) =
      (if isLineTerminator c = true then 1 else 0) + countLineTerminators t := by
  rw [countLineTerminators]
  intro t' h
  exact absurd h hc

/-- One iteration of the block comment loop of the single-byte scan. -/
theorem blockCommentLoop_latin1_step (f c : Nat) (t r : List Nat) :
    blockCommentLoop latin1Read (f + 1) (c :: t) r =
      if c = 42 ∧ 1 < t.length then
        match latin1Read t with
        | none => .outOfBounds
        | some (c1, s2) =>
          if c1 = 47 then .ok (s2, r) else blockCommentLoop latin1Read f s2 r
      else if isLineTerminator c = true then
        if c = 13 ∧ 1 < t.length then
          match latin1Read t with
          | none => .outOfBounds
          | some (c1, fwd) =>
            if c1 = 10 then blockCommentLoop latin1Read f fwd (r ++ [10])
            else blockCommentLoop latin1Read f t (r ++ [10])
        else blockCommentLoop latin1Read f t (r ++ [10])
      else blockCommentLoop latin1Read f t r :=
  @blockCommentLoop_step latin1Read c (c :: t) t f r (by simp) rfl

/-- The block comment loop at the closing `*/`. -/
theorem blockCommentLoop_latin1_close (f : Nat) (rest r : List Nat) (hf : 3 ≤ f) :
    blockCommentLoop latin1Read f (42 :: 47 :: rest) r = .ok (rest, r) := by
  obtain ⟨f1, rfl⟩ : ∃ f1, f = f1 + 1 := ⟨f - 1, by omega⟩
  rw [blockCommentLoop_latin1_step]
  cases rest with
  | nil =>
    obtain ⟨f2, rfl⟩ : ∃ f2, f1 = f2 + 1 := ⟨f1 - 1, by omega⟩
    obtain ⟨f3, rfl⟩ : ∃ f3, f2 = f3 + 1 := ⟨f2 - 1, by omega⟩
    rw [if_neg (by simp), if_neg (by decide), blockCommentLoop_latin1_step,
      if_neg (by simp), if_neg (by decide), blockCommentLoop_nil]
  | cons a u =>
    rw [if_pos ⟨rfl, by simp⟩]
    rfl

/-- The block comment loop on a body without `*`, up to the closing `*/`: one
LF is appended for every line terminator of the body. -/
theorem blockCommentLoop_latin1_body :
    ∀ (n : Nat) (body : List Nat), body.length ≤ n → 42 ∉ body →
      ∀ f rest r, body.length + 3 ≤ f →
        blockCommentLoop latin1Read f (body ++ 42 :: 47 :: rest) r =
          .ok (rest, r ++ List.replicate (countLineTerminators body) 10) := by
  intro n
  induction n with
  | zero =>
    intro body hn _ f rest r hf
    have hb : body = [] := List.length_eq_zero.mp (Nat.le_zero.mp hn)
    subst hb
    rw [List.nil_append, blockCommentLoop_latin1_close f rest r (by simpa using hf)]
    simp [countLineTerminators]
  | succ n ih =>
    intro body hn h42 f rest r hf
    cases body with
    | nil =>
      rw [List.nil_append, blockCommentLoop_latin1_close f rest r (by simpa using hf)]
      simp [countLineTerminators]
    | cons c u =>
      simp only [List.mem_cons, not_or] at h42
      simp only [List.length_cons] at hn hf
      obtain ⟨f1, rfl⟩ : ∃ f1, f = f1 + 1 := ⟨f - 1, by omega⟩
      have hlen : 1 < (u ++ 42 :: 47 :: rest).length := by
        simp only [List.length_append, List.length_cons]; omega
      have hstar : ¬ (c = 42 ∧ 1 < (u ++ 42 :: 47 :: rest).length) :=
        fun h => h42.1 h.1.symm
      rw [List.cons_append, blockCommentLoop_latin1_step, if_neg hstar]
      by_cases hterm : isLineTerminator c = true
      · rw [if_pos hterm]
        by_cases hcr : c = 13
        · subst hcr
          rw [if_pos ⟨rfl, hlen⟩]
          cases u with
          | nil =>
            have hc1 : latin1Read ([] ++ 42 :: 47 :: rest) = some (42, 47 :: rest) := rfl
            rw [hc1]
            simp only [if_neg (by decide : ¬ (42 : Nat) = 10)]
            rw [List.nil_append, blockCommentLoop_latin1_close f1 rest _ (by omega)]
            simp [countLineTerminators, isLineTerminator]
          | cons d v =>
            have hc1 : latin1Read (d :: v ++ 42 :: 47 :: rest) =
                some (d, v ++ 42 :: 47 :: rest) := rfl
            simp only [List.mem_cons, not_or] at h42
            simp only [List.length_cons] at hn hf
            rw [hc1]
            by_cases hlf : d = 10
            · subst hlf
              simp only [if_true]
              rw [ih v (by omega) h42.2.2 f1 rest _ (by omega), countLineTerminators_crlf]
              simp [List.replicate_succ]
            · simp only [if_neg hlf]
              rw [ih (d :: v) (by simp; omega) (by simp [h42.2.1, h42.2.2]) f1 rest _
                  (by simp; omega),
                countLineTerminators_cr_other d v hlf]
              simp [List.replicate_succ]
        · rw [if_neg (fun h => hcr h.1), ih u (by omega) h42.2 f1 rest _ (by omega),
            countLineTerminators_cons c u hcr, if_pos hterm, Nat.add_comm]
          simp [List.replicate_succ]
      · have hcr : c ≠ 13 := by
          intro h; subst h; exact hterm (by decide)
        rw [if_neg hterm, ih u (by omega) h42.2 f1 rest _ (by omega),
          countLineTerminators_cons c u hcr, if_neg hterm]
        simp

/-- The outer loop at `/*` with more input behind it runs the block comment loop. -/
theorem loopBody_latin1_blockComment (f : Nat) (t r : List Nat) (ht : t ≠ []) :
    loopBody false latin1Read f (47 :: 42 :: t) r =
      match blockCommentLoop latin1Read f t r with
      | .outOfFuel => .outOfFuel
      | .outOfBounds => .outOfBounds
      | .ok (s3, r1) => .ok (true, s3, r1) := by
  have hc : latin1Read (47 :: 42 :: t) = some (47, 42 :: t) := rfl
  have hc1 : latin1Read (42 :: t) = some (42, t) := rfl
  have hlen : 1 < (42 :: t).length := by
    cases t with
    | nil => exact absurd rfl ht
    | cons a u => simp
  rw [loopBody_step f r hc, if_neg (by omega), if_pos ⟨rfl, hlen⟩, hc1]
  exact (if_neg (fun h => by omega)).trans (if_pos rfl)

/-- The scan of a block comment whose body has no `*`, after a prefix without
`/` and quotes: the comment leaves one LF per line terminator and the scan goes
on behind the closing `*/`. -/
theorem scan_block_comment (pre body rest : List Nat) (hbp : ∀ b ∈ pre, b < 256)
    (h47 : 47 ∉ pre) (h39 : 39 ∉ pre) (h34 : 34 ∉ pre) (h96 : 96 ∉ pre) (h42 : 42 ∉ body) :
    stripCommentsFromSourceString false latin1Read
        ((pre ++ 47 :: 42 :: body ++ 42 :: 47 :: rest).length + 1)
        (pre ++ 47 :: 42 :: body ++ 42 :: 47 :: rest) [] =
      stripCommentsFromSourceString false latin1Read (body.length + rest.length + 4) rest
        (pre ++ List.replicate (countLineTerminators body) 10) := by
  have hlen : (pre ++ 47 :: 42 :: body ++ 42 :: 47 :: rest).length + 1 =
      ((body.length + rest.length + 4) + 1) + pre.length := by
    simp; omega
  have hshape : pre ++ 47 :: 42 :: body ++ 42 :: 47 :: rest =
      pre ++ 47 :: 42 :: (body ++ 42 :: 47 :: rest) := by
    simp
  have hbody : loopBody false latin1Read (body.length + rest.length + 4)
      (47 :: 42 :: (body ++ 42 :: 47 :: rest)) ([] ++ pre) =
        .ok (true, rest, pre ++ List.replicate (countLineTerminators body) 10) := by
    rw [loopBody_latin1_blockComment _ _ _ (by simp),
      blockCommentLoop_latin1_body body.length body (le_refl _) h42 _ rest _ (by omega)]
    simp
  rw [hlen, hshape, scan_copies_plain pre hbp h47 h39 h34 h96, scan_step _ (by simp) hbody]

/-- C3, as amended. A block comment whose body has no `*` is closed by the `*/`
behind the body and replaced by one LF per line terminator of the body (a CR+LF
pair counting once): with `pre` free of `/` and quotes, and `pre` followed by
these LFs not ending in a backslash, the output for
`pre ++ "/*" ++ body ++ "*/" ++ rest` is `pre`, the LFs and the output for `rest`. -/
theorem strip_block_comment_no_star (pre body rest : List Nat) (hbp : ∀ b ∈ pre, b < 256)
    (h47 : 47 ∉ pre) (h39 : 39 ∉ pre) (h34 : 34 ∉ pre) (h96 : 96 ∉ pre) (h42 : 42 ∉ body)
    (hlast : (pre ++ List.replicate (countLineTerminators body) 10).getLast? ≠ some 92) :
    stripCommentsFromLatin1SourceString (pre ++ 47 :: 42 :: body ++ 42 :: 47 :: rest) =
      pre ++ List.replicate (countLineTerminators body) 10 ++
        stripCommentsFromLatin1SourceString rest := by
  apply strip_eq_of_scan (b := true)
  rw [scan_block_comment pre body rest hbp h47 h39 h34 h96 h42,
    latin1_scan_continue rest _ _ (by omega) (by simpa [lastIsBackslash] using hlast)]

theorem strip_block_comment_no_star_witness :
    (∀ b ∈ [97, 92], b < 256) ∧ 47 ∉ [97, 92] ∧ 39 ∉ [97, 92] ∧ 34 ∉ [97, 92] ∧
    96 ∉ [97, 92] ∧ 42 ∉ [13, 10, 47, 47, 13, 34, 10] ∧
    ([97, 92] ++ List.replicate (countLineTerminators [13, 10, 47, 47, 13, 34, 10]) 10).getLast? ≠
      some 92 ∧
    stripCommentsFromLatin1SourceString
      ([97, 92] ++ 47 :: 42 :: [13, 10, 47, 47, 13, 34, 10] ++ 42 :: 47 :: [47, 47, 98, 10]) =
      [97, 92] ++ List.replicate (countLineTerminators [13, 10, 47, 47, 13, 34, 10]) 10 ++
        stripCommentsFromLatin1SourceString [47, 47, 98, 10] ∧
    stripCommentsFromLatin1SourceString
      [97, 92, 47, 42, 13, 10, 47, 47, 13, 34, 10, 42, 47, 47, 47, 98, 10] =
      [97, 92, 10, 10, 10, 10] :=
  ⟨by decide, by decide, by decide, by decide, by decide, by decide, by decide,
    strip_block_comment_no_star [97, 92] [13, 10, 47, 47, 13, 34, 10] [47, 47, 98, 10]
      (by decide) (by decide) (by decide) (by decide) (by decide) (by decide) (by decide),
    by decide⟩

/-- C3 as stated fails. On `/***/x` the body `*` does not contain `*/`, yet the
comment is not closed and the output is empty, not `x`. On the input
`\/**///a<LF>b` the comment is empty, and the `//` behind it is copied because
the result ends in a backslash: the output is `\//a<LF>b`, not `\<LF>b`. -/
theorem strip_block_comment_counterexample :
    (47 ∉ ([] : List Nat) ∧ 39 ∉ ([] : List Nat) ∧ 34 ∉ ([] : List Nat) ∧
      96 ∉ ([] : List Nat) ∧ containsCommentEnd [42] = false ∧
      stripCommentsFromLatin1SourceString ([] ++ 47 :: 42 :: [42] ++ 42 :: 47 :: [120]) = [] ∧
      [] ++ List.replicate (countLineTerminators [42]) 10 ++
        stripCommentsFromLatin1SourceString [120] = [120]) ∧
    (47 ∉ [92] ∧ 39 ∉ [92] ∧ 34 ∉ [92] ∧ 96 ∉ [92] ∧ containsCommentEnd [] = false ∧
      stripCommentsFromLatin1SourceString
        ([92] ++ 47 :: 42 :: [] ++ 42 :: 47 :: [47, 47, 97, 10, 98]) =
        [92, 47, 47, 97, 10, 98] ∧
      [92] ++ List.replicate (countLineTerminators []) 10 ++
        stripCommentsFromLatin1SourceString [47, 47, 97, 10, 98] = [92, 10, 98]) := by
  decide

/-- C4, as amended. A block comment is not collapsed to a single newline: when
its body has no `*` and contains `k ≥ 1` line terminators (a CR+LF pair counting
once), exactly `k` LFs stand in its place. With `pre` free of `/` and quotes,
the output for `pre ++ "/*" ++ body ++ "*/" ++ rest` is `pre`, `k` LFs and the
output for `rest`. -/
theorem strip_block_comment_keeps_lines (pre body rest : List Nat)
    (hbp : ∀ b ∈ pre, b < 256) (h47 : 47 ∉ pre) (h39 : 39 ∉ pre) (h34 : 34 ∉ pre)
    (h96 : 96 ∉ pre) (h42 : 42 ∉ body) (hk : 1 ≤ countLineTerminators body) :
    stripCommentsFromLatin1SourceString (pre ++ 47 :: 42 :: body ++ 42 :: 47 :: rest) =
      pre ++ List.replicate (countLineTerminators body) 10 ++
        stripCommentsFromLatin1SourceString rest ∧
    (List.replicate (countLineTerminators body) 10).length = countLineTerminators body := by
  refine ⟨?_, List.length_replicate _ _⟩
  apply strip_eq_of_scan (b := true)
  have hlast : lastIsBackslash (pre ++ List.replicate (countLineTerminators body) 10) = false := by
    obtain ⟨k, hk'⟩ : ∃ k, countLineTerminators body = k + 1 :=
      ⟨countLineTerminators body - 1, by omega⟩
    rw [hk', List.replicate_succ', ← List.append_assoc, lastIsBackslash_concat]
    decide
  rw [scan_block_comment pre body rest hbp h47 h39 h34 h96 h42,
    latin1_scan_continue rest _ _ (by omega) hlast]

/-- C4, at `a/*<LF><LF>*/b`: the body has two line terminators and the output
is `a<LF><LF>b`. -/
theorem strip_block_comment_keeps_lines_witness :
    (∀ b ∈ [97], b < 256) ∧ 47 ∉ [97] ∧ 39 ∉ [97] ∧ 34 ∉ [97] ∧ 96 ∉ [97] ∧
    42 ∉ [10, 10] ∧ 1 ≤ countLineTerminators [10, 10] ∧
    (stripCommentsFromLatin1SourceString ([97] ++ 47 :: 42 :: [10, 10] ++ 42 :: 47 :: [98]) =
      [97] ++ List.replicate (countLineTerminators [10, 10]) 10 ++
        stripCommentsFromLatin1SourceString [98] ∧
      (List.replicate (countLineTerminators [10, 10]) 10).length =
        countLineTerminators [10, 10]) ∧
    countLineTerminators [10, 10] = 2 :=
  ⟨by decide, by decide, by decide, by decide, by decide, by decide, by decide,
    strip_block_comment_keeps_lines [97] [10, 10] [98] (by decide) (by decide) (by decide)
      (by decide) (by decide) (by decide) (by decide),
    by decide⟩

/-- C4 as stated fails: the body of the comment in `a/*<LF><LF>*/b` has two line
terminators and no `*/`, and the output is `a<LF><LF>b` with two LFs, not
`a<LF>b`. -/
theorem strip_block_comment_single_newline_counterexample :
    containsCommentEnd [10, 10] = false ∧ 1 ≤ countLineTerminators [10, 10] ∧
    stripCommentsFromLatin1SourceString [97, 47, 42, 10, 10, 42, 47, 98] = [97, 10, 10, 98] ∧
    stripCommentsFromLatin1SourceString [97, 47, 42, 10, 10, 42, 47, 98] ≠ [97, 10, 98] := by
  decide

/-! ## Conversion from UTF-8 without comment stripping -/

theorem utf8Encode_ne_nil (c : Nat) : utf8Encode c ≠ [] := by
  unfold utf8Encode
  split_ifs <;> simp

theorem utf8Encode_length_pos (c : Nat) : 0 < (utf8Encode c).length :=
  List.length_pos.mpr (utf8Encode_ne_nil c)

/-- Reading decodes a UTF-8 encoded code point and moves behind its bytes. -/
theorem utf8Read_encode (c : Nat) (hc : c ≤ 0x10FFFF) (rest : List Nat) :
    utf8Read (utf8Encode c ++ rest) = some (c, rest) := by
  unfold utf8Encode
  split_ifs with h1 h2 h3
  · have hl : getLength c = 1 := by unfold getLength; simp [h1]
    simp only [List.cons_append, List.nil_append, utf8Read, hl, read, accumulate,
      s_offsetsFromUTF8]
    simp
    omega
  · have hl : getLength (0xC0 + c / 64) = 2 := by
      unfold getLength
      rw [if_neg (by omega), if_neg (by omega), if_pos (by omega)]
    simp only [List.cons_append, List.nil_append, utf8Read, hl, read, accumulate,
      s_offsetsFromUTF8]
    simp
    omega
  · have hl : getLength (0xE0 + c / 4096) = 3 := by
      unfold getLength
      rw [if_neg (by omega), if_neg (by omega), if_neg (by omega), if_pos (by omega)]
    simp only [List.cons_append, List.nil_append, utf8Read, hl, read, accumulate,
      s_offsetsFromUTF8]
    simp
    omega
  · have hl : getLength (0xF0 + c / 262144) = 4 := by
      unfold getLength
      rw [if_neg (by omega), if_neg (by omega), if_neg (by omega), if_neg (by omega),
        if_pos (by omega)]
    simp only [List.cons_append, List.nil_append, utf8Read, hl, read, accumulate,
      s_offsetsFromUTF8]
    simp
    omega

theorem utf8EncodeAll_cons_length (c : Nat) (cs : List Nat) :
    (utf8EncodeAll cs).length < (utf8EncodeAll (c :: cs)).length := by
  have := utf8Encode_length_pos c
  simp only [utf8EncodeAll, List.length_append]
  omega

/-- One iteration of the conversion loop at an encoded code point. -/
theorem convertLoop_step (f c : Nat) (hc : c ≤ 0x10FFFF) (cs out : List Nat) :
    convertLoop (f + 1) (utf8EncodeAll (c :: cs)) out =
      if c > 255 then .ok (false, out)
      else convertLoop f (utf8EncodeAll cs) (out ++ [toResultChar c]) := by
  have hpos : 0 < (utf8EncodeAll (c :: cs)).length := by
    have := utf8EncodeAll_cons_length c cs
    omega
  rw [convertLoop, if_pos hpos]
  simp only [utf8EncodeAll, utf8Read_encode c hc]

/-- The conversion loop on encoded code points: it returns true exactly when all
of them are at most 255, and has then appended them all. -/
theorem convertLoop_encoded (cs : List Nat) (hv : ∀ c ∈ cs, c ≤ 0x10FFFF) :
    ∀ f out, (utf8EncodeAll cs).length < f →
      ∃ b res, convertLoop f (utf8EncodeAll cs) out = .ok (b, res) ∧
        (b = true ↔ ∀ c ∈ cs, c ≤ 255) ∧ (b = true → res = out ++ cs) := by
  induction cs with
  | nil =>
    intro f out hf
    cases f with
    | zero => simp at hf
    | succ f =>
      refine ⟨true, out, ?_, by simp, by simp⟩
      simp [convertLoop, utf8EncodeAll]
  | cons c t ih =>
    intro f out hf
    cases f with
    | zero => simp at hf
    | succ f =>
      have hc := hv c (List.mem_cons_self _ _)
      rw [convertLoop_step f c hc]
      by_cases hbig : c > 255
      · refine ⟨false, out, by rw [if_pos hbig], ?_, by simp⟩
        simp only [Bool.false_eq_true, false_iff, not_forall]
        exact ⟨c, List.mem_cons_self _ _, by omega⟩
      · have hlt := utf8EncodeAll_cons_length c t
        obtain ⟨b, res, h, hb, hres⟩ :=
          ih (fun x hx => hv x (List.mem_cons_of_mem _ hx)) f (out ++ [toResultChar c])
            (by omega)
        refine ⟨b, res, by rw [if_neg hbig, h], ?_, ?_⟩
        · rw [hb]
          simp only [List.mem_cons, forall_eq_or_imp]
          constructor
          · intro h'; exact ⟨by omega, h'⟩
          · intro h'; exact h'.2
        · intro hb'
          rw [hres hb', toResultChar_of_lt (by omega)]
          simp

/-- C7. `convertUTF8ToLatin1` with `stripComment = false` on the UTF-8 text of
the code points `cs`: the call returns, the flag is true exactly when every code
point is at most 255, and then the bytes appended to `oneByteString` are the code
points in order. -/
theorem convertUTF8ToLatin1_plain (cs out : List Nat) (hv : ∀ c ∈ cs, c ≤ 0x10FFFF) :
    ∃ b res, convertUTF8ToLatin1 out (utf8EncodeAll cs) false = .ok (b, res) ∧
      (b = true ↔ ∀ c ∈ cs, c ≤ 255) ∧ (b = true → res = out ++ cs) := by
  unfold convertUTF8ToLatin1
  simp only [Bool.false_eq_true, if_false]
  exact convertLoop_encoded cs hv _ out (by omega)

/-- C7, at the text `a` U+1F600: the call returns false. -/
theorem convertUTF8ToLatin1_plain_witness :
    (∀ c ∈ [97, 0x1F600], c ≤ 0x10FFFF) ∧
    (∃ b res, convertUTF8ToLatin1 [] (utf8EncodeAll [97, 0x1F600]) false = .ok (b, res) ∧
      (b = true ↔ ∀ c ∈ [97, 0x1F600], c ≤ 255) ∧ (b = true → res = [] ++ [97, 0x1F600])) ∧
    utf8EncodeAll [97, 0x1F600] = [0x61, 0xF0, 0x9F, 0x98, 0x80] ∧
    convertUTF8ToLatin1 [] [0x61, 0xF0, 0x9F, 0x98, 0x80] false = .ok (false, [97]) ∧
    convertUTF8ToLatin1 [] [0x61, 0xC3, 0xA9, 0xC3, 0xBF] false = .ok (true, [97, 233, 255]) :=
  ⟨by decide, convertUTF8ToLatin1_plain [97, 0x1F600] [] (by decide), by decide, by decide,
    by decide⟩

/-! ## Conversion from UTF-8 with comment stripping -/

theorem utf8Read_encodeAll_cons (c : Nat) (hc : c ≤ 0x10FFFF) (cs : List Nat) :
    utf8Read (utf8EncodeAll (c :: cs)) = some (c, utf8EncodeAll cs) := by
  simp only [utf8EncodeAll, utf8Read_encode c hc]

theorem utf8EncodeAll_cons_ne_nil (c : Nat) (cs : List Nat) : utf8EncodeAll (c :: cs) ≠ [] := by
  simp [utf8EncodeAll, utf8Encode_ne_nil]

theorem utf8EncodeAll_eq_nil {cs : List Nat} (h : utf8EncodeAll cs = []) : cs = [] := by
  cases cs with
  | nil => rfl
  | cons c t => exact absurd h (utf8EncodeAll_cons_ne_nil c t)

theorem utf8EncodeAll_append (xs ys : List Nat) :
    utf8EncodeAll (xs ++ ys) = utf8EncodeAll xs ++ utf8EncodeAll ys := by
  induction xs with
  | nil => rfl
  | cons c t ih => simp [utf8EncodeAll, ih]

/-- The UTF-8 texts of code points up to 255 read well under the Latin-1 check. -/
theorem utf8Read_readsWell :
    ReadsWell true utf8Read (fun s => ∃ cs, (∀ c ∈ cs, c ≤ 255) ∧ s = utf8EncodeAll cs) := by
  intro s hG hs
  obtain ⟨cs, hcs, rfl⟩ := hG
  cases cs with
  | nil => exact absurd rfl hs
  | cons c t =>
    have hc : c ≤ 255 := hcs c (List.mem_cons_self _ _)
    refine ⟨c, utf8EncodeAll t, utf8Read_encodeAll_cons c (by omega) t,
      utf8EncodeAll_cons_length c t,
      ⟨t, fun x hx => hcs x (List.mem_cons_of_mem _ hx), rfl⟩, fun _ => hc, ?_⟩
    intro h128
    simp [utf8EncodeAll, utf8Encode, h128]

/-- The string loop returns false at a character that fails the Latin-1 check. -/
theorem stringLoop_step_fail {rd : List Nat → Option (Nat × List Nat)} {q c : Nat}
    {s s1 : List Nat} (f : Nat) (r : List Nat) (hs : s ≠ []) (hc : rd s = some (c, s1))
    (hbig : c > 255) :
    stringLoop true rd q (f + 1) s r = .ok (false, s1, r) := by
  have hpos : 0 < s.length := List.length_pos.mpr hs
  rw [stringLoop]
  simp only [hpos, if_true, hc]
  simp [hbig]

/-- The string loop of the checked scan on encoded code points: either it is
left behind a part `pre` of code points up to 255, or it returns false and some
code point is above 255. -/
theorem stringLoop_utf8 (q : Nat) (hq255 : q ≤ 255) :
    ∀ (n : Nat) (cs : List Nat), cs.length ≤ n → (∀ c ∈ cs, c ≤ 0x10FFFF) →
      ∀ f r, (utf8EncodeAll cs).length < f →
        (∃ pre cs' r', cs = pre ++ cs' ∧ (∀ c ∈ pre, c ≤ 255) ∧
          stringLoop true utf8Read q f (utf8EncodeAll cs) r = .ok (true, utf8EncodeAll cs', r')) ∨
        (∃ s' r', stringLoop true utf8Read q f (utf8EncodeAll cs) r = .ok (false, s', r') ∧
          ∃ c ∈ cs, c > 255) := by
  intro n
  induction n with
  | zero =>
    intro cs hn _ f r hf
    have hcs : cs = [] := List.length_eq_zero.mp (Nat.le_zero.mp hn)
    subst hcs
    cases f with
    | zero => simp at hf
    | succ f =>
      left
      exact ⟨[], [], r, rfl, by simp, by simp [utf8EncodeAll, stringLoop_nil]⟩
  | succ n ih =>
    intro cs hn hv f r hf
    cases f with
    | zero => simp at hf
    | succ f =>
      cases cs with
      | nil =>
        left
        exact ⟨[], [], r, rfl, by simp, by simp [utf8EncodeAll, stringLoop_nil]⟩
      | cons c t =>
        have hvc := hv c (List.mem_cons_self _ _)
        have hvt : ∀ x ∈ t, x ≤ 0x10FFFF := fun x hx => hv x (List.mem_cons_of_mem _ hx)
        have hrd := utf8Read_encodeAll_cons c hvc t
        have hne := utf8EncodeAll_cons_ne_nil c t
        have hlt := utf8EncodeAll_cons_length c t
        simp only [List.length_cons] at hn
        by_cases hbig : c > 255
        · right
          exact ⟨_, _, stringLoop_step_fail f r hne hrd hbig, c, List.mem_cons_self _ _, hbig⟩
        · have hchk : (true && decide (c > 255)) = false := by simp; omega
          have plain : ∀ r1,
              (∃ pre cs' r', c :: t = pre ++ cs' ∧ (∀ x ∈ pre, x ≤ 255) ∧
                stringLoop true utf8Read q f (utf8EncodeAll t) r1 =
                  .ok (true, utf8EncodeAll cs', r')) ∨
              (∃ s' r', stringLoop true utf8Read q f (utf8EncodeAll t) r1 = .ok (false, s', r') ∧
                ∃ x ∈ c :: t, x > 255) := by
            intro r1
            rcases ih t (by omega) hvt f r1 (by omega) with
              ⟨pre, cs', r', hsplit, hpre, h⟩ | ⟨s', r', h, x, hx, hxbig⟩
            · left
              refine ⟨c :: pre, cs', r', by rw [hsplit]; rfl, ?_, h⟩
              intro x hx
              rcases List.mem_cons.mp hx with rfl | hx
              · omega
              · exact hpre x hx
            · right
              exact ⟨s', r', h, x, List.mem_cons_of_mem _ hx, hxbig⟩
          rw [stringLoop_step f r hne hrd hchk]
          by_cases hq : c = q
          · left
            rw [if_pos hq]
            exact ⟨[c], t, _, rfl, by simp; omega, rfl⟩
          · rw [if_neg hq]
            by_cases hb : c = 92 ∧ 1 < (utf8EncodeAll t).length
            · rw [if_pos hb]
              cases t with
              | nil => simp [utf8EncodeAll] at hb
              | cons d u =>
                have hvd := hvt d (List.mem_cons_self _ _)
                have hvu : ∀ x ∈ u, x ≤ 0x10FFFF :=
                  fun x hx => hvt x (List.mem_cons_of_mem _ hx)
                have hlt2 := utf8EncodeAll_cons_length d u
                simp only [List.length_cons] at hn
                rw [utf8Read_encodeAll_cons d hvd u]
                by_cases hesc : d = q ∨ d = 92
                · simp only [if_pos hesc]
                  have hd : d ≤ 255 := by
                    rcases hesc with h | h
                    · omega
                    · omega
                  rcases ih u (by omega) hvu f
                      (r ++ [toResultChar c] ++ [toResultChar d]) (by omega) with
                    ⟨pre, cs', r', hsplit, hpre, h⟩ | ⟨s', r', h, x, hx, hxbig⟩
                  · left
                    refine ⟨c :: d :: pre, cs', r', by rw [hsplit]; rfl, ?_, h⟩
                    intro x hx
                    rcases List.mem_cons.mp hx with rfl | hx
                    · omega
                    · rcases List.mem_cons.mp hx with rfl | hx
                      · exact hd
                      · exact hpre x hx
                  · right
                    exact ⟨s', r', h, x,
                      List.mem_cons_of_mem _ (List.mem_cons_of_mem _ hx), hxbig⟩
                · simp only [if_neg hesc]
                  exact plain _
            · rw [if_neg hb]
              exact plain _

/-- The outer loop returns false at a character that fails the Latin-1 check
and is neither a quote nor a slash. -/
theorem loopBody_utf8_plain (f c : Nat) (hc : c ≤ 0x10FFFF) (t r : List Nat)
    (hq : ¬ (c = 39 ∨ c = 34 ∨ c = 96)) (hs : c ≠ 47) :
    loopBody true utf8Read f (utf8EncodeAll (c :: t)) r =
      if c > 255 then .ok (false, utf8EncodeAll t, r)
      else .ok (true, utf8EncodeAll t, r ++ [toResultChar c]) := by
  rw [loopBody_step f r (utf8Read_encodeAll_cons c hc t), if_neg hq,
    if_neg (fun h => hs h.1), emitCharacter]
  simp

/-- The checked scan on encoded code points without `/`: the flag tells whether
all code points are at most 255. -/
theorem scan_utf8_no_slash :
    ∀ (n : Nat) (cs : List Nat), cs.length ≤ n → (∀ c ∈ cs, c ≤ 0x10FFFF) → 47 ∉ cs →
      ∀ f r, (utf8EncodeAll cs).length < f →
        ∃ r', stripCommentsFromSourceString true utf8Read f (utf8EncodeAll cs) r =
          .ok (decide (∀ c ∈ cs, c ≤ 255), r') := by
  intro n
  induction n with
  | zero =>
    intro cs hn _ _ f r hf
    have hcs : cs = [] := List.length_eq_zero.mp (Nat.le_zero.mp hn)
    subst hcs
    cases f with
    | zero => simp at hf
    | succ f => exact ⟨r, by simp [utf8EncodeAll, scan_nil]⟩
  | succ n ih =>
    intro cs hn hv h47 f r hf
    cases f with
    | zero => simp at hf
    | succ f =>
      cases cs with
      | nil => exact ⟨r, by simp [utf8EncodeAll, scan_nil]⟩
      | cons c t =>
        have hvc := hv c (List.mem_cons_self _ _)
        have hvt : ∀ x ∈ t, x ≤ 0x10FFFF := fun x hx => hv x (List.mem_cons_of_mem _ hx)
        have hne := utf8EncodeAll_cons_ne_nil c t
        have hlt := utf8EncodeAll_cons_length c t
        simp only [List.mem_cons, not_or] at h47
        simp only [List.length_cons] at hn
        by_cases hq : c = 39 ∨ c = 34 ∨ c = 96
        · have hbody : loopBody true utf8Read f (utf8EncodeAll (c :: t)) r =
              stringLoop true utf8Read c f (utf8EncodeAll t) (r ++ [toResultChar c]) := by
            rw [loopBody_step f r (utf8Read_encodeAll_cons c hvc t), if_pos hq]
          rcases stringLoop_utf8 c (by omega) t.length t (le_refl _) hvt f
              (r ++ [toResultChar c]) (by omega) with
            ⟨pre, cs', r', hsplit, hpre, h⟩ | ⟨s', r', h, x, hx, hxbig⟩
          · have hlen : cs'.length ≤ n := by
              have := congrArg List.length hsplit
              simp at this
              omega
            have hcs' : ∀ x ∈ cs', x ∈ t := fun x hx => by
              rw [hsplit]; exact List.mem_append_right _ hx
            have hfuel : (utf8EncodeAll cs').length ≤ (utf8EncodeAll t).length := by
              rw [hsplit, utf8EncodeAll_append, List.length_append]
              omega
            obtain ⟨r'', h2⟩ := ih cs' hlen (fun x hx => hvt x (hcs' x hx))
              (fun hx => h47.2 (hcs' 47 hx)) f r' (by omega)
            refine ⟨r'', ?_⟩
            rw [scan_step f hne (hbody.trans h), h2]
            have : (∀ y ∈ c :: t, y ≤ 255) ↔ ∀ y ∈ cs', y ≤ 255 := by
              rw [hsplit]
              simp only [List.mem_cons, List.mem_append, forall_eq_or_imp]
              constructor
              · intro h' y hy; exact h'.2 y (Or.inr hy)
              · intro h'
                refine ⟨by omega, ?_⟩
                intro y hy
                rcases hy with hy | hy
                · exact hpre y hy
                · exact h' y hy
            simp only [this]
          · refine ⟨r', ?_⟩
            rw [scan_step_false f hne (hbody.trans h)]
            have : ¬ ∀ y ∈ c :: t, y ≤ 255 := by
              intro hall
              have := hall x (List.mem_cons_of_mem _ hx)
              omega
            simp only [this, decide_False]
        · have hbody := loopBody_utf8_plain f c hvc t r hq (fun h => h47.1 h.symm)
          by_cases hbig : c > 255
          · rw [if_pos hbig] at hbody
            refine ⟨r, ?_⟩
            rw [scan_step_false f hne hbody]
            have : ¬ ∀ y ∈ c :: t, y ≤ 255 := by
              intro hall
              have := hall c (List.mem_cons_self _ _)
              omega
            simp only [this, decide_False]
          · rw [if_neg hbig] at hbody
            obtain ⟨r', h⟩ := ih t (by omega) hvt h47.2 f (r ++ [toResultChar c]) (by omega)
            refine ⟨r', ?_⟩
            rw [scan_step f hne hbody, h]
            have : (∀ y ∈ c :: t, y ≤ 255) ↔ ∀ y ∈ t, y ≤ 255 := by
              simp only [List.mem_cons, forall_eq_or_imp]
              constructor
              · intro h'; exact h'.2
              · intro h'; exact ⟨by omega, h'⟩
            simp only [this]

/-- The call `convertUTF8ToLatin1` with `stripComment = true` on the UTF-8 text
of the code points `cs`: when every code point is at most 255 the call returns
true; and when `cs` has no `/`, so that there is no comment, the call returns
false exactly when some code point is above 255, be it in normal text or inside
a string. -/
theorem convertUTF8ToLatin1_strip_plain (cs out : List Nat) (hv : ∀ c ∈ cs, c ≤ 0x10FFFF) :
    ((∀ c ∈ cs, c ≤ 255) →
      ∃ res, convertUTF8ToLatin1 out (utf8EncodeAll cs) true = .ok (true, res)) ∧
    (47 ∉ cs →
      ∃ b res, convertUTF8ToLatin1 out (utf8EncodeAll cs) true = .ok (b, res) ∧
        (b = false ↔ ∃ c ∈ cs, c > 255)) := by
  unfold convertUTF8ToLatin1
  simp only [if_true]
  constructor
  · intro hall
    obtain ⟨o, h⟩ := scan_total utf8Read_readsWell (utf8EncodeAll cs).length
      (utf8EncodeAll cs) ⟨cs, hall, rfl⟩ (le_refl _) (lastIsBackslash out)
    exact ⟨out ++ o, h _ out (by omega) rfl⟩
  · intro h47
    obtain ⟨r', h⟩ := scan_utf8_no_slash cs.length cs (le_refl _) hv h47
      ((utf8EncodeAll cs).length + 1) out (by omega)
    refine ⟨_, r', h, ?_⟩
    simp only [decide_eq_false_iff_not, not_forall, gt_iff_lt, not_le, exists_prop]

/-! ## strSplit -/

theorem getline_no_delimiter (s : List Nat) (d : Nat) (hs : s ≠ []) (hd : d ∉ s) :
    getline s d = some (s, []) := by
  cases s with
  | nil => exact absurd rfl hs
  | cons a t =>
    have hall : ∀ c ∈ a :: t, (c != d) = true := by
      intro c hc
      simp only [bne_iff_ne, ne_eq]
      intro h
      exact hd (h ▸ hc)
    simp only [getline]
    rw [List.takeWhile_eq_self_iff.mpr hall, List.dropWhile_eq_nil_iff.mpr hall]
    rfl

theorem getline_delimiter (tok rest : List Nat) (d : Nat) (hd : d ∉ tok) :
    getline (tok ++ d :: rest) d = some (tok, rest) := by
  have hall : ∀ c ∈ tok, (c != d) = true := by
    intro c hc
    simp only [bne_iff_ne, ne_eq]
    intro h
    exact hd (h ▸ hc)
  have h1 : (tok ++ d :: rest).takeWhile (fun c => c != d) = tok := by
    rw [List.takeWhile_append_of_pos hall]
    simp
  have h2 : (tok ++ d :: rest).dropWhile (fun c => c != d) = d :: rest := by
    rw [List.dropWhile_append_of_pos hall]
    simp
  cases htok : tok ++ d :: rest with
  | nil => simp at htok
  | cons a t =>
    simp only [getline]
    rw [← htok, h1, h2]
    rfl

/-- A text that contains the delimiter splits at its first occurrence. -/
theorem split_at_first (s : List Nat) (d : Nat) (hd : d ∈ s) :
    ∃ tok rest, s = tok ++ d :: rest ∧ d ∉ tok := by
  induction s with
  | nil => simp at hd
  | cons a t ih =>
    by_cases ha : a = d
    · exact ⟨[], t, by simp [ha], by simp⟩
    · have hd' : d ∈ t := by
        rcases List.mem_cons.mp hd with h | h
        · exact absurd h.symm ha
        · exact h
      obtain ⟨tok, rest, hsplit, htok⟩ := ih hd'
      refine ⟨a :: tok, rest, by simp [hsplit], ?_⟩
      simp only [List.mem_cons, not_or]
      exact ⟨fun h => ha h.symm, htok⟩

theorem count_eq_zero_of_not_mem (s : List Nat) (d : Nat) (hd : d ∉ s) : s.count d = 0 :=
  List.count_eq_zero.mpr hd

/-- The loop of `strSplit` on a non-empty text that does not end with the
delimiter: one token per occurrence of the delimiter and one more. -/
theorem strSplitLoop_open (d : Nat) :
    ∀ (n : Nat) (s : List Nat), s.length ≤ n → s ≠ [] → s.getLast? ≠ some d →
      ∀ f toks, s.length < f →
        ∃ ts, strSplitLoop d f s toks = .ok (toks ++ ts) ∧ ts.length = s.count d + 1 ∧
          (∀ t ∈ ts, d ∉ t) ∧ joinWith d ts = s := by
  intro n
  induction n with
  | zero =>
    intro s hn hs
    exact absurd (List.length_eq_zero.mp (Nat.le_zero.mp hn)) hs
  | succ n ih =>
    intro s hn hs hlast f toks hf
    obtain ⟨f1, rfl⟩ : ∃ f1, f = f1 + 1 := ⟨f - 1, by omega⟩
    by_cases hd : d ∈ s
    · obtain ⟨tok, rest, hsplit, htok⟩ := split_at_first s d hd
      subst hsplit
      have hrest : rest ≠ [] := by
        intro h
        subst h
        apply hlast
        simp
      have hlast' : rest.getLast? ≠ some d := by
        intro h
        apply hlast
        have hshape : tok ++ d :: rest = (tok ++ [d]) ++ rest := by simp
        rw [hshape, List.getLast?_append_of_ne_nil _ hrest]
        exact h
      simp only [List.length_append, List.length_cons] at hn hf
      obtain ⟨ts, h, hlen, hno, hjoin⟩ :=
        ih rest (by omega) hrest hlast' f1 (toks ++ [tok]) (by omega)
      refine ⟨tok :: ts, ?_, ?_, ?_, ?_⟩
      · rw [strSplitLoop, getline_delimiter tok rest d htok]
        simp only [h]
        simp
      · rw [List.length_cons, hlen, List.count_append, List.count_cons_self,
          count_eq_zero_of_not_mem tok d htok]
        omega
      · intro t ht
        rcases List.mem_cons.mp ht with rfl | ht
        · exact htok
        · exact hno t ht
      · cases ts with
        | nil => simp at hlen
        | cons t1 ts1 =>
          rw [joinWith, hjoin]
          simp
    · refine ⟨[s], ?_, ?_, ?_, ?_⟩
      · obtain ⟨f2, rfl⟩ : ∃ f2, f1 = f2 + 1 := ⟨f1 - 1, by
          have := List.length_pos.mpr hs
          omega⟩
        rw [strSplitLoop, getline_no_delimiter s d hs hd]
        simp only [strSplitLoop, getline]
      · rw [count_eq_zero_of_not_mem s d hd]
        rfl
      · intro t ht
        rw [List.mem_singleton.mp ht]
        exact hd
      · rfl

/-- C10. `strSplit` keeps order and empty middle segments: on a non-empty text
that does not end with the delimiter `d` it returns one element more than there
are occurrences of `d`, no element contains `d`, and the elements joined with
`d` give the text back. -/
theorem strSplit_open (s : List Nat) (d : Nat) (hs : s ≠ []) (hlast : s.getLast? ≠ some d) :
    ∃ tokens, strSplit s d = .ok tokens ∧ tokens.length = s.count d + 1 ∧
      (∀ t ∈ tokens, d ∉ t) ∧ joinWith d tokens = s := by
  obtain ⟨ts, h, hlen, hno, hjoin⟩ :=
    strSplitLoop_open d s.length s (le_refl _) hs hlast (s.length + 1) [] (by omega)
  exact ⟨ts, by simpa [strSplit] using h, hlen, hno, hjoin⟩

/-- C10, at `strSplit("a,,b", ',')`: the result is `["a", "", "b"]`. -/
theorem strSplit_open_witness :
    [97, 44, 44, 98] ≠ [] ∧ [97, 44, 44, 98].getLast? ≠ some 44 ∧
    (∃ tokens, strSplit [97, 44, 44, 98] 44 = .ok tokens ∧
      tokens.length = [97, 44, 44, 98].count 44 + 1 ∧
      (∀ t ∈ tokens, 44 ∉ t) ∧ joinWith 44 tokens = [97, 44, 44, 98]) ∧
    strSplit [97, 44, 44, 98] 44 = .ok [[97], [], [98]] :=
  ⟨by decide, by decide, strSplit_open [97, 44, 44, 98] 44 (by decide) (by decide), by decide⟩

/-! ## The single-byte scan at the end of the input and behind a slash -/

/-- C12, on the code: a line comment that runs to the end of the input leaves
its last character behind, `a//x` gives `ax` and `a//xy` gives `ay`; and `//` at
the very end is copied, `a//` gives `a//`. -/
theorem strip_line_comment_at_end_eval :
    stripCommentsFromLatin1SourceString [97, 47, 47, 120] = [97, 120] ∧
    stripCommentsFromLatin1SourceString [97, 47, 47, 120, 121] = [97, 121] ∧
    stripCommentsFromLatin1SourceString [97, 47, 47] = [97, 47, 47] := by
  decide

/-- C13, on the code: a CR+LF pair that ends a line comment at the very end of
the input is copied, `a//x<CR><LF>` gives `a<CR><LF>`; with one more byte behind
the pair it becomes a single LF, `a//x<CR><LF>b` gives `a<LF>b`. -/
theorem strip_line_comment_crlf_at_end_eval :
    stripCommentsFromLatin1SourceString [97, 47, 47, 120, 13, 10] = [97, 13, 10] ∧
    stripCommentsFromLatin1SourceString [97, 47, 47, 120, 13, 10, 98] = [97, 10, 98] := by
  decide

/-- C14, on the code: on `/"//x<LF>"` the quote behind the slash is appended
without opening a string, so the `//x` behind it is taken as a comment and the
output is `/"<LF>"`; the scan of `"//x<LF>"` alone copies all of it. -/
theorem strip_slash_then_quote_eval :
    stripCommentsFromLatin1SourceString [47, 34, 47, 47, 120, 10, 34] = [47, 34, 10, 34] ∧
    47 :: stripCommentsFromLatin1SourceString [34, 47, 47, 120, 10, 34] =
      [47, 34, 47, 47, 120, 10, 34] := by
  decide

/-! ## The offset table -/

theorem utf8Encode_continuation_bytes (c : Nat) : (utf8Encode c).length - 1 ≤ 3 := by
  unfold utf8Encode
  split_ifs <;> simp

/-- C15. The offset table decodes UTF-8: for every code point `c` up to
`0x10FFFF`, its standard encoding has at most three continuation bytes, and
accumulating its bytes and subtracting the table entry for the number of
continuation bytes gives `c`. -/
theorem offsets_decode_utf8 (c : Nat) (hc : c ≤ 0x10FFFF) :
    (utf8Encode c).length - 1 ≤ 3 ∧ decodeWithOffset (utf8Encode c) = c := by
  refine ⟨utf8Encode_continuation_bytes c, ?_⟩
  unfold utf8Encode
  split_ifs with h1 h2 h3
  · simp [decodeWithOffset, s_offsetsFromUTF8]
    omega
  · simp [decodeWithOffset, s_offsetsFromUTF8]
    omega
  · simp [decodeWithOffset, s_offsetsFromUTF8]
    omega
  · simp [decodeWithOffset, s_offsetsFromUTF8]
    omega

/-- C15, at U+1F600 with the bytes `F0 9F 98 80`, and the encodings of `A`,
U+00E9 and U+20AC. -/
theorem offsets_decode_utf8_witness :
    0x1F600 ≤ 0x10FFFF ∧
    ((utf8Encode 0x1F600).length - 1 ≤ 3 ∧ decodeWithOffset (utf8Encode 0x1F600) = 0x1F600) ∧
    utf8Encode 0x1F600 = [0xF0, 0x9F, 0x98, 0x80] ∧
    decodeWithOffset [0xF0, 0x9F, 0x98, 0x80] = 0x1F600 ∧
    decodeWithOffset [0x41] = 0x41 ∧ decodeWithOffset [0xC3, 0xA9] = 0xE9 ∧
    decodeWithOffset [0xE2, 0x82, 0xAC] = 0x20AC :=
  ⟨by decide, offsets_decode_utf8 0x1F600 (by decide), by decide, by decide, by decide,
    by decide, by decide⟩

/-! ## The backslash guard -/

/-- The single-byte scan does not depend on the fuel above the length of the input. -/
theorem latin1_scan_fuel (s r : List Nat) (f1 f2 : Nat) (h1 : s.length < f1)
    (h2 : s.length < f2) :
    stripCommentsFromSourceString false latin1Read f1 s r =
      stripCommentsFromSourceString false latin1Read f2 s r := by
  obtain ⟨o, h⟩ := scan_total latin1Read_readsWell s.length s trivial (le_refl _)
    (lastIsBackslash r)
  rw [h f1 r h1 rfl, h f2 r h2 rfl]

/-- The outer loop at `//` after a result that ends in a backslash: both slashes
are appended. -/
theorem scan_guarded_slashes (f : Nat) (rest r : List Nat) (hr : lastIsBackslash r = true)
    (hf : rest.length + 2 ≤ f) :
    stripCommentsFromSourceString false latin1Read (f + 1) (47 :: 47 :: rest) r =
      stripCommentsFromSourceString false latin1Read f rest (r ++ [47, 47]) := by
  have hc : latin1Read (47 :: 47 :: rest) = some (47, 47 :: rest) := rfl
  cases rest with
  | nil =>
    obtain ⟨f1, rfl⟩ : ∃ f1, f = f1 + 1 := ⟨f - 1, by simp at hf; omega⟩
    have h1 : loopBody false latin1Read (f1 + 1) [47, 47] r = .ok (true, [47], r ++ [47]) := by
      rw [loopBody_step _ r hc, if_neg (by omega), if_neg (by simp),
        emitCharacter_ok false 47 _ r rfl]
      rfl
    have hc' : latin1Read [47] = some (47, []) := rfl
    have h2 : loopBody false latin1Read f1 [47] (r ++ [47]) =
        .ok (true, [], r ++ [47] ++ [47]) := by
      rw [loopBody_step _ _ hc', if_neg (by omega), if_neg (by simp),
        emitCharacter_ok false 47 _ _ rfl]
      rfl
    rw [scan_step _ (by simp) h1, scan_step _ (by simp) h2,
      latin1_scan_fuel [] _ f1 (f1 + 1) (by simp at hf ⊢; omega) (by simp)]
    simp
  | cons a u =>
    have hc1 : latin1Read (47 :: a :: u) = some (47, a :: u) := rfl
    have hguard : ¬ ((47 : Nat) = 47 ∧ (r.length = 0 ∨ r.getLast? ≠ some 92)) := by
      intro h
      have := (guard_iff r).mp h.2
      rw [hr] at this
      exact Bool.noConfusion this
    have h1 : loopBody false latin1Read f (47 :: 47 :: a :: u) r =
        .ok (true, a :: u, r ++ [47, 47]) := by
      rw [loopBody_step _ r hc, if_neg (by omega), if_pos ⟨rfl, by simp⟩, hc1]
      refine (if_neg hguard).trans ((if_neg (by omega)).trans ?_)
      rw [emitCharacter_ok false 47 _ _ rfl]
      simp [toResultChar]
    rw [scan_step _ (by simp) h1]

/-- C16. The backslash guard on line comments: with `pre` free of `/` and quotes,
the output for `pre ++ backslash ++ "//" ++ rest` is `pre`, the backslash and
both slashes, followed by the output for `rest`. -/
theorem strip_backslash_guard (pre rest : List Nat) (hbp : ∀ b ∈ pre, b < 256)
    (h47 : 47 ∉ pre) (h39 : 39 ∉ pre) (h34 : 34 ∉ pre) (h96 : 96 ∉ pre) :
    stripCommentsFromLatin1SourceString (pre ++ 92 :: 47 :: 47 :: rest) =
      pre ++ 92 :: 47 :: 47 :: stripCommentsFromLatin1SourceString rest := by
  apply strip_eq_of_scan (b := true)
  have hlen : (pre ++ 92 :: 47 :: 47 :: rest).length + 1 =
      ((rest.length + 2) + 1) + (pre ++ [92]).length := by
    simp; omega
  have hshape : pre ++ 92 :: 47 :: 47 :: rest = (pre ++ [92]) ++ 47 :: 47 :: rest := by
    simp
  have hplain : ∀ b ∈ pre ++ [92], b < 256 := by
    intro b hb
    rcases List.mem_append.mp hb with h | h
    · exact hbp b h
    · simp at h; omega
  rw [hlen, hshape,
    scan_copies_plain (pre ++ [92]) hplain (by simp [h47]) (by simp [h39]) (by simp [h34])
      (by simp [h96]),
    scan_guarded_slashes _ rest _ (by rw [List.nil_append, lastIsBackslash_concat]; rfl)
      (le_refl _),
    latin1_scan_continue rest _ _ (by omega)]
  · simp
  · have : [] ++ (pre ++ [92]) ++ [47, 47] = (pre ++ [92, 47]) ++ [47] := by simp
    rw [this, lastIsBackslash_concat]
    rfl

/-- C16, at `a\\//b//c<LF>d`: the slashes behind the backslash are copied, the
later `//c` is still a comment. -/
theorem strip_backslash_guard_witness :
    (∀ b ∈ [97], b < 256) ∧ 47 ∉ [97] ∧ 39 ∉ [97] ∧ 34 ∉ [97] ∧ 96 ∉ [97] ∧
    stripCommentsFromLatin1SourceString ([97] ++ 92 :: 47 :: 47 :: [98, 47, 47, 99, 10, 100]) =
      [97] ++ 92 :: 47 :: 47 :: stripCommentsFromLatin1SourceString [98, 47, 47, 99, 10, 100] ∧
    stripCommentsFromLatin1SourceString [97, 92, 47, 47, 98, 47, 47, 99, 10, 100] =
      [97, 92, 47, 47, 98, 10, 100] ∧
    stripCommentsFromLatin1SourceString [97, 92, 47, 47] = [97, 92, 47, 47] :=
  ⟨by decide, by decide, by decide, by decide, by decide,
    strip_backslash_guard [97] [98, 47, 47, 99, 10, 100] (by decide) (by decide) (by decide)
      (by decide) (by decide),
    by decide, by decide⟩

/-! ## Block comments behind a backslash -/

/-- C17, as amended. A block comment whose body has no `*`, behind a `pre`
without `/` and quotes: the output for `pre ++ "/*" ++ body ++ "*/" ++ rest` is
what the scan of `rest` gives after the result `pre ++ LF^k`, where `k` counts
the line terminators of `body`; it is `pre ++ LF^k` followed by the output for
`rest` when `pre` does not end in a backslash or `body` has a line terminator. -/
theorem strip_block_comment_then_rest (pre body rest : List Nat) (hbp : ∀ b ∈ pre, b < 256)
    (h47 : 47 ∉ pre) (h39 : 39 ∉ pre) (h34 : 34 ∉ pre) (h96 : 96 ∉ pre) (h42 : 42 ∉ body) :
    stripCommentsFromSourceString false latin1Read (rest.length + 1) rest
        (pre ++ List.replicate (countLineTerminators body) 10) =
      .ok (true,
        stripCommentsFromLatin1SourceString (pre ++ 47 :: 42 :: body ++ 42 :: 47 :: rest)) ∧
    (pre.getLast? ≠ some 92 ∨ 1 ≤ countLineTerminators body →
      stripCommentsFromLatin1SourceString (pre ++ 47 :: 42 :: body ++ 42 :: 47 :: rest) =
        pre ++ List.replicate (countLineTerminators body) 10 ++
          stripCommentsFromLatin1SourceString rest) := by
  have hscan := scan_block_comment pre body rest hbp h47 h39 h34 h96 h42
  have hfuel := latin1_scan_fuel rest (pre ++ List.replicate (countLineTerminators body) 10)
    (body.length + rest.length + 4) (rest.length + 1) (by omega) (by omega)
  have htotal := latin1_scan_total (pre ++ 47 :: 42 :: body ++ 42 :: 47 :: rest)
  constructor
  · rw [← hfuel, ← hscan, htotal]
  · intro hcond
    have hlast :
        lastIsBackslash (pre ++ List.replicate (countLineTerminators body) 10) = false := by
      by_cases hk : 1 ≤ countLineTerminators body
      · obtain ⟨k, hk'⟩ : ∃ k, countLineTerminators body = k + 1 :=
          ⟨countLineTerminators body - 1, by omega⟩
        rw [hk', List.replicate_succ', ← List.append_assoc, lastIsBackslash_concat]
        decide
      · have hk0 : countLineTerminators body = 0 := by omega
        have hpre : pre.getLast? ≠ some 92 := by
          rcases hcond with h | h
          · exact h
          · exact absurd h hk
        rw [hk0]
        simpa [lastIsBackslash] using hpre
    apply strip_eq_of_scan (b := true)
    rw [hscan, latin1_scan_continue rest _ _ (by omega) hlast]

/-- C17 as amended, at `a\\/*x<LF>*///c<LF>d`, where the LF of the body stands
between the backslash and the `//` behind the comment. -/
theorem strip_block_comment_then_rest_witness :
    (∀ b ∈ [97, 92], b < 256) ∧ 47 ∉ [97, 92] ∧ 39 ∉ [97, 92] ∧ 34 ∉ [97, 92] ∧
    96 ∉ [97, 92] ∧ 42 ∉ [120, 10] ∧
    (stripCommentsFromSourceString false latin1Read ([47, 47, 99, 10, 100].length + 1)
        [47, 47, 99, 10, 100] ([97, 92] ++ List.replicate (countLineTerminators [120, 10]) 10) =
      .ok (true,
        stripCommentsFromLatin1SourceString
          ([97, 92] ++ 47 :: 42 :: [120, 10] ++ 42 :: 47 :: [47, 47, 99, 10, 100])) ∧
    (([97, 92] : List Nat).getLast? ≠ some 92 ∨ 1 ≤ countLineTerminators [120, 10] →
      stripCommentsFromLatin1SourceString
          ([97, 92] ++ 47 :: 42 :: [120, 10] ++ 42 :: 47 :: [47, 47, 99, 10, 100]) =
        [97, 92] ++ List.replicate (countLineTerminators [120, 10]) 10 ++
          stripCommentsFromLatin1SourceString [47, 47, 99, 10, 100])) ∧
    stripCommentsFromLatin1SourceString
      [97, 92, 47, 42, 120, 10, 42, 47, 47, 47, 99, 10, 100] = [97, 92, 10, 10, 100] :=
  ⟨by decide, by decide, by decide, by decide, by decide, by decide,
    strip_block_comment_then_rest [97, 92] [120, 10] [47, 47, 99, 10, 100] (by decide)
      (by decide) (by decide) (by decide) (by decide) (by decide),
    by decide⟩

/-- C17 as stated fails: in `a\\/*x*///c<LF>d` the body `x` has no `*` and no line
terminator, `pre` ends in a backslash, and the `//c` behind the comment is
copied: the output is `a\\//c<LF>d`, not `a\\<LF>d`. -/
theorem strip_block_comment_backslash_counterexample :
    (∀ b ∈ [97, 92], b < 256) ∧ 47 ∉ [97, 92] ∧ 39 ∉ [97, 92] ∧ 34 ∉ [97, 92] ∧
    96 ∉ [97, 92] ∧ 42 ∉ [120] ∧
    stripCommentsFromLatin1SourceString
      ([97, 92] ++ 47 :: 42 :: [120] ++ 42 :: 47 :: [47, 47, 99, 10, 100]) =
      [97, 92, 47, 47, 99, 10, 100] ∧
    [97, 92] ++ List.replicate (countLineTerminators [120]) 10 ++
      stripCommentsFromLatin1SourceString [47, 47, 99, 10, 100] = [97, 92, 10, 100] := by
  decide

/-! ## strSplit without a final segment -/

/-- The loop of `strSplit` on a text that is empty or ends with the delimiter:
one token per occurrence of the delimiter. -/
theorem strSplitLoop_closed (d : Nat) :
    ∀ (n : Nat) (s : List Nat), s.length ≤ n → (s = [] ∨ s.getLast? = some d) →
      ∀ f toks, s.length < f →
        ∃ ts, strSplitLoop d f s toks = .ok (toks ++ ts) ∧ ts.length = s.count d ∧
          (∀ t ∈ ts, d ∉ t) ∧ terminateWith d ts = s := by
  intro n
  induction n with
  | zero =>
    intro s hn _ f toks hf
    have hs : s = [] := List.length_eq_zero.mp (Nat.le_zero.mp hn)
    subst hs
    obtain ⟨f1, rfl⟩ : ∃ f1, f = f1 + 1 := ⟨f - 1, by simp at hf; omega⟩
    exact ⟨[], by simp [strSplitLoop, getline], rfl, by simp, rfl⟩
  | succ n ih =>
    intro s hn hend f toks hf
    obtain ⟨f1, rfl⟩ : ∃ f1, f = f1 + 1 := ⟨f - 1, by omega⟩
    by_cases hs : s = []
    · subst hs
      exact ⟨[], by simp [strSplitLoop, getline], rfl, by simp, rfl⟩
    · have hlast : s.getLast? = some d := by
        rcases hend with h | h
        · exact absurd h hs
        · exact h
      obtain ⟨tok, rest, hsplit, htok⟩ := split_at_first s d (List.mem_of_getLast?_eq_some hlast)
      subst hsplit
      have hrest : rest = [] ∨ rest.getLast? = some d := by
        by_cases hr : rest = []
        · exact Or.inl hr
        · right
          have hshape : tok ++ d :: rest = (tok ++ [d]) ++ rest := by simp
          rw [hshape, List.getLast?_append_of_ne_nil _ hr] at hlast
          exact hlast
      simp only [List.length_append, List.length_cons] at hn hf
      obtain ⟨ts, h, hlen, hno, hjoin⟩ :=
        ih rest (by omega) hrest f1 (toks ++ [tok]) (by omega)
      refine ⟨tok :: ts, ?_, ?_, ?_, ?_⟩
      · rw [strSplitLoop, getline_delimiter tok rest d htok]
        simp only [h]
        simp
      · rw [List.length_cons, hlen, List.count_append, List.count_cons_self,
          count_eq_zero_of_not_mem tok d htok]
        omega
      · intro t ht
        rcases List.mem_cons.mp ht with rfl | ht
        · exact htok
        · exact hno t ht
      · rw [terminateWith, hjoin]

/-- C18. `strSplit` does not report a final empty segment: on a text that is
empty or ends with the delimiter `d` it returns as many elements as there are
occurrences of `d`, none of them contains `d`, and they are the segments in
front of each `d` in order: each element followed by `d` gives the text back. -/
theorem strSplit_closed (s : List Nat) (d : Nat) (hend : s = [] ∨ s.getLast? = some d) :
    ∃ tokens, strSplit s d = .ok tokens ∧ tokens.length = s.count d ∧
      (∀ t ∈ tokens, d ∉ t) ∧ terminateWith d tokens = s := by
  obtain ⟨ts, h, hlen, hno, hjoin⟩ :=
    strSplitLoop_closed d s.length s (le_refl _) hend (s.length + 1) [] (by omega)
  exact ⟨ts, by simpa [strSplit] using h, hlen, hno, hjoin⟩

/-- C18, at `strSplit("a,,b,", ',')`, and the results for `""`, `"a,"` and `","`. -/
theorem strSplit_closed_witness :
    ([97, 44, 44, 98, 44] = [] ∨ [97, 44, 44, 98, 44].getLast? = some 44) ∧
    (∃ tokens, strSplit [97, 44, 44, 98, 44] 44 = .ok tokens ∧
      tokens.length = [97, 44, 44, 98, 44].count 44 ∧
      (∀ t ∈ tokens, 44 ∉ t) ∧ terminateWith 44 tokens = [97, 44, 44, 98, 44]) ∧
    strSplit [97, 44, 44, 98, 44] 44 = .ok [[97], [], [98]] ∧
    strSplit [] 44 = .ok [] ∧ strSplit [97, 44] 44 = .ok [[97]] ∧
    strSplit [44] 44 = .ok [[]] :=
  ⟨by decide, strSplit_closed [97, 44, 44, 98, 44] 44 (by decide), by decide, by decide,
    by decide, by decide⟩

/-! ## Reads stay inside the input -/

theorem lineCommentGuard_eq (result : List Nat) :
    lineCommentGuard result =
      some (decide (result.length = 0 ∨ result.getLast? ≠ some 92)) := by
  unfold lineCommentGuard
  cases result with
  | nil => simp
  | cons a t =>
    have hne : (a :: t).getLast? = some ((a :: t).getLast (by simp)) :=
      List.getLast?_eq_getLast _ (by simp)
    rw [if_neg (by simp), hne]
    simp

/-- C19. The single-byte scanner never reads outside its input: on every input
and after every result, given fuel above the length of the input, the scan ends
with the returned flag and is never stopped by a read outside
`[sequence, endSequence)`; and the guard of line 76 never evaluates
`result.back()` on an empty result. -/
theorem latin1_scan_in_bounds (s r : List Nat) :
    (∀ f, s.length < f →
      ∃ result, stripCommentsFromSourceString false latin1Read f s r = .ok (true, result)) ∧
    (∃ result, stripCommentsFromSourceString false latin1Read (s.length + 1) s [] =
        .ok (true, result) ∧ stripCommentsFromLatin1SourceString s = result) ∧
    lineCommentGuard r = some (decide (r.length = 0 ∨ r.getLast? ≠ some 92)) := by
  refine ⟨?_, ⟨_, latin1_scan_total s, rfl⟩, lineCommentGuard_eq r⟩
  intro f hf
  obtain ⟨o, h⟩ := scan_total latin1Read_readsWell s.length s trivial (le_refl _)
    (lastIsBackslash r)
  exact ⟨r ++ o, h f r hf rfl⟩

/-- C19, at inputs that end inside a lookahead: `"a\\` (a backslash last in a
string), `/` and `//` (a slash last and last but one), `a//x<CR>` (a CR last
behind a line comment), `/*x*` and `/*<CR>` (a `*` and a CR last in a block
comment). Every run ends without a read outside the input. -/
theorem latin1_scan_in_bounds_witness :
    ([34, 97, 92].length < 4 ∧
      ∃ result, stripCommentsFromSourceString false latin1Read 4 [34, 97, 92] [92] =
        .ok (true, result)) ∧
    stripCommentsFromSourceString false latin1Read 4 [34, 97, 92] [] = .ok (true, [34, 97, 92]) ∧
    stripCommentsFromSourceString false latin1Read 2 [47] [] = .ok (true, [47]) ∧
    stripCommentsFromSourceString false latin1Read 3 [47, 47] [] = .ok (true, [47, 47]) ∧
    stripCommentsFromSourceString false latin1Read 6 [97, 47, 47, 120, 13] [] =
      .ok (true, [97, 13]) ∧
    stripCommentsFromSourceString false latin1Read 5 [47, 42, 120, 42] [] = .ok (true, []) ∧
    stripCommentsFromSourceString false latin1Read 4 [47, 42, 13] [] = .ok (true, [10]) ∧
    lineCommentGuard [] = some true ∧ lineCommentGuard [92] = some false :=
  ⟨⟨by decide, (latin1_scan_in_bounds [34, 97, 92] [92]).1 4 (by decide)⟩, by decide, by decide,
    by decide, by decide, by decide, by decide, by decide, by decide⟩

/-! ## The template for any result character type -/

theorem stringLoopAs_toResultChar (w : Bool) (rd : List Nat → Option (Nat × List Nat))
    (q : Nat) : ∀ f s r,
    stringLoopAs toResultChar w rd q f s r = stringLoop w rd q f s r := by
  intro f
  induction f with
  | zero => intro s r; rfl
  | succ f ih =>
    intro s r
    simp only [stringLoopAs, stringLoop, ih]

theorem blockCommentLoopAs_toResultChar (rd : List Nat → Option (Nat × List Nat)) :
    ∀ f s r, blockCommentLoopAs toResultChar rd f s r = blockCommentLoop rd f s r := by
  intro f
  induction f with
  | zero => intro s r; rfl
  | succ f ih =>
    intro s r
    simp only [blockCommentLoopAs, blockCommentLoop, ih]

theorem loopBodyAs_toResultChar (w : Bool) (rd : List Nat → Option (Nat × List Nat))
    (f : Nat) (s r : List Nat) :
    loopBodyAs toResultChar w rd f s r = loopBody w rd f s r := by
  simp only [loopBodyAs, loopBody, stringLoopAs_toResultChar, blockCommentLoopAs_toResultChar,
    emitCharacterAs, emitCharacter]

/-- The scan into one byte characters is the template at `cast = toResultChar`. -/
theorem scanAs_toResultChar (w : Bool) (rd : List Nat → Option (Nat × List Nat)) :
    ∀ f s r, stripCommentsFromSourceStringAs toResultChar w rd f s r =
      stripCommentsFromSourceString w rd f s r := by
  intro f
  induction f with
  | zero => intro s r; rfl
  | succ f ih =>
    intro s r
    simp only [stripCommentsFromSourceStringAs, stripCommentsFromSourceString,
      loopBodyAs_toResultChar, ih]

theorem check_false_of_small (w : Bool) {c : Nat} (hc : c ≤ 255) :
    (w && decide (c > 255)) = false :=
  check_false_of_le w c (fun _ => hc)

theorem emitCharacterAs_checked {cast : Nat → Nat} {c : Nat} {s r s' r' : List Nat}
    (h : emitCharacterAs cast true c s r = .ok (true, s', r')) :
    c ≤ 255 ∧ s' = s ∧ r' = r ++ [cast c] := by
  unfold emitCharacterAs at h
  by_cases hbig : c > 255
  · simp [hbig] at h
  · simp [hbig] at h
    exact ⟨by omega, h.1.symm, h.2.symm⟩

theorem emitCharacterAs_ok (cast : Nat → Nat) (w : Bool) {c : Nat} (hc : c ≤ 255)
    (s r : List Nat) : emitCharacterAs cast w c s r = .ok (true, s, r ++ [cast c]) := by
  rw [emitCharacterAs, check_false_of_small w hc]
  simp

/-- One iteration of the string loop of the template at a character that passes
the Latin-1 check. -/
theorem stringLoopAs_step {cast : Nat → Nat} {w : Bool}
    {rd : List Nat → Option (Nat × List Nat)} {q c : Nat} {s s1 : List Nat} (f : Nat)
    (r : List Nat) (hs : s ≠ []) (hc : rd s = some (c, s1))
    (hchk : (w && decide (c > 255)) = false) :
    stringLoopAs cast w rd q (f + 1) s r =
      if c = q then .ok (true, s1, r ++ [cast c])
      else if c = 92 ∧ 1 < s1.length then
        match rd s1 with
        | none => .outOfBounds
        | some (c2, fwd) =>
          if c2 = q ∨ c2 = 92 then
            stringLoopAs cast w rd q f fwd (r ++ [cast c] ++ [cast c2])
          else stringLoopAs cast w rd q f s1 (r ++ [cast c])
      else stringLoopAs cast w rd q f s1 (r ++ [cast c]) := by
  have hpos : 0 < s.length := List.length_pos.mpr hs
  rw [stringLoopAs]
  simp only [hpos, if_true, hc, hchk]
  by_cases hq : c = q
  · simp only [hq, if_true, Bool.false_eq_true, if_false]
  · by_cases hb : c = 92
    · subst hb
      by_cases h2 : 1 < s1.length
      · simp only [hq, h2, if_true, if_false, Bool.false_eq_true, true_and, and_self]
        cases hrd2 : rd s1 with
        | none => rfl
        | some p =>
          obtain ⟨c2, fwd⟩ := p
          by_cases h1 : c2 = q
          · simp only [h1, if_true, true_or]
          · by_cases h3 : c2 = 92
            · subst h3
              simp only [h1, if_true, if_false, or_true]
            · simp only [h1, h3, if_false, or_self]
      · simp only [hq, h2, if_true, if_false, Bool.false_eq_true, and_false]
    · simp only [hq, hb, if_false, Bool.false_eq_true, false_and]

/-- A run of the string loop under the Latin-1 check that leaves the loop has
appended code points up to 255 only, and the loop takes the same way and appends
the same without the check, with another cast that fixes the code points up to
255, and after another result. -/
theorem stringLoopAs_checked {cast : Nat → Nat} (hcast : ∀ c, c ≤ 255 → cast c = c)
    (rd : List Nat → Option (Nat × List Nat)) (q : Nat) (hq : q ≤ 255) :
    ∀ (f : Nat) (s r s' r' : List Nat),
      stringLoopAs cast true rd q f s r = .ok (true, s', r') →
      ∃ o, r' = r ++ o ∧ (∀ c ∈ o, c ≤ 255) ∧
        ∀ (cast' : Nat → Nat) (w' : Bool) (r0 : List Nat), (∀ c, c ≤ 255 → cast' c = c) →
          stringLoopAs cast' w' rd q f s r0 = .ok (true, s', r0 ++ o) := by
  intro f
  induction f with
  | zero =>
    intro s r s' r' h
    simp [stringLoopAs] at h
  | succ f ih =>
    intro s r s' r' h
    by_cases hs : s = []
    · subst hs
      simp [stringLoopAs] at h
      refine ⟨[], by simp [h.2], by simp, ?_⟩
      intro cast' w' r0 _
      simp [stringLoopAs, h.1]
    · have hpos : 0 < s.length := List.length_pos.mpr hs
      cases hrd : rd s with
      | none =>
        rw [stringLoopAs] at h
        simp [hpos, hrd] at h
      | some p =>
        obtain ⟨c, s1⟩ := p
        by_cases hbig : c > 255
        · rw [stringLoopAs] at h
          simp [hpos, hrd, hbig] at h
        · have hc : c ≤ 255 := by omega
          rw [stringLoopAs_step f r hs hrd (check_false_of_small true hc), hcast c hc] at h
          -- the loop going on behind `c`
          have plain : stringLoopAs cast true rd q f s1 (r ++ [c]) = .ok (true, s', r') →
              ∃ o, r' = r ++ o ∧ (∀ x ∈ o, x ≤ 255) ∧
                ∀ (cast' : Nat → Nat) (w' : Bool) (r0 : List Nat),
                  (∀ x, x ≤ 255 → cast' x = x) →
                  stringLoopAs cast' w' rd q f s1 (r0 ++ [cast' c]) = .ok (true, s', r0 ++ o) := by
            intro h1
            obtain ⟨o, ho, hle, hrun⟩ := ih s1 (r ++ [c]) s' r' h1
            refine ⟨c :: o, by simp [ho], ?_, ?_⟩
            · intro x hx
              rcases List.mem_cons.mp hx with rfl | hx
              · exact hc
              · exact hle x hx
            · intro cast' w' r0 hcast'
              rw [hrun cast' w' _ hcast', hcast' c hc]
              simp
          by_cases hcq : c = q
          · rw [if_pos hcq] at h
            simp only [Run.ok.injEq, Prod.mk.injEq, true_and] at h
            refine ⟨[c], h.2.symm, by simp [hc], ?_⟩
            intro cast' w' r0 hcast'
            rw [stringLoopAs_step f r0 hs hrd (check_false_of_small w' hc), if_pos hcq,
              hcast' c hc, h.1]
          · rw [if_neg hcq] at h
            by_cases hb : c = 92 ∧ 1 < s1.length
            · rw [if_pos hb] at h
              cases hrd2 : rd s1 with
              | none => simp [hrd2] at h
              | some p2 =>
                obtain ⟨c2, fwd⟩ := p2
                simp only [hrd2] at h
                by_cases hesc : c2 = q ∨ c2 = 92
                · rw [if_pos hesc] at h
                  have hc2 : c2 ≤ 255 := by
                    rcases hesc with h' | h' <;> omega
                  rw [hcast c2 hc2] at h
                  obtain ⟨o, ho, hle, hrun⟩ := ih fwd _ s' r' h
                  refine ⟨c :: c2 :: o, by simp [ho], ?_, ?_⟩
                  · intro x hx
                    rcases List.mem_cons.mp hx with rfl | hx
                    · exact hc
                    · rcases List.mem_cons.mp hx with rfl | hx
                      · exact hc2
                      · exact hle x hx
                  · intro cast' w' r0 hcast'
                    rw [stringLoopAs_step f r0 hs hrd (check_false_of_small w' hc),
                      if_neg hcq, if_pos hb, hrd2]
                    simp only [if_pos hesc]
                    rw [hrun cast' w' _ hcast', hcast' c hc, hcast' c2 hc2]
                    simp
                · rw [if_neg hesc] at h
                  obtain ⟨o, ho, hle, hrun⟩ := plain h
                  refine ⟨o, ho, hle, ?_⟩
                  intro cast' w' r0 hcast'
                  rw [stringLoopAs_step f r0 hs hrd (check_false_of_small w' hc),
                    if_neg hcq, if_pos hb, hrd2]
                  simp only [if_neg hesc]
                  exact hrun cast' w' r0 hcast'
            · rw [if_neg hb] at h
              obtain ⟨o, ho, hle, hrun⟩ := plain h
              refine ⟨o, ho, hle, ?_⟩
              intro cast' w' r0 hcast'
              rw [stringLoopAs_step f r0 hs hrd (check_false_of_small w' hc),
                if_neg hcq, if_neg hb]
              exact hrun cast' w' r0 hcast'

/-- One iteration of the block comment loop of the template. -/
theorem blockCommentLoopAs_step {cast : Nat → Nat} {rd : List Nat → Option (Nat × List Nat)}
    {c : Nat} {s s1 : List Nat} (f : Nat) (r : List Nat) (hs : s ≠ [])
    (hc : rd s = some (c, s1)) :
    blockCommentLoopAs cast rd (f + 1) s r =
      if c = 42 ∧ 1 < s1.length then
        match rd s1 with
        | none => .outOfBounds
        | some (c1, s2) =>
          if c1 = 47 then .ok (s2, r) else blockCommentLoopAs cast rd f s2 r
      else if isLineTerminator c = true then
        if c = 13 ∧ 1 < s1.length then
          match rd s1 with
          | none => .outOfBounds
          | some (c1, fwd) =>
            if c1 = 10 then blockCommentLoopAs cast rd f fwd (r ++ [cast 10])
            else blockCommentLoopAs cast rd f s1 (r ++ [cast 10])
        else blockCommentLoopAs cast rd f s1 (r ++ [cast 10])
      else blockCommentLoopAs cast rd f s1 r := by
  have hpos : 0 < s.length := List.length_pos.mpr hs
  rw [blockCommentLoopAs]
  simp only [hpos, if_true, hc]

/-- A run of the block comment loop that leaves the loop has appended LFs only,
and the loop takes the same way with another cast that fixes LF and after
another result. -/
theorem blockCommentLoopAs_run {cast : Nat → Nat} (hcast : cast 10 = 10)
    (rd : List Nat → Option (Nat × List Nat)) :
    ∀ (f : Nat) (s r s' r' : List Nat),
      blockCommentLoopAs cast rd f s r = .ok (s', r') →
      ∃ o, r' = r ++ o ∧ (∀ c ∈ o, c ≤ 255) ∧
        ∀ (cast' : Nat → Nat) (r0 : List Nat), cast' 10 = 10 →
          blockCommentLoopAs cast' rd f s r0 = .ok (s', r0 ++ o) := by
  intro f
  induction f with
  | zero =>
    intro s r s' r' h
    simp [blockCommentLoopAs] at h
  | succ f ih =>
    intro s r s' r' h
    by_cases hs : s = []
    · subst hs
      simp [blockCommentLoopAs] at h
      refine ⟨[], by simp [h.2], by simp, ?_⟩
      intro cast' r0 _
      simp [blockCommentLoopAs, h.1]
    · have hpos : 0 < s.length := List.length_pos.mpr hs
      cases hrd : rd s with
      | none =>
        rw [blockCommentLoopAs] at h
        simp [hpos, hrd] at h
      | some p =>
        obtain ⟨c, s1⟩ := p
        rw [blockCommentLoopAs_step f r hs hrd, hcast] at h
        -- the loop going on after one more LF
        have newline : ∀ t, blockCommentLoopAs cast rd f t (r ++ [10]) = .ok (s', r') →
            ∃ o, r' = r ++ o ∧ (∀ x ∈ o, x ≤ 255) ∧
              ∀ (cast' : Nat → Nat) (r0 : List Nat), cast' 10 = 10 →
                blockCommentLoopAs cast' rd f t (r0 ++ [cast' 10]) = .ok (s', r0 ++ o) := by
          intro t h1
          obtain ⟨o, ho, hle, hrun⟩ := ih t (r ++ [10]) s' r' h1
          refine ⟨10 :: o, by simp [ho], ?_, ?_⟩
          · intro x hx
            rcases List.mem_cons.mp hx with rfl | hx
            · omega
            · exact hle x hx
          · intro cast' r0 hcast'
            rw [hcast', hrun cast' _ hcast']
            simp
        by_cases hstar : c = 42 ∧ 1 < s1.length
        · rw [if_pos hstar] at h
          cases hrd2 : rd s1 with
          | none => simp [hrd2] at h
          | some p2 =>
            obtain ⟨c1, s2⟩ := p2
            simp only [hrd2] at h
            by_cases hsl : c1 = 47
            · rw [if_pos hsl] at h
              simp only [Run.ok.injEq, Prod.mk.injEq] at h
              refine ⟨[], by simp [h.2], by simp, ?_⟩
              intro cast' r0 _
              rw [blockCommentLoopAs_step f r0 hs hrd, if_pos hstar, hrd2]
              simp only [if_pos hsl, h.1, List.append_nil]
            · rw [if_neg hsl] at h
              obtain ⟨o, ho, hle, hrun⟩ := ih s2 r s' r' h
              refine ⟨o, ho, hle, ?_⟩
              intro cast' r0 hcast'
              rw [blockCommentLoopAs_step f r0 hs hrd, if_pos hstar, hrd2]
              simp only [if_neg hsl]
              exact hrun cast' r0 hcast'
        · rw [if_neg hstar] at h
          by_cases hterm : isLineTerminator c = true
          · rw [if_pos hterm] at h
            by_cases hcr : c = 13 ∧ 1 < s1.length
            · rw [if_pos hcr] at h
              cases hrd2 : rd s1 with
              | none => simp [hrd2] at h
              | some p2 =>
                obtain ⟨c1, fwd⟩ := p2
                simp only [hrd2] at h
                by_cases hlf : c1 = 10
                · rw [if_pos hlf] at h
                  obtain ⟨o, ho, hle, hrun⟩ := newline fwd h
                  refine ⟨o, ho, hle, ?_⟩
                  intro cast' r0 hcast'
                  rw [blockCommentLoopAs_step f r0 hs hrd, if_neg hstar, if_pos hterm,
                    if_pos hcr, hrd2]
                  simp only [if_pos hlf]
                  exact hrun cast' r0 hcast'
                · rw [if_neg hlf] at h
                  obtain ⟨o, ho, hle, hrun⟩ := newline s1 h
                  refine ⟨o, ho, hle, ?_⟩
                  intro cast' r0 hcast'
                  rw [blockCommentLoopAs_step f r0 hs hrd, if_neg hstar, if_pos hterm,
                    if_pos hcr, hrd2]
                  simp only [if_neg hlf]
                  exact hrun cast' r0 hcast'
            · rw [if_neg hcr] at h
              obtain ⟨o, ho, hle, hrun⟩ := newline s1 h
              refine ⟨o, ho, hle, ?_⟩
              intro cast' r0 hcast'
              rw [blockCommentLoopAs_step f r0 hs hrd, if_neg hstar, if_pos hterm, if_neg hcr]
              exact hrun cast' r0 hcast'
          · rw [if_neg hterm] at h
            obtain ⟨o, ho, hle, hrun⟩ := ih s1 r s' r' h
            refine ⟨o, ho, hle, ?_⟩
            intro cast' r0 hcast'
            rw [blockCommentLoopAs_step f r0 hs hrd, if_neg hstar, if_neg hterm]
            exact hrun cast' r0 hcast'

/-- The iteration of the outer loop of the template at a cursor where `c` is
read. -/
theorem loopBodyAs_step {cast : Nat → Nat} {w : Bool}
    {rd : List Nat → Option (Nat × List Nat)} {c : Nat} {s s1 : List Nat} (f : Nat)
    (r : List Nat) (hc : rd s = some (c, s1)) :
    loopBodyAs cast w rd f s r =
      if c = 39 ∨ c = 34 ∨ c = 96 then
        stringLoopAs cast w rd c f s1 (r ++ [cast c])
      else if c = 47 ∧ 1 < s1.length then
        match rd s1 with
        | none => .outOfBounds
        | some (c1, s2) =>
          if c1 = 47 ∧ (r.length = 0 ∨ r.getLast? ≠ some 92) then
            match skipLineLoop rd f s2 with
            | .outOfFuel => .outOfFuel
            | .outOfBounds => .outOfBounds
            | .ok (c2, s3) =>
              match lineCommentTail rd c2 s3 with
              | .outOfFuel => .outOfFuel
              | .outOfBounds => .outOfBounds
              | .ok (c3, s4) => emitCharacterAs cast w c3 s4 r
          else if c1 = 42 then
            match blockCommentLoopAs cast rd f s2 r with
            | .outOfFuel => .outOfFuel
            | .outOfBounds => .outOfBounds
            | .ok (s3, r1) => .ok (true, s3, r1)
          else emitCharacterAs cast w c1 s2 (r ++ [cast 47])
      else emitCharacterAs cast w c s1 r := by
  rw [loopBodyAs]
  simp only [hc]

theorem guard_congr {r r0 : List Nat} (h : lastIsBackslash r0 = lastIsBackslash r) :
    (r0.length = 0 ∨ r0.getLast? ≠ some 92) ↔ (r.length = 0 ∨ r.getLast? ≠ some 92) := by
  rw [guard_iff, guard_iff, h]

/-- An iteration of the outer loop under the Latin-1 check that ends normally
has appended code points up to 255 only, and the iteration takes the same way
and appends the same without the check, with another cast that fixes the code
points up to 255, and after another result with the same `lastIsBackslash`. -/
theorem loopBodyAs_checked {cast : Nat → Nat} (hcast : ∀ c, c ≤ 255 → cast c = c)
    (rd : List Nat → Option (Nat × List Nat)) (f : Nat) (s r s' r' : List Nat)
    (h : loopBodyAs cast true rd f s r = .ok (true, s', r')) :
    ∃ o, r' = r ++ o ∧ (∀ c ∈ o, c ≤ 255) ∧
      ∀ (cast' : Nat → Nat) (w' : Bool) (r0 : List Nat), (∀ c, c ≤ 255 → cast' c = c) →
        lastIsBackslash r0 = lastIsBackslash r →
        loopBodyAs cast' w' rd f s r0 = .ok (true, s', r0 ++ o) := by
  cases hrd : rd s with
  | none =>
    rw [loopBodyAs] at h
    simp [hrd] at h
  | some p =>
    obtain ⟨c, s1⟩ := p
    rw [loopBodyAs_step f r hrd] at h
    by_cases hq : c = 39 ∨ c = 34 ∨ c = 96
    · have hc : c ≤ 255 := by omega
      rw [if_pos hq, hcast c hc] at h
      obtain ⟨o, ho, hle, hrun⟩ := stringLoopAs_checked hcast rd c hc f s1 _ s' r' h
      refine ⟨c :: o, by simp [ho], ?_, ?_⟩
      · intro x hx
        rcases List.mem_cons.mp hx with rfl | hx
        · exact hc
        · exact hle x hx
      · intro cast' w' r0 hcast' _
        rw [loopBodyAs_step f r0 hrd, if_pos hq, hrun cast' w' _ hcast', hcast' c hc]
        simp
    · rw [if_neg hq] at h
      by_cases hsl : c = 47 ∧ 1 < s1.length
      · rw [if_pos hsl] at h
        cases hrd2 : rd s1 with
        | none => simp [hrd2] at h
        | some p2 =>
          obtain ⟨c1, s2⟩ := p2
          simp only [hrd2] at h
          by_cases hline : c1 = 47 ∧ (r.length = 0 ∨ r.getLast? ≠ some 92)
          · rw [if_pos hline] at h
            cases hskip : skipLineLoop rd f s2 with
            | outOfFuel => simp [hskip] at h
            | outOfBounds => simp [hskip] at h
            | ok p3 =>
              obtain ⟨c2, s3⟩ := p3
              simp only [hskip] at h
              cases htail : lineCommentTail rd c2 s3 with
              | outOfFuel => simp [htail] at h
              | outOfBounds => simp [htail] at h
              | ok p4 =>
                obtain ⟨c3, s4⟩ := p4
                simp only [htail] at h
                obtain ⟨hc3, hs', hr'⟩ := emitCharacterAs_checked h
                refine ⟨[c3], by rw [hr', hcast c3 hc3], by simp [hc3], ?_⟩
                intro cast' w' r0 hcast' hbs
                have hline0 : c1 = 47 ∧ (r0.length = 0 ∨ r0.getLast? ≠ some 92) :=
                  ⟨hline.1, (guard_congr hbs).mpr hline.2⟩
                rw [loopBodyAs_step f r0 hrd, if_neg hq, if_pos hsl, hrd2]
                simp only [if_pos hline0, hskip, htail]
                rw [emitCharacterAs_ok cast' w' hc3, hcast' c3 hc3, hs']
          · rw [if_neg hline] at h
            by_cases hblock : c1 = 42
            · rw [if_pos hblock] at h
              cases hb : blockCommentLoopAs cast rd f s2 r with
              | outOfFuel => simp [hb] at h
              | outOfBounds => simp [hb] at h
              | ok p3 =>
                obtain ⟨s3, r1⟩ := p3
                simp only [hb, Run.ok.injEq, Prod.mk.injEq, true_and] at h
                obtain ⟨o, ho, hle, hrun⟩ :=
                  blockCommentLoopAs_run (hcast 10 (by omega)) rd f s2 r s3 r1 hb
                refine ⟨o, by rw [← h.2, ho], hle, ?_⟩
                intro cast' w' r0 hcast' hbs
                have hline0 : ¬ (c1 = 47 ∧ (r0.length = 0 ∨ r0.getLast? ≠ some 92)) :=
                  fun h0 => hline ⟨h0.1, (guard_congr hbs).mp h0.2⟩
                rw [loopBodyAs_step f r0 hrd, if_neg hq, if_pos hsl, hrd2]
                simp only [if_neg hline0, if_pos hblock]
                rw [hrun cast' r0 (hcast' 10 (by omega)), h.1]
            · rw [if_neg hblock] at h
              obtain ⟨hc1, hs', hr'⟩ := emitCharacterAs_checked h
              refine ⟨[47, c1], by rw [hr', hcast c1 hc1, hcast 47 (by omega)]; simp, ?_, ?_⟩
              · intro x hx
                simp only [List.mem_cons, List.mem_singleton, List.not_mem_nil, or_false] at hx
                rcases hx with rfl | rfl
                · omega
                · exact hc1
              · intro cast' w' r0 hcast' hbs
                have hline0 : ¬ (c1 = 47 ∧ (r0.length = 0 ∨ r0.getLast? ≠ some 92)) :=
                  fun h0 => hline ⟨h0.1, (guard_congr hbs).mp h0.2⟩
                rw [loopBodyAs_step f r0 hrd, if_neg hq, if_pos hsl, hrd2]
                simp only [if_neg hline0, if_neg hblock]
                rw [emitCharacterAs_ok cast' w' hc1, hcast' c1 hc1, hcast' 47 (by omega), hs']
                simp
      · rw [if_neg hsl] at h
        obtain ⟨hc, hs', hr'⟩ := emitCharacterAs_checked h
        refine ⟨[c], by rw [hr', hcast c hc], by simp [hc], ?_⟩
        intro cast' w' r0 hcast' _
        rw [loopBodyAs_step f r0 hrd, if_neg hq, if_neg hsl, emitCharacterAs_ok cast' w' hc,
          hcast' c hc, hs']

/-- A scan under the Latin-1 check that returns true has appended code points up
to 255 only, and the scan returns true with the same appended text without the
check, with another cast that fixes the code points up to 255, and after
another result with the same `lastIsBackslash`. -/
theorem scanAs_checked {cast : Nat → Nat} (hcast : ∀ c, c ≤ 255 → cast c = c)
    (rd : List Nat → Option (Nat × List Nat)) :
    ∀ (f : Nat) (s r r' : List Nat),
      stripCommentsFromSourceStringAs cast true rd f s r = .ok (true, r') →
      ∃ o, r' = r ++ o ∧ (∀ c ∈ o, c ≤ 255) ∧
        ∀ (cast' : Nat → Nat) (w' : Bool) (r0 : List Nat), (∀ c, c ≤ 255 → cast' c = c) →
          lastIsBackslash r0 = lastIsBackslash r →
          stripCommentsFromSourceStringAs cast' w' rd f s r0 = .ok (true, r0 ++ o) := by
  intro f
  induction f with
  | zero =>
    intro s r r' h
    simp [stripCommentsFromSourceStringAs] at h
  | succ f ih =>
    intro s r r' h
    rw [stripCommentsFromSourceStringAs] at h
    by_cases hpos : 0 < s.length
    · rw [if_pos hpos] at h
      cases hbody : loopBodyAs cast true rd f s r with
      | outOfFuel => simp [hbody] at h
      | outOfBounds => simp [hbody] at h
      | ok p =>
        obtain ⟨b, s1, r1⟩ := p
        cases b with
        | false => simp [hbody] at h
        | true =>
          simp only [hbody] at h
          obtain ⟨o1, ho1, hle1, hrun1⟩ := loopBodyAs_checked hcast rd f s r s1 r1 hbody
          obtain ⟨o2, ho2, hle2, hrun2⟩ := ih s1 r1 r' h
          refine ⟨o1 ++ o2, by rw [ho2, ho1]; simp, ?_, ?_⟩
          · intro x hx
            rcases List.mem_append.mp hx with hx | hx
            · exact hle1 x hx
            · exact hle2 x hx
          · intro cast' w' r0 hcast' hbs
            rw [stripCommentsFromSourceStringAs, if_pos hpos, hrun1 cast' w' r0 hcast' hbs]
            simp only []
            rw [hrun2 cast' w' (r0 ++ o1) hcast'
              (by rw [ho1, lastIsBackslash_append, lastIsBackslash_append, hbs])]
            simp
    · rw [if_neg hpos] at h
      simp only [Run.ok.injEq, Prod.mk.injEq, true_and] at h
      refine ⟨[], by simp [h], by simp, ?_⟩
      intro cast' w' r0 _ _
      rw [stripCommentsFromSourceStringAs, if_neg hpos]
      simp

/-- C20. No truncation on success: when the scan with the Latin-1 check returns
true with the result `r'`, the code points it appended, taken before the cast
(the scan with the identity as cast), are all at most 255 and are what stands in
`r'` behind the result `r` it started from, and the scan without the check
returns true with the same result, with and without the cast. -/
theorem checked_scan_no_truncation (rd : List Nat → Option (Nat × List Nat)) (f : Nat)
    (s r r' : List Nat)
    (h : stripCommentsFromSourceString true rd f s r = .ok (true, r')) :
    ∃ o, r' = r ++ o ∧ (∀ c ∈ o, c ≤ 255) ∧
      stripCommentsFromSourceStringAs (fun c => c) true rd f s r = .ok (true, r ++ o) ∧
      stripCommentsFromSourceString false rd f s r = .ok (true, r') ∧
      stripCommentsFromSourceStringAs (fun c => c) false rd f s r = .ok (true, r') := by
  rw [← scanAs_toResultChar] at h
  obtain ⟨o, ho, hle, hrun⟩ :=
    scanAs_checked (fun c hc => toResultChar_of_lt (by omega)) rd f s r r' h
  refine ⟨o, ho, hle, hrun _ true r (fun _ _ => rfl) rfl, ?_, ?_⟩
  · rw [← scanAs_toResultChar, ho]
    exact hrun toResultChar false r (fun c hc => toResultChar_of_lt (by omega)) rfl
  · rw [ho]
    exact hrun _ false r (fun _ _ => rfl) rfl

/-- C20, at the UTF-8 text of `é/*€*/"ÿ"`, on which `convertUTF8ToLatin1` with
`stripComment = true` returns true with the result `é"ÿ"`. -/
theorem checked_scan_no_truncation_witness :
    stripCommentsFromSourceString true utf8Read
        ([0xC3, 0xA9, 0x2F, 0x2A, 0xE2, 0x82, 0xAC, 0x2A, 0x2F, 0x22, 0xC3, 0xBF, 0x22].length + 1)
        [0xC3, 0xA9, 0x2F, 0x2A, 0xE2, 0x82, 0xAC, 0x2A, 0x2F, 0x22, 0xC3, 0xBF, 0x22] [] =
      .ok (true, [0xE9, 0x22, 0xFF, 0x22]) ∧
    (∃ o, [0xE9, 0x22, 0xFF, 0x22] = [] ++ o ∧ (∀ c ∈ o, c ≤ 255) ∧
      stripCommentsFromSourceStringAs (fun c => c) true utf8Read
          ([0xC3, 0xA9, 0x2F, 0x2A, 0xE2, 0x82, 0xAC, 0x2A, 0x2F, 0x22, 0xC3, 0xBF, 0x22].length
            + 1)
          [0xC3, 0xA9, 0x2F, 0x2A, 0xE2, 0x82, 0xAC, 0x2A, 0x2F, 0x22, 0xC3, 0xBF, 0x22] [] =
        .ok (true, [] ++ o) ∧
      stripCommentsFromSourceString false utf8Read
          ([0xC3, 0xA9, 0x2F, 0x2A, 0xE2, 0x82, 0xAC, 0x2A, 0x2F, 0x22, 0xC3, 0xBF, 0x22].length
            + 1)
          [0xC3, 0xA9, 0x2F, 0x2A, 0xE2, 0x82, 0xAC, 0x2A, 0x2F, 0x22, 0xC3, 0xBF, 0x22] [] =
        .ok (true, [0xE9, 0x22, 0xFF, 0x22]) ∧
      stripCommentsFromSourceStringAs (fun c => c) false utf8Read
          ([0xC3, 0xA9, 0x2F, 0x2A, 0xE2, 0x82, 0xAC, 0x2A, 0x2F, 0x22, 0xC3, 0xBF, 0x22].length
            + 1)
          [0xC3, 0xA9, 0x2F, 0x2A, 0xE2, 0x82, 0xAC, 0x2A, 0x2F, 0x22, 0xC3, 0xBF, 0x22] [] =
        .ok (true, [0xE9, 0x22, 0xFF, 0x22])) ∧
    utf8EncodeAll [0xE9, 47, 42, 0x20AC, 42, 47, 34, 0xFF, 34] =
      [0xC3, 0xA9, 0x2F, 0x2A, 0xE2, 0x82, 0xAC, 0x2A, 0x2F, 0x22, 0xC3, 0xBF, 0x22] ∧
    convertUTF8ToLatin1 []
        [0xC3, 0xA9, 0x2F, 0x2A, 0xE2, 0x82, 0xAC, 0x2A, 0x2F, 0x22, 0xC3, 0xBF, 0x22] true =
      .ok (true, [0xE9, 0x22, 0xFF, 0x22]) :=
  ⟨by decide,
    checked_scan_no_truncation utf8Read _
      [0xC3, 0xA9, 0x2F, 0x2A, 0xE2, 0x82, 0xAC, 0x2A, 0x2F, 0x22, 0xC3, 0xBF, 0x22] [] _
      (by decide),
    by decide, by decide⟩

/-! ## The Latin-1 check under comment stripping -/

theorem stringLoopAs_nil (cast : Nat → Nat) (w : Bool) (rd : List Nat → Option (Nat × List Nat)) (q f : Nat)
    (r : List Nat) : stringLoopAs cast w rd q (f + 1) [] r = .ok (true, [], r) := by
  simp [stringLoopAs]

theorem stringLoopAs_total (cast : Nat → Nat) {w : Bool} {rd : List Nat → Option (Nat × List Nat)}
    {G : List Nat → Prop} (hrd : ReadsWell w rd G) (q : Nat) :
    ∀ (n : Nat) (s : List Nat), G s → s.length ≤ n →
      ∃ s' o, s'.length ≤ s.length ∧ G s' ∧
        ∀ f r, s.length < f → stringLoopAs cast w rd q f s r = .ok (true, s', r ++ o) := by
  intro n
  induction n with
  | zero =>
    intro s hG hn
    have hs : s = [] := List.length_eq_zero.mp (Nat.le_zero.mp hn)
    subst hs
    refine ⟨[], [], le_refl _, hG, ?_⟩
    intro f r hf
    cases f with
    | zero => simp at hf
    | succ f => simp [stringLoopAs_nil]
  | succ n ih =>
    intro s hG hn
    by_cases hs : s = []
    · subst hs
      refine ⟨[], [], le_refl _, hG, ?_⟩
      intro f r hf
      cases f with
      | zero => simp at hf
      | succ f => simp [stringLoopAs_nil]
    · obtain ⟨c, s1, hc, hlt, hG1, hle, -⟩ := hrd s hG hs
      have hchk := check_false_of_le w c hle
      by_cases hq : c = q
      · refine ⟨s1, [cast c], by omega, hG1, ?_⟩
        intro f r hf
        cases f with
        | zero => simp at hf
        | succ f => rw [stringLoopAs_step f r hs hc hchk, if_pos hq]
      · obtain ⟨sa, oa, hla, hGa, ha⟩ := ih s1 hG1 (by omega)
        have plain : ∀ f r, s.length ≤ f →
            stringLoopAs cast w rd q f s1 (r ++ [cast c]) =
              .ok (true, sa, r ++ cast c :: oa) := by
          intro f r hf
          rw [ha f _ (by omega)]
          simp
        by_cases hb : c = 92 ∧ 1 < s1.length
        · have hs1 : s1 ≠ [] := by
            intro h; rw [h] at hb; simp at hb
          obtain ⟨c2, s2, hc2, hlt2, hG2, hle2, -⟩ := hrd s1 hG1 hs1
          by_cases hesc : c2 = q ∨ c2 = 92
          · obtain ⟨sb, ob, hlb, hGb, hb2⟩ := ih s2 hG2 (by omega)
            refine ⟨sb, cast c :: cast c2 :: ob, by omega, hGb, ?_⟩
            intro f r hf
            cases f with
            | zero => simp at hf
            | succ f =>
              rw [stringLoopAs_step f r hs hc hchk, if_neg hq, if_pos hb, hc2]
              simp only [if_pos hesc]
              rw [hb2 f _ (by omega)]
              simp
          · refine ⟨sa, cast c :: oa, by omega, hGa, ?_⟩
            intro f r hf
            cases f with
            | zero => simp at hf
            | succ f =>
              rw [stringLoopAs_step f r hs hc hchk, if_neg hq, if_pos hb, hc2]
              simp only [if_neg hesc]
              exact plain f r (by omega)
        · refine ⟨sa, cast c :: oa, by omega, hGa, ?_⟩
          intro f r hf
          cases f with
          | zero => simp at hf
          | succ f =>
            rw [stringLoopAs_step f r hs hc hchk, if_neg hq, if_neg hb]
            exact plain f r (by omega)

theorem blockCommentLoopAs_nil (cast : Nat → Nat) (rd : List Nat → Option (Nat × List Nat)) (f : Nat)
    (r : List Nat) : blockCommentLoopAs cast rd (f + 1) [] r = .ok ([], r) := by
  simp [blockCommentLoopAs]

theorem blockCommentLoopAs_total (cast : Nat → Nat) {w : Bool} {rd : List Nat → Option (Nat × List Nat)}
    {G : List Nat → Prop} (hrd : ReadsWell w rd G) :
    ∀ (n : Nat) (s : List Nat), G s → s.length ≤ n →
      ∃ s' o, s'.length ≤ s.length ∧ G s' ∧
        ∀ f r, s.length < f → blockCommentLoopAs cast rd f s r = .ok (s', r ++ o) := by
  intro n
  induction n with
  | zero =>
    intro s hG hn
    have hs : s = [] := List.length_eq_zero.mp (Nat.le_zero.mp hn)
    subst hs
    refine ⟨[], [], le_refl _, hG, ?_⟩
    intro f r hf
    cases f with
    | zero => simp at hf
    | succ f => simp [blockCommentLoopAs_nil]
  | succ n ih =>
    intro s hG hn
    by_cases hs : s = []
    · subst hs
      refine ⟨[], [], le_refl _, hG, ?_⟩
      intro f r hf
      cases f with
      | zero => simp at hf
      | succ f => simp [blockCommentLoopAs_nil]
    · obtain ⟨c, s1, hc, hlt, hG1, hle, -⟩ := hrd s hG hs
      obtain ⟨sa, oa, hla, hGa, ha⟩ := ih s1 hG1 (by omega)
      by_cases hstar : c = 42 ∧ 1 < s1.length
      · have hs1 : s1 ≠ [] := by
          intro h; rw [h] at hstar; simp at hstar
        obtain ⟨c1, s2, hc1, hlt1, hG2, -, -⟩ := hrd s1 hG1 hs1
        by_cases hsl : c1 = 47
        · refine ⟨s2, [], by omega, hG2, ?_⟩
          intro f r hf
          cases f with
          | zero => simp at hf
          | succ f =>
            rw [blockCommentLoopAs_step f r hs hc, if_pos hstar, hc1]
            simp only [if_pos hsl, List.append_nil]
        · obtain ⟨sb, ob, hlb, hGb, hb⟩ := ih s2 hG2 (by omega)
          refine ⟨sb, ob, by omega, hGb, ?_⟩
          intro f r hf
          cases f with
          | zero => simp at hf
          | succ f =>
            rw [blockCommentLoopAs_step f r hs hc, if_pos hstar, hc1]
            simp only [if_neg hsl]
            exact hb f r (by omega)
      · by_cases hterm : isLineTerminator c = true
        · by_cases hcr : c = 13 ∧ 1 < s1.length
          · have hs1 : s1 ≠ [] := by
              intro h; rw [h] at hcr; simp at hcr
            obtain ⟨c1, s2, hc1, hlt1, hG2, -, -⟩ := hrd s1 hG1 hs1
            by_cases hlf : c1 = 10
            · obtain ⟨sb, ob, hlb, hGb, hb⟩ := ih s2 hG2 (by omega)
              refine ⟨sb, cast 10 :: ob, by omega, hGb, ?_⟩
              intro f r hf
              cases f with
              | zero => simp at hf
              | succ f =>
                rw [blockCommentLoopAs_step f r hs hc, if_neg hstar, if_pos hterm,
                  if_pos hcr, hc1]
                simp only [if_pos hlf]
                rw [hb f _ (by omega)]
                simp
            · refine ⟨sa, cast 10 :: oa, by omega, hGa, ?_⟩
              intro f r hf
              cases f with
              | zero => simp at hf
              | succ f =>
                rw [blockCommentLoopAs_step f r hs hc, if_neg hstar, if_pos hterm,
                  if_pos hcr, hc1]
                simp only [if_neg hlf]
                rw [ha f _ (by omega)]
                simp
          · refine ⟨sa, cast 10 :: oa, by omega, hGa, ?_⟩
            intro f r hf
            cases f with
            | zero => simp at hf
            | succ f =>
              rw [blockCommentLoopAs_step f r hs hc, if_neg hstar, if_pos hterm, if_neg hcr]
              rw [ha f _ (by omega)]
              simp
        · refine ⟨sa, oa, by omega, hGa, ?_⟩
          intro f r hf
          cases f with
          | zero => simp at hf
          | succ f =>
            rw [blockCommentLoopAs_step f r hs hc, if_neg hstar, if_neg hterm]
            exact ha f r (by omega)

theorem emitCharacterAs_pass (cast : Nat → Nat) (w : Bool) (c : Nat) (s r : List Nat)
    (hchk : (w && decide (c > 255)) = false) :
    emitCharacterAs cast w c s r = .ok (true, s, r ++ [cast c]) := by
  rw [emitCharacterAs, hchk]
  simp

theorem loopBodyAs_total (cast : Nat → Nat) {w : Bool} {rd : List Nat → Option (Nat × List Nat)}
    {G : List Nat → Prop} (hrd : ReadsWell w rd G) (s : List Nat) (hG : G s) (hs : s ≠ [])
    (bs : Bool) :
    ∃ s' o, s'.length < s.length ∧ G s' ∧
      ∀ f r, s.length ≤ f → lastIsBackslash r = bs →
        loopBodyAs cast w rd f s r = .ok (true, s', r ++ o) := by
  obtain ⟨c, s1, hc, hlt, hG1, hle, -⟩ := hrd s hG hs
  by_cases hq : c = 39 ∨ c = 34 ∨ c = 96
  · obtain ⟨s', o, hl, hG', h⟩ := stringLoopAs_total cast hrd c s1.length s1 hG1 (le_refl _)
    refine ⟨s', cast c :: o, by omega, hG', ?_⟩
    intro f r hf _
    rw [loopBodyAs_step f r hc, if_pos hq, h f _ (by omega)]
    simp
  · by_cases hsl : c = 47 ∧ 1 < s1.length
    · have hs1 : s1 ≠ [] := by
        intro h; rw [h] at hsl; simp at hsl
      obtain ⟨c1, s2, hc1, hlt1, hG2, hle1, hone⟩ := hrd s1 hG1 hs1
      by_cases hline : c1 = 47 ∧ bs = false
      · have hs2 : s2 ≠ [] := by
          have := hone (by omega)
          intro h; rw [h] at this; simp at this; omega
        obtain ⟨c2, s3, hl3, hG3, hle2, h3⟩ :=
          skipLineLoop_total hrd s2.length s2 hG2 hs2 (le_refl _)
        obtain ⟨c3, s4, hl4, hG4, hle3, h4⟩ := lineCommentTail_total hrd c2 s3 hG3 hle2
        refine ⟨s4, [cast c3], by omega, hG4, ?_⟩
        intro f r hf hbs
        have hguard : c1 = 47 ∧ (r.length = 0 ∨ r.getLast? ≠ some 92) :=
          ⟨hline.1, (guard_iff r).mpr (hbs.trans hline.2)⟩
        rw [loopBodyAs_step f r hc, if_neg hq, if_pos hsl, hc1]
        simp only [if_pos hguard]
        rw [h3 f (by omega)]
        simp only [h4]
        exact emitCharacterAs_pass cast w c3 s4 r (check_false_of_le w c3 hle3)
      · by_cases hblock : c1 = 42
        · obtain ⟨s3, o, hl3, hG3, h3⟩ :=
            blockCommentLoopAs_total cast hrd s2.length s2 hG2 (le_refl _)
          refine ⟨s3, o, by omega, hG3, ?_⟩
          intro f r hf hbs
          have hguard : ¬ (c1 = 47 ∧ (r.length = 0 ∨ r.getLast? ≠ some 92)) := by
            intro h; omega
          rw [loopBodyAs_step f r hc, if_neg hq, if_pos hsl, hc1]
          simp only [if_neg hguard, if_pos hblock]
          rw [h3 f r (by omega)]
        · refine ⟨s2, [cast 47, cast c1], by omega, hG2, ?_⟩
          intro f r hf hbs
          have hguard : ¬ (c1 = 47 ∧ (r.length = 0 ∨ r.getLast? ≠ some 92)) := by
            intro h
            apply hline
            refine ⟨h.1, ?_⟩
            rw [← hbs]
            exact (guard_iff r).mp h.2
          rw [loopBodyAs_step f r hc, if_neg hq, if_pos hsl, hc1]
          simp only [if_neg hguard, if_neg hblock]
          rw [emitCharacterAs_pass cast w c1 s2 _ (check_false_of_le w c1 hle1)]
          simp
    · refine ⟨s1, [cast c], hlt, hG1, ?_⟩
      intro f r hf _
      rw [loopBodyAs_step f r hc, if_neg hq, if_neg hsl]
      exact emitCharacterAs_pass cast w c s1 r (check_false_of_le w c hle)

theorem scanAs_nil (cast : Nat → Nat) (w : Bool) (rd : List Nat → Option (Nat × List Nat)) (f : Nat)
    (r : List Nat) : stripCommentsFromSourceStringAs cast w rd (f + 1) [] r = .ok (true, r) := by
  simp [stripCommentsFromSourceStringAs]

/-- The outer loop after an iteration that ends normally. -/
theorem scanAs_step {cast : Nat → Nat} {w : Bool} {rd : List Nat → Option (Nat × List Nat)} {s s' r r' : List Nat}
    (f : Nat) (hs : s ≠ []) (h : loopBodyAs cast w rd f s r = .ok (true, s', r')) :
    stripCommentsFromSourceStringAs cast w rd (f + 1) s r =
      stripCommentsFromSourceStringAs cast w rd f s' r' := by
  have hpos : 0 < s.length := List.length_pos.mpr hs
  rw [stripCommentsFromSourceStringAs]
  simp only [hpos, if_true, h]

/-- The outer loop after an iteration that returns false. -/
theorem scanAs_step_false {cast : Nat → Nat} {w : Bool} {rd : List Nat → Option (Nat × List Nat)}
    {s s' r r' : List Nat} (f : Nat) (hs : s ≠ [])
    (h : loopBodyAs cast w rd f s r = .ok (false, s', r')) :
    stripCommentsFromSourceStringAs cast w rd (f + 1) s r = .ok (false, r') := by
  have hpos : 0 < s.length := List.length_pos.mpr hs
  rw [stripCommentsFromSourceStringAs]
  simp only [hpos, if_true, h]

/-- On cursors that read well the scan returns true, with an output that
depends on the result so far only through `lastIsBackslash`, and on no fuel
above the length of the input. -/
theorem scanAs_total (cast : Nat → Nat) {w : Bool} {rd : List Nat → Option (Nat × List Nat)}
    {G : List Nat → Prop} (hrd : ReadsWell w rd G) :
    ∀ (n : Nat) (s : List Nat), G s → s.length ≤ n → ∀ bs : Bool,
      ∃ o, ∀ f r, s.length < f → lastIsBackslash r = bs →
        stripCommentsFromSourceStringAs cast w rd f s r = .ok (true, r ++ o) := by
  intro n
  induction n with
  | zero =>
    intro s hG hn bs
    have hs : s = [] := List.length_eq_zero.mp (Nat.le_zero.mp hn)
    subst hs
    refine ⟨[], ?_⟩
    intro f r hf _
    cases f with
    | zero => simp at hf
    | succ f => simp [scanAs_nil]
  | succ n ih =>
    intro s hG hn bs
    by_cases hs : s = []
    · subst hs
      refine ⟨[], ?_⟩
      intro f r hf _
      cases f with
      | zero => simp at hf
      | succ f => simp [scanAs_nil]
    · obtain ⟨s', o1, hl, hG', h1⟩ := loopBodyAs_total cast hrd s hG hs bs
      obtain ⟨o2, h2⟩ := ih s' hG' (by omega) (if o1 = [] then bs else lastIsBackslash o1)
      refine ⟨o1 ++ o2, ?_⟩
      intro f r hf hbs
      cases f with
      | zero => simp at hf
      | succ f =>
        rw [scanAs_step f hs (h1 f r (by omega) hbs)]
        rw [h2 f (r ++ o1) (by omega) (by rw [lastIsBackslash_append, hbs])]
        simp

/-- The UTF-8 texts of code points up to `0x10FFFF` read well without the
Latin-1 check. -/
theorem utf8Read_readsWell_unchecked :
    ReadsWell false utf8Read
      (fun s => ∃ cs, (∀ c ∈ cs, c ≤ 0x10FFFF) ∧ s = utf8EncodeAll cs) := by
  intro s hG hs
  obtain ⟨cs, hcs, rfl⟩ := hG
  cases cs with
  | nil => exact absurd rfl hs
  | cons c t =>
    have hc : c ≤ 0x10FFFF := hcs c (List.mem_cons_self _ _)
    refine ⟨c, utf8EncodeAll t, utf8Read_encodeAll_cons c hc t,
      utf8EncodeAll_cons_length c t,
      ⟨t, fun x hx => hcs x (List.mem_cons_of_mem _ hx), rfl⟩, fun h => by simp at h, ?_⟩
    intro h128
    simp [utf8EncodeAll, utf8Encode, h128]

/-- The string loop of the template returns false at a character that fails the
Latin-1 check. -/
theorem stringLoopAs_step_fail {cast : Nat → Nat} {rd : List Nat → Option (Nat × List Nat)}
    {q c : Nat} {s s1 : List Nat} (f : Nat) (r : List Nat) (hs : s ≠ [])
    (hc : rd s = some (c, s1)) (hbig : c > 255) :
    stringLoopAs cast true rd q (f + 1) s r = .ok (false, s1, r) := by
  have hpos : 0 < s.length := List.length_pos.mpr hs
  rw [stringLoopAs]
  simp only [hpos, if_true, hc]
  simp [hbig]

/-- What the string loop appends without check and cast decides the run under
the Latin-1 check: if all of it is at most 255 the checked run appends the same
and leaves the loop at the same cursor, otherwise the checked run returns false. -/
theorem stringLoopAs_decides {castW castN : Nat → Nat} (hW : ∀ c, castW c = c)
    (hN : ∀ c, c ≤ 255 → castN c = c) (rd : List Nat → Option (Nat × List Nat)) (q : Nat)
    (hq : q ≤ 255) :
    ∀ (f : Nat) (s r s' r' : List Nat),
      stringLoopAs castW false rd q f s r = .ok (true, s', r') →
      ∃ o, r' = r ++ o ∧
        ((∀ c ∈ o, c ≤ 255) → stringLoopAs castN true rd q f s r = .ok (true, s', r ++ o)) ∧
        ((∃ c ∈ o, c > 255) →
          ∃ s'' res, stringLoopAs castN true rd q f s r = .ok (false, s'', res)) := by
  intro f
  induction f with
  | zero =>
    intro s r s' r' h
    simp [stringLoopAs] at h
  | succ f ih =>
    intro s r s' r' h
    by_cases hs : s = []
    · subst hs
      simp [stringLoopAs] at h
      refine ⟨[], by simp [h.2], ?_, ?_⟩
      · intro _
        simp [stringLoopAs, h.1]
      · intro hbig
        obtain ⟨x, hx, -⟩ := hbig
        simp at hx
    · have hpos : 0 < s.length := List.length_pos.mpr hs
      cases hrd : rd s with
      | none =>
        rw [stringLoopAs] at h
        simp [hpos, hrd] at h
      | some p =>
        obtain ⟨c, s1⟩ := p
        rw [stringLoopAs_step f r hs hrd (show (false && decide (c > 255)) = false from rfl),
          hW c] at h
        -- the loop going on at `t` behind `c` and the code points `extra`
        have cont : ∀ (t extra : List Nat), (∀ x ∈ extra, x ≤ 255) →
            stringLoopAs castW false rd q f t (r ++ c :: extra) = .ok (true, s', r') →
            (c ≤ 255 → stringLoopAs castN true rd q (f + 1) s r =
              stringLoopAs castN true rd q f t (r ++ c :: extra)) →
            ∃ o, r' = r ++ o ∧
              ((∀ x ∈ o, x ≤ 255) →
                stringLoopAs castN true rd q (f + 1) s r = .ok (true, s', r ++ o)) ∧
              ((∃ x ∈ o, x > 255) →
                ∃ s'' res, stringLoopAs castN true rd q (f + 1) s r = .ok (false, s'', res)) := by
          intro t extra hextra hw hstep
          obtain ⟨o', ho', h1, h2⟩ := ih t _ s' r' hw
          refine ⟨c :: extra ++ o', by rw [ho']; simp, ?_, ?_⟩
          · intro hall
            have hc : c ≤ 255 := hall c (by simp)
            rw [hstep hc, h1 (fun x hx => hall x (by simp [hx]))]
            simp
          · intro hbig
            by_cases hc : c > 255
            · exact ⟨_, _, stringLoopAs_step_fail f r hs hrd hc⟩
            · obtain ⟨x, hx, hxbig⟩ := hbig
              have hx' : x ∈ o' := by
                simp only [List.cons_append, List.mem_cons, List.mem_append] at hx
                rcases hx with rfl | hx | hx
                · exact absurd hxbig hc
                · have := hextra x hx
                  omega
                · exact hx
              rw [hstep (by omega)]
              exact h2 ⟨x, hx', hxbig⟩
        by_cases hcq : c = q
        · rw [if_pos hcq] at h
          simp only [Run.ok.injEq, Prod.mk.injEq, true_and] at h
          refine ⟨[c], h.2.symm, ?_, ?_⟩
          · intro hall
            have hc : c ≤ 255 := hall c (by simp)
            rw [stringLoopAs_step f r hs hrd (check_false_of_small true hc), if_pos hcq,
              hN c hc, h.1]
          · intro hbig
            obtain ⟨x, hx, hxbig⟩ := hbig
            simp only [List.mem_singleton] at hx
            subst hx
            exact ⟨_, _, stringLoopAs_step_fail f r hs hrd hxbig⟩
        · rw [if_neg hcq] at h
          by_cases hb : c = 92 ∧ 1 < s1.length
          · rw [if_pos hb] at h
            cases hrd2 : rd s1 with
            | none => simp [hrd2] at h
            | some p2 =>
              obtain ⟨c2, fwd⟩ := p2
              simp only [hrd2] at h
              by_cases hesc : c2 = q ∨ c2 = 92
              · rw [if_pos hesc, hW c2] at h
                have hc2 : c2 ≤ 255 := by
                  rcases hesc with h' | h' <;> omega
                refine cont fwd [c2] (by simp [hc2]) (by simpa using h) ?_
                intro hc
                rw [stringLoopAs_step f r hs hrd (check_false_of_small true hc), if_neg hcq,
                  if_pos hb, hrd2]
                simp only [if_pos hesc]
                rw [hN c hc, hN c2 hc2]
                simp
              · rw [if_neg hesc] at h
                refine cont s1 [] (by simp) h ?_
                intro hc
                rw [stringLoopAs_step f r hs hrd (check_false_of_small true hc), if_neg hcq,
                  if_pos hb, hrd2]
                simp only [if_neg hesc]
                rw [hN c hc]
          · rw [if_neg hb] at h
            refine cont s1 [] (by simp) h ?_
            intro hc
            rw [stringLoopAs_step f r hs hrd (check_false_of_small true hc), if_neg hcq,
              if_neg hb, hN c hc]

theorem emitCharacterAs_fail (cast : Nat → Nat) {c : Nat} (hc : c > 255) (s r : List Nat) :
    emitCharacterAs cast true c s r = .ok (false, s, r) := by
  rw [emitCharacterAs]
  simp [hc]

/-- What the end of an iteration appends without check and cast decides it under
the Latin-1 check. -/
theorem emitCharacterAs_decides {castW castN : Nat → Nat} (hW : ∀ c, castW c = c)
    (hN : ∀ c, c ≤ 255 → castN c = c) (c : Nat) (s r s' r' : List Nat)
    (h : emitCharacterAs castW false c s r = .ok (true, s', r')) :
    r' = r ++ [c] ∧
      (c ≤ 255 → emitCharacterAs castN true c s r = .ok (true, s', r ++ [c])) ∧
      (c > 255 → ∃ s'' res, emitCharacterAs castN true c s r = .ok (false, s'', res)) := by
  rw [emitCharacterAs_pass castW false c s r rfl, hW c] at h
  simp only [Run.ok.injEq, Prod.mk.injEq, true_and] at h
  refine ⟨h.2.symm, ?_, ?_⟩
  · intro hc
    rw [emitCharacterAs_ok castN true hc, hN c hc, h.1]
  · intro hc
    exact ⟨_, _, emitCharacterAs_fail castN hc s r⟩

/-- What an iteration of the outer loop appends without check and cast decides
the iteration under the Latin-1 check: if all of it is at most 255 the checked
iteration appends the same and ends at the same cursor, otherwise it returns
false. -/
theorem loopBodyAs_decides {castW castN : Nat → Nat} (hW : ∀ c, castW c = c)
    (hN : ∀ c, c ≤ 255 → castN c = c) (rd : List Nat → Option (Nat × List Nat)) (f : Nat)
    (s r s' r' : List Nat) (h : loopBodyAs castW false rd f s r = .ok (true, s', r')) :
    ∃ o, r' = r ++ o ∧
      ((∀ c ∈ o, c ≤ 255) → loopBodyAs castN true rd f s r = .ok (true, s', r ++ o)) ∧
      ((∃ c ∈ o, c > 255) →
        ∃ s'' res, loopBodyAs castN true rd f s r = .ok (false, s'', res)) := by
  cases hrd : rd s with
  | none =>
    rw [loopBodyAs] at h
    simp [hrd] at h
  | some p =>
    obtain ⟨c, s1⟩ := p
    rw [loopBodyAs_step f r hrd] at h
    -- an iteration that ends by appending `x` behind the code points `pre`
    have single : ∀ (pre : List Nat) (x : Nat) (t : List Nat), (∀ y ∈ pre, y ≤ 255) →
        emitCharacterAs castW false x t (r ++ pre) = .ok (true, s', r') →
        loopBodyAs castN true rd f s r = emitCharacterAs castN true x t (r ++ pre) →
        ∃ o, r' = r ++ o ∧
          ((∀ y ∈ o, y ≤ 255) → loopBodyAs castN true rd f s r = .ok (true, s', r ++ o)) ∧
          ((∃ y ∈ o, y > 255) →
            ∃ s'' res, loopBodyAs castN true rd f s r = .ok (false, s'', res)) := by
      intro pre x t hpre hw hstep
      obtain ⟨hr', h1, h2⟩ := emitCharacterAs_decides hW hN x t (r ++ pre) s' r' hw
      refine ⟨pre ++ [x], by rw [hr']; simp, ?_, ?_⟩
      · intro hall
        rw [hstep, h1 (hall x (by simp))]
        simp
      · intro hbig
        obtain ⟨y, hy, hybig⟩ := hbig
        have hx : x > 255 := by
          rcases List.mem_append.mp hy with hy | hy
          · have := hpre y hy
            omega
          · simp only [List.mem_singleton] at hy
            subst hy
            exact hybig
        rw [hstep]
        exact h2 hx
    by_cases hq : c = 39 ∨ c = 34 ∨ c = 96
    · have hc : c ≤ 255 := by omega
      rw [if_pos hq, hW c] at h
      obtain ⟨o', ho', h1, h2⟩ := stringLoopAs_decides hW hN rd c hc f s1 _ s' r' h
      have hstep : loopBodyAs castN true rd f s r =
          stringLoopAs castN true rd c f s1 (r ++ [c]) := by
        rw [loopBodyAs_step f r hrd, if_pos hq, hN c hc]
      refine ⟨c :: o', by rw [ho']; simp, ?_, ?_⟩
      · intro hall
        rw [hstep, h1 (fun x hx => hall x (by simp [hx]))]
        simp
      · intro hbig
        obtain ⟨x, hx, hxbig⟩ := hbig
        have hx' : x ∈ o' := by
          rcases List.mem_cons.mp hx with rfl | hx
          · omega
          · exact hx
        rw [hstep]
        exact h2 ⟨x, hx', hxbig⟩
    · rw [if_neg hq] at h
      by_cases hsl : c = 47 ∧ 1 < s1.length
      · rw [if_pos hsl] at h
        cases hrd2 : rd s1 with
        | none => simp [hrd2] at h
        | some p2 =>
          obtain ⟨c1, s2⟩ := p2
          simp only [hrd2] at h
          by_cases hline : c1 = 47 ∧ (r.length = 0 ∨ r.getLast? ≠ some 92)
          · rw [if_pos hline] at h
            cases hskip : skipLineLoop rd f s2 with
            | outOfFuel => simp [hskip] at h
            | outOfBounds => simp [hskip] at h
            | ok p3 =>
              obtain ⟨c2, s3⟩ := p3
              simp only [hskip] at h
              cases htail : lineCommentTail rd c2 s3 with
              | outOfFuel => simp [htail] at h
              | outOfBounds => simp [htail] at h
              | ok p4 =>
                obtain ⟨c3, s4⟩ := p4
                simp only [htail] at h
                refine single [] c3 s4 (by simp) (by simpa using h) ?_
                rw [loopBodyAs_step f r hrd, if_neg hq, if_pos hsl, hrd2]
                simp only [if_pos hline, hskip, htail, List.append_nil]
          · rw [if_neg hline] at h
            by_cases hblock : c1 = 42
            · rw [if_pos hblock] at h
              cases hb : blockCommentLoopAs castW rd f s2 r with
              | outOfFuel => simp [hb] at h
              | outOfBounds => simp [hb] at h
              | ok p3 =>
                obtain ⟨s3, r1⟩ := p3
                simp only [hb, Run.ok.injEq, Prod.mk.injEq, true_and] at h
                obtain ⟨o, ho, hle, hrun⟩ :=
                  blockCommentLoopAs_run (by rw [hW]) rd f s2 r s3 r1 hb
                refine ⟨o, by rw [← h.2, ho], ?_, ?_⟩
                · intro _
                  rw [loopBodyAs_step f r hrd, if_neg hq, if_pos hsl, hrd2]
                  simp only [if_neg hline, if_pos hblock]
                  rw [hrun castN r (hN 10 (by omega)), h.1]
                · intro hbig
                  obtain ⟨x, hx, hxbig⟩ := hbig
                  have := hle x hx
                  omega
            · rw [if_neg hblock, hW 47] at h
              refine single [47] c1 s2 (by simp) h ?_
              rw [loopBodyAs_step f r hrd, if_neg hq, if_pos hsl, hrd2]
              simp only [if_neg hline, if_neg hblock]
              rw [hN 47 (by omega)]
      · rw [if_neg hsl] at h
        refine single [] c s1 (by simp) (by simpa using h) ?_
        rw [loopBodyAs_step f r hrd, if_neg hq, if_neg hsl]
        simp

/-- What the scan appends without check and cast decides the scan under the
Latin-1 check: if all of it is at most 255 the checked scan returns true with the
same appended text, otherwise it returns false. -/
theorem scanAs_decides {castW castN : Nat → Nat} (hW : ∀ c, castW c = c)
    (hN : ∀ c, c ≤ 255 → castN c = c) (rd : List Nat → Option (Nat × List Nat)) :
    ∀ (f : Nat) (s r r' : List Nat),
      stripCommentsFromSourceStringAs castW false rd f s r = .ok (true, r') →
      ∃ o, r' = r ++ o ∧
        ((∀ c ∈ o, c ≤ 255) →
          stripCommentsFromSourceStringAs castN true rd f s r = .ok (true, r ++ o)) ∧
        ((∃ c ∈ o, c > 255) →
          ∃ res, stripCommentsFromSourceStringAs castN true rd f s r = .ok (false, res)) := by
  intro f
  induction f with
  | zero =>
    intro s r r' h
    simp [stripCommentsFromSourceStringAs] at h
  | succ f ih =>
    intro s r r' h
    by_cases hs : s = []
    · subst hs
      rw [scanAs_nil] at h
      simp only [Run.ok.injEq, Prod.mk.injEq, true_and] at h
      refine ⟨[], by simp [h], ?_, ?_⟩
      · intro _
        rw [scanAs_nil]
        simp
      · intro hbig
        obtain ⟨x, hx, -⟩ := hbig
        simp at hx
    · have hpos : 0 < s.length := List.length_pos.mpr hs
      rw [stripCommentsFromSourceStringAs, if_pos hpos] at h
      cases hbody : loopBodyAs castW false rd f s r with
      | outOfFuel => simp [hbody] at h
      | outOfBounds => simp [hbody] at h
      | ok p =>
        obtain ⟨b, s1, r1⟩ := p
        cases b with
        | false => simp [hbody] at h
        | true =>
          simp only [hbody] at h
          obtain ⟨o1, ho1, ha1, hb1⟩ := loopBodyAs_decides hW hN rd f s r s1 r1 hbody
          subst ho1
          obtain ⟨o2, ho2, ha2, hb2⟩ := ih s1 (r ++ o1) r' h
          refine ⟨o1 ++ o2, by rw [ho2]; simp, ?_, ?_⟩
          · intro hall
            rw [scanAs_step f hs (ha1 (fun x hx => hall x (by simp [hx]))),
              ha2 (fun x hx => hall x (by simp [hx]))]
            simp
          · intro hbig
            by_cases h1 : ∃ x ∈ o1, x > 255
            · obtain ⟨s'', res, hfail⟩ := hb1 h1
              exact ⟨res, scanAs_step_false f hs hfail⟩
            · have hall1 : ∀ x ∈ o1, x ≤ 255 := by
                intro x hx
                by_contra hx'
                exact h1 ⟨x, hx, by omega⟩
              obtain ⟨x, hx, hxbig⟩ := hbig
              have hx2 : x ∈ o2 := by
                rcases List.mem_append.mp hx with hx | hx
                · have := hall1 x hx
                  omega
                · exact hx
              rw [scanAs_step f hs (ha1 hall1)]
              exact hb2 ⟨x, hx2, hxbig⟩

theorem utf8EncodeAll_length_ge (cs : List Nat) : cs.length ≤ (utf8EncodeAll cs).length := by
  induction cs with
  | nil => simp [utf8EncodeAll]
  | cons c t ih =>
    have := utf8Encode_length_pos c
    simp only [utf8EncodeAll, List.length_append, List.length_cons]
    omega

theorem utf8EncodeAll_ascii_cons (c : Nat) (hc : c < 128) (t : List Nat) :
    utf8EncodeAll (c :: t) = c :: utf8EncodeAll t := by
  simp [utf8EncodeAll, utf8Encode, hc]

/-- The checked scan of UTF-8 text copies code points up to 255 that are neither
quotes nor slashes. -/
theorem scan_utf8_copies_plain (pre : List Nat) (hle : ∀ b ∈ pre, b ≤ 255) (h47 : 47 ∉ pre)
    (h39 : 39 ∉ pre) (h34 : 34 ∉ pre) (h96 : 96 ∉ pre) (f : Nat) (t r : List Nat) :
    stripCommentsFromSourceString true utf8Read (f + pre.length) (utf8EncodeAll (pre ++ t)) r =
      stripCommentsFromSourceString true utf8Read f (utf8EncodeAll t) (r ++ pre) := by
  induction pre generalizing r with
  | nil => simp
  | cons c u ih =>
    simp only [List.mem_cons, not_or] at h47 h39 h34 h96
    have hc : c ≤ 255 := hle c (List.mem_cons_self _ _)
    have hq : ¬ (c = 39 ∨ c = 34 ∨ c = 96) := by
      intro h
      rcases h with h | h | h
      · exact h39.1 h.symm
      · exact h34.1 h.symm
      · exact h96.1 h.symm
    have hstep : loopBody true utf8Read (f + u.length) (utf8EncodeAll (c :: (u ++ t))) r =
        .ok (true, utf8EncodeAll (u ++ t), r ++ [c]) := by
      rw [loopBody_utf8_plain _ c (by omega) (u ++ t) r hq (fun h => h47.1 h.symm),
        if_neg (by omega), toResultChar_of_lt (by omega)]
    have : f + (c :: u).length = (f + u.length) + 1 := by simp; omega
    rw [this, List.cons_append, scan_step _ (utf8EncodeAll_cons_ne_nil c _) hstep,
      ih (fun b hb => hle b (List.mem_cons_of_mem _ hb)) h47.2 h39.2 h34.2 h96.2]
    simp

/-- One iteration of the block comment loop on UTF-8 text. -/
theorem blockCommentLoop_utf8_step (f c : Nat) (hc : c ≤ 0x10FFFF) (t r : List Nat) :
    blockCommentLoop utf8Read (f + 1) (utf8EncodeAll (c :: t)) r =
      if c = 42 ∧ 1 < (utf8EncodeAll t).length then
        match utf8Read (utf8EncodeAll t) with
        | none => .outOfBounds
        | some (c1, s2) =>
          if c1 = 47 then .ok (s2, r) else blockCommentLoop utf8Read f s2 r
      else if isLineTerminator c = true then
        if c = 13 ∧ 1 < (utf8EncodeAll t).length then
          match utf8Read (utf8EncodeAll t) with
          | none => .outOfBounds
          | some (c1, fwd) =>
            if c1 = 10 then blockCommentLoop utf8Read f fwd (r ++ [10])
            else blockCommentLoop utf8Read f (utf8EncodeAll t) (r ++ [10])
        else blockCommentLoop utf8Read f (utf8EncodeAll t) (r ++ [10])
      else blockCommentLoop utf8Read f (utf8EncodeAll t) r :=
  blockCommentLoop_step f r (utf8EncodeAll_cons_ne_nil c t) (utf8Read_encodeAll_cons c hc t)

/-- The block comment loop on UTF-8 text at the closing `*/`. -/
theorem blockCommentLoop_utf8_close (f : Nat) (rest r : List Nat)
    (hv : ∀ c ∈ rest, c ≤ 0x10FFFF) (hf : 3 ≤ f) :
    blockCommentLoop utf8Read f (utf8EncodeAll (42 :: 47 :: rest)) r =
      .ok (utf8EncodeAll rest, r) := by
  obtain ⟨f1, rfl⟩ : ∃ f1, f = f1 + 1 := ⟨f - 1, by omega⟩
  rw [blockCommentLoop_utf8_step f1 42 (by omega)]
  cases rest with
  | nil =>
    obtain ⟨f2, rfl⟩ : ∃ f2, f1 = f2 + 1 := ⟨f1 - 1, by omega⟩
    obtain ⟨f3, rfl⟩ : ∃ f3, f2 = f3 + 1 := ⟨f2 - 1, by omega⟩
    have h1 : (utf8EncodeAll [47]).length = 1 := by decide
    rw [if_neg (by rw [h1]; simp), if_neg (by decide),
      blockCommentLoop_utf8_step (f3 + 1) 47 (by omega), if_neg (by simp), if_neg (by decide)]
    simp [utf8EncodeAll, blockCommentLoop_nil]
  | cons a u =>
    have hlen : 1 < (utf8EncodeAll (47 :: a :: u)).length := by
      have := utf8EncodeAll_length_ge (47 :: a :: u)
      simp only [List.length_cons] at this
      omega
    rw [if_pos ⟨rfl, hlen⟩, utf8Read_encodeAll_cons 47 (by omega)]
    rfl

/-- The block comment loop on UTF-8 text over a body without `*`, whatever its
code points, up to the closing `*/`: one LF is appended for every line
terminator of the body. -/
theorem blockCommentLoop_utf8_body :
    ∀ (n : Nat) (body : List Nat), body.length ≤ n → (∀ c ∈ body, c ≤ 0x10FFFF) →
      42 ∉ body →
      ∀ f rest r, (∀ c ∈ rest, c ≤ 0x10FFFF) → body.length + 3 ≤ f →
        blockCommentLoop utf8Read f (utf8EncodeAll (body ++ 42 :: 47 :: rest)) r =
          .ok (utf8EncodeAll rest, r ++ List.replicate (countLineTerminators body) 10) := by
  intro n
  induction n with
  | zero =>
    intro body hn _ _ f rest r hvr hf
    have hb : body = [] := List.length_eq_zero.mp (Nat.le_zero.mp hn)
    subst hb
    rw [List.nil_append, blockCommentLoop_utf8_close f rest r hvr (by simpa using hf)]
    simp [countLineTerminators]
  | succ n ih =>
    intro body hn hvb h42 f rest r hvr hf
    cases body with
    | nil =>
      rw [List.nil_append, blockCommentLoop_utf8_close f rest r hvr (by simpa using hf)]
      simp [countLineTerminators]
    | cons c u =>
      simp only [List.mem_cons, not_or] at h42
      simp only [List.length_cons] at hn hf
      have hvc : c ≤ 0x10FFFF := hvb c (List.mem_cons_self _ _)
      have hvu : ∀ x ∈ u, x ≤ 0x10FFFF := fun x hx => hvb x (List.mem_cons_of_mem _ hx)
      obtain ⟨f1, rfl⟩ : ∃ f1, f = f1 + 1 := ⟨f - 1, by omega⟩
      have hlen : 1 < (utf8EncodeAll (u ++ 42 :: 47 :: rest)).length := by
        have := utf8EncodeAll_length_ge (u ++ 42 :: 47 :: rest)
        simp only [List.length_append, List.length_cons] at this
        omega
      have hstar : ¬ (c = 42 ∧ 1 < (utf8EncodeAll (u ++ 42 :: 47 :: rest)).length) :=
        fun h => h42.1 h.1.symm
      rw [List.cons_append, blockCommentLoop_utf8_step f1 c hvc, if_neg hstar]
      by_cases hterm : isLineTerminator c = true
      · rw [if_pos hterm]
        by_cases hcr : c = 13
        · subst hcr
          rw [if_pos ⟨rfl, hlen⟩]
          cases u with
          | nil =>
            rw [List.nil_append, utf8Read_encodeAll_cons 42 (by omega)]
            simp only [if_neg (by decide : ¬ (42 : Nat) = 10)]
            rw [blockCommentLoop_utf8_close f1 rest _ hvr (by omega)]
            simp [countLineTerminators, isLineTerminator]
          | cons d v =>
            have hvd : d ≤ 0x10FFFF := hvu d (List.mem_cons_self _ _)
            have hvv : ∀ x ∈ v, x ≤ 0x10FFFF :=
              fun x hx => hvu x (List.mem_cons_of_mem _ hx)
            simp only [List.mem_cons, not_or] at h42
            simp only [List.length_cons] at hn hf
            rw [List.cons_append, utf8Read_encodeAll_cons d hvd]
            by_cases hlf : d = 10
            · subst hlf
              simp only [if_true]
              rw [ih v (by omega) hvv h42.2.2 f1 rest _ hvr (by omega),
                countLineTerminators_crlf]
              simp [List.replicate_succ]
            · simp only [if_neg hlf]
              rw [← List.cons_append,
                ih (d :: v) (by simp; omega) hvu (by simp [h42.2.1, h42.2.2]) f1 rest _ hvr
                  (by simp; omega),
                countLineTerminators_cr_other d v hlf]
              simp [List.replicate_succ]
        · rw [if_neg (fun h => hcr h.1), ih u (by omega) hvu h42.2 f1 rest _ hvr (by omega),
            countLineTerminators_cons c u hcr, if_pos hterm, Nat.add_comm]
          simp [List.replicate_succ]
      · have hcr : c ≠ 13 := by
          intro h; subst h; exact hterm (by decide)
        rw [if_neg hterm, ih u (by omega) hvu h42.2 f1 rest _ hvr (by omega),
          countLineTerminators_cons c u hcr, if_neg hterm]
        simp

/-- The line comment loop on UTF-8 text reads a body without line terminators,
whatever its code points, and stops at the character `c` after it when `c` is a
line terminator or the last character of the input. -/
theorem skipLineLoop_utf8_body (body : List Nat) (hv : ∀ c ∈ body, c ≤ 0x10FFFF)
    (hterm : ∀ c ∈ body, isLineTerminator c = false) (c : Nat) (hc : c ≤ 0x10FFFF)
    (rest : List Nat) (hstop : rest = [] ∨ isLineTerminator c = true) :
    ∀ f, body.length < f →
      skipLineLoop utf8Read f (utf8EncodeAll (body ++ c :: rest)) =
        .ok (c, utf8EncodeAll rest) := by
  induction body with
  | nil =>
    intro f hf
    cases f with
    | zero => simp at hf
    | succ f =>
      rw [List.nil_append, skipLineLoop_step f (utf8Read_encodeAll_cons c hc rest),
        if_neg]
      intro h
      rcases hstop with hnil | ht
      · rw [hnil] at h
        exact absurd h.1 (by decide)
      · exact h.2 ht
  | cons b u ih =>
    intro f hf
    cases f with
    | zero => simp at hf
    | succ f =>
      have hpos : 0 < (utf8EncodeAll (u ++ c :: rest)).length := by
        have := utf8EncodeAll_length_ge (u ++ c :: rest)
        simp only [List.length_append, List.length_cons] at this
        omega
      have hb := hterm b (List.mem_cons_self _ _)
      rw [List.cons_append,
        skipLineLoop_step f (utf8Read_encodeAll_cons b (hv b (List.mem_cons_self _ _)) _),
        if_pos ⟨hpos, by simp [hb]⟩]
      exact ih (fun x hx => hv x (List.mem_cons_of_mem _ hx))
        (fun x hx => hterm x (List.mem_cons_of_mem _ hx)) f (by simp at hf; omega)

/-- The checked scan of UTF-8 text returns true whatever result it starts from
when every code point is at most 255. -/
theorem scan_utf8_latin1_true (cs : List Nat) (hle : ∀ c ∈ cs, c ≤ 255) (f : Nat)
    (r : List Nat) (hf : (utf8EncodeAll cs).length < f) :
    ∃ o, stripCommentsFromSourceString true utf8Read f (utf8EncodeAll cs) r =
      .ok (true, r ++ o) := by
  obtain ⟨o, h⟩ := scan_total utf8Read_readsWell (utf8EncodeAll cs).length
    (utf8EncodeAll cs) ⟨cs, hle, rfl⟩ (le_refl _) (lastIsBackslash r)
  exact ⟨o, h f r hf rfl⟩

/-- A block comment in UTF-8 text does not make the checked scan fail, whatever
the code points of its body: with `pre` and `rest` of code points up to 255,
`pre` without `/` and quotes and the body without `*`, the scan of
`pre ++ "/*" ++ body ++ "*/" ++ rest` returns true. -/
theorem scan_utf8_block_comment_true (pre body rest out : List Nat)
    (hpre : ∀ c ∈ pre, c ≤ 255) (h47 : 47 ∉ pre) (h39 : 39 ∉ pre) (h34 : 34 ∉ pre)
    (h96 : 96 ∉ pre) (hvb : ∀ c ∈ body, c ≤ 0x10FFFF) (h42 : 42 ∉ body)
    (hrest : ∀ c ∈ rest, c ≤ 255) :
    ∃ res, stripCommentsFromSourceString true utf8Read
        ((utf8EncodeAll (pre ++ 47 :: 42 :: body ++ 42 :: 47 :: rest)).length + 1)
        (utf8EncodeAll (pre ++ 47 :: 42 :: body ++ 42 :: 47 :: rest)) out =
      .ok (true, res) := by
  have hvr : ∀ c ∈ rest, c ≤ 0x10FFFF := fun c hc => by have := hrest c hc; omega
  have hshape : pre ++ 47 :: 42 :: body ++ 42 :: 47 :: rest =
      pre ++ 47 :: 42 :: (body ++ 42 :: 47 :: rest) := by simp
  have hX : utf8EncodeAll (47 :: 42 :: (body ++ 42 :: 47 :: rest)) =
      47 :: 42 :: utf8EncodeAll (body ++ 42 :: 47 :: rest) := by
    rw [utf8EncodeAll_ascii_cons 47 (by omega), utf8EncodeAll_ascii_cons 42 (by omega)]
  have hlenB : body.length + 2 ≤ (utf8EncodeAll (body ++ 42 :: 47 :: rest)).length := by
    have := utf8EncodeAll_length_ge (body ++ 42 :: 47 :: rest)
    simp only [List.length_append, List.length_cons] at this
    omega
  have hlenR : (utf8EncodeAll rest).length + 2 ≤
      (utf8EncodeAll (body ++ 42 :: 47 :: rest)).length := by
    rw [utf8EncodeAll_append, List.length_append,
      utf8EncodeAll_ascii_cons 42 (by omega), utf8EncodeAll_ascii_cons 47 (by omega)]
    simp only [List.length_cons]
    omega
  have hlenP := utf8EncodeAll_length_ge pre
  have hT : (utf8EncodeAll (pre ++ 47 :: 42 :: (body ++ 42 :: 47 :: rest))).length =
      (utf8EncodeAll pre).length + ((utf8EncodeAll (body ++ 42 :: 47 :: rest)).length + 2) := by
    rw [utf8EncodeAll_append pre, List.length_append, hX]
    rfl
  obtain ⟨g, hg⟩ : ∃ g, (utf8EncodeAll (pre ++ 47 :: 42 :: (body ++ 42 :: 47 :: rest))).length
      + 1 = (g + 1) + pre.length ∧
      (utf8EncodeAll (body ++ 42 :: 47 :: rest)).length + 2 ≤ g :=
    ⟨(utf8EncodeAll (pre ++ 47 :: 42 :: (body ++ 42 :: 47 :: rest))).length
      - pre.length, by omega, by omega⟩
  have hbody : loopBody true utf8Read g
      (utf8EncodeAll (47 :: 42 :: (body ++ 42 :: 47 :: rest))) (out ++ pre) =
      .ok (true, utf8EncodeAll rest,
        out ++ pre ++ List.replicate (countLineTerminators body) 10) := by
    have hlen1 : 1 < (utf8EncodeAll (42 :: (body ++ 42 :: 47 :: rest))).length := by
      rw [utf8EncodeAll_ascii_cons 42 (by omega)]
      simp only [List.length_cons]
      omega
    rw [loopBody_step g _ (utf8Read_encodeAll_cons 47 (by omega) _), if_neg (by omega),
      if_pos ⟨rfl, hlen1⟩, utf8Read_encodeAll_cons 42 (by omega)]
    refine (if_neg (fun h => by omega)).trans ((if_pos rfl).trans ?_)
    rw [blockCommentLoop_utf8_body body.length body (le_refl _) hvb h42 g rest _ hvr
      (by omega)]
  obtain ⟨o, ho⟩ := scan_utf8_latin1_true rest hrest g
    (out ++ pre ++ List.replicate (countLineTerminators body) 10) (by omega)
  refine ⟨out ++ pre ++ List.replicate (countLineTerminators body) 10 ++ o, ?_⟩
  rw [hshape, hg.1, scan_utf8_copies_plain pre hpre h47 h39 h34 h96,
    scan_step g (utf8EncodeAll_cons_ne_nil 47 _) hbody, ho]

/-- A line comment ended by LF in UTF-8 text does not make the checked scan
fail, whatever the code points of its body: with `pre` and `rest` of code points
up to 255, `pre` without `/` and quotes, the result so far and `pre` not ending
in a backslash, and the body without line terminators, the scan of
`pre ++ "//" ++ body ++ LF ++ rest` returns true. -/
theorem scan_utf8_line_comment_true (pre body rest out : List Nat)
    (hpre : ∀ c ∈ pre, c ≤ 255) (h47 : 47 ∉ pre) (h39 : 39 ∉ pre) (h34 : 34 ∉ pre)
    (h96 : 96 ∉ pre) (hlast : (out ++ pre).getLast? ≠ some 92)
    (hvb : ∀ c ∈ body, c ≤ 0x10FFFF) (hterm : ∀ c ∈ body, isLineTerminator c = false)
    (hrest : ∀ c ∈ rest, c ≤ 255) :
    ∃ res, stripCommentsFromSourceString true utf8Read
        ((utf8EncodeAll (pre ++ 47 :: 47 :: body ++ 10 :: rest)).length + 1)
        (utf8EncodeAll (pre ++ 47 :: 47 :: body ++ 10 :: rest)) out =
      .ok (true, res) := by
  have hshape : pre ++ 47 :: 47 :: body ++ 10 :: rest =
      pre ++ 47 :: 47 :: (body ++ 10 :: rest) := by simp
  have hX : utf8EncodeAll (47 :: 47 :: (body ++ 10 :: rest)) =
      47 :: 47 :: utf8EncodeAll (body ++ 10 :: rest) := by
    rw [utf8EncodeAll_ascii_cons 47 (by omega), utf8EncodeAll_ascii_cons 47 (by omega)]
  have hlenB : body.length + 1 ≤ (utf8EncodeAll (body ++ 10 :: rest)).length := by
    have := utf8EncodeAll_length_ge (body ++ 10 :: rest)
    simp only [List.length_append, List.length_cons] at this
    omega
  have hlenR : (utf8EncodeAll rest).length + 1 ≤
      (utf8EncodeAll (body ++ 10 :: rest)).length := by
    rw [utf8EncodeAll_append, List.length_append, utf8EncodeAll_ascii_cons 10 (by omega)]
    simp only [List.length_cons]
    omega
  have hlenP := utf8EncodeAll_length_ge pre
  have hT : (utf8EncodeAll (pre ++ 47 :: 47 :: (body ++ 10 :: rest))).length =
      (utf8EncodeAll pre).length + ((utf8EncodeAll (body ++ 10 :: rest)).length + 2) := by
    rw [utf8EncodeAll_append pre, List.length_append, hX]
    rfl
  obtain ⟨g, hg⟩ : ∃ g, (utf8EncodeAll (pre ++ 47 :: 47 :: (body ++ 10 :: rest))).length
      + 1 = (g + 1) + pre.length ∧
      (utf8EncodeAll (body ++ 10 :: rest)).length + 2 ≤ g :=
    ⟨(utf8EncodeAll (pre ++ 47 :: 47 :: (body ++ 10 :: rest))).length
      - pre.length, by omega, by omega⟩
  have hbody : loopBody true utf8Read g
      (utf8EncodeAll (47 :: 47 :: (body ++ 10 :: rest))) (out ++ pre) =
      .ok (true, utf8EncodeAll rest, out ++ pre ++ [10]) := by
    have hlen1 : 1 < (utf8EncodeAll (47 :: (body ++ 10 :: rest))).length := by
      rw [utf8EncodeAll_ascii_cons 47 (by omega)]
      simp only [List.length_cons]
      omega
    have hguard : (47 : Nat) = 47 ∧
        ((out ++ pre).length = 0 ∨ (out ++ pre).getLast? ≠ some 92) := ⟨rfl, Or.inr hlast⟩
    rw [loopBody_step g _ (utf8Read_encodeAll_cons 47 (by omega) _), if_neg (by omega),
      if_pos ⟨rfl, hlen1⟩, utf8Read_encodeAll_cons 47 (by omega)]
    refine (if_pos hguard).trans ?_
    rw [skipLineLoop_utf8_body body hvb hterm 10 (by omega) rest (Or.inr rfl) g (by omega)]
    simp [lineCommentTail, emitCharacter, toResultChar]
  obtain ⟨o, ho⟩ := scan_utf8_latin1_true rest hrest g (out ++ pre ++ [10]) (by omega)
  refine ⟨out ++ pre ++ [10] ++ o, ?_⟩
  rw [hshape, hg.1, scan_utf8_copies_plain pre hpre h47 h39 h34 h96,
    scan_step g (utf8EncodeAll_cons_ne_nil 47 _) hbody, ho]

/-- The character at which the line comment loop stops is checked: with `pre`
as before, the body without line terminators, and a code point `c` above 255
that is a line terminator or the last code point of the input, the scan of
`pre ++ "//" ++ body ++ c ++ rest` returns false. -/
theorem scan_utf8_line_comment_false (pre body rest out : List Nat) (c : Nat)
    (hpre : ∀ c ∈ pre, c ≤ 255) (h47 : 47 ∉ pre) (h39 : 39 ∉ pre) (h34 : 34 ∉ pre)
    (h96 : 96 ∉ pre) (hlast : (out ++ pre).getLast? ≠ some 92)
    (hvb : ∀ c ∈ body, c ≤ 0x10FFFF) (hterm : ∀ c ∈ body, isLineTerminator c = false)
    (hc : 255 < c) (hcv : c ≤ 0x10FFFF) (hstop : rest = [] ∨ isLineTerminator c = true) :
    stripCommentsFromSourceString true utf8Read
        ((utf8EncodeAll (pre ++ 47 :: 47 :: body ++ c :: rest)).length + 1)
        (utf8EncodeAll (pre ++ 47 :: 47 :: body ++ c :: rest)) out =
      .ok (false, out ++ pre) := by
  have hshape : pre ++ 47 :: 47 :: body ++ c :: rest =
      pre ++ 47 :: 47 :: (body ++ c :: rest) := by simp
  have hX : utf8EncodeAll (47 :: 47 :: (body ++ c :: rest)) =
      47 :: 47 :: utf8EncodeAll (body ++ c :: rest) := by
    rw [utf8EncodeAll_ascii_cons 47 (by omega), utf8EncodeAll_ascii_cons 47 (by omega)]
  have hlenB : body.length + 1 ≤ (utf8EncodeAll (body ++ c :: rest)).length := by
    have := utf8EncodeAll_length_ge (body ++ c :: rest)
    simp only [List.length_append, List.length_cons] at this
    omega
  have hlenP := utf8EncodeAll_length_ge pre
  have hT : (utf8EncodeAll (pre ++ 47 :: 47 :: (body ++ c :: rest))).length =
      (utf8EncodeAll pre).length + ((utf8EncodeAll (body ++ c :: rest)).length + 2) := by
    rw [utf8EncodeAll_append pre, List.length_append, hX]
    rfl
  obtain ⟨g, hg⟩ : ∃ g, (utf8EncodeAll (pre ++ 47 :: 47 :: (body ++ c :: rest))).length
      + 1 = (g + 1) + pre.length ∧
      (utf8EncodeAll (body ++ c :: rest)).length + 2 ≤ g :=
    ⟨(utf8EncodeAll (pre ++ 47 :: 47 :: (body ++ c :: rest))).length
      - pre.length, by omega, by omega⟩
  have hbody : loopBody true utf8Read g
      (utf8EncodeAll (47 :: 47 :: (body ++ c :: rest))) (out ++ pre) =
      .ok (false, utf8EncodeAll rest, out ++ pre) := by
    have hlen1 : 1 < (utf8EncodeAll (47 :: (body ++ c :: rest))).length := by
      rw [utf8EncodeAll_ascii_cons 47 (by omega)]
      simp only [List.length_cons]
      omega
    have hguard : (47 : Nat) = 47 ∧
        ((out ++ pre).length = 0 ∨ (out ++ pre).getLast? ≠ some 92) := ⟨rfl, Or.inr hlast⟩
    have h13 : ¬ (c = 13 ∧ 1 < (utf8EncodeAll rest).length) := fun h => by omega
    have hbig : (true && decide (c > 255)) = true := by simp [hc]
    rw [loopBody_step g _ (utf8Read_encodeAll_cons 47 (by omega) _), if_neg (by omega),
      if_pos ⟨rfl, hlen1⟩, utf8Read_encodeAll_cons 47 (by omega)]
    refine (if_pos hguard).trans ?_
    rw [skipLineLoop_utf8_body body hvb hterm c hcv rest hstop g (by omega)]
    simp only [lineCommentTail, if_neg h13, emitCharacter, hbig, if_true]
  rw [hshape, hg.1, scan_utf8_copies_plain pre hpre h47 h39 h34 h96,
    scan_step_false g (utf8EncodeAll_cons_ne_nil 47 _) hbody]

/-- The checked scan of UTF-8 text is decided by the code points the unchecked
scan into wide characters appends: it returns false exactly when one of them is
above 255, and else appends the same code points. -/
theorem scan_utf8_checks_kept (cs out : List Nat) (hv : ∀ c ∈ cs, c ≤ 0x10FFFF) :
    ∃ kept b res,
      stripCommentsFromSourceStringAs (fun c => c) false utf8Read
        ((utf8EncodeAll cs).length + 1) (utf8EncodeAll cs) out = .ok (true, out ++ kept) ∧
      convertUTF8ToLatin1 out (utf8EncodeAll cs) true = .ok (b, res) ∧
      (b = false ↔ ∃ c ∈ kept, c > 255) ∧
      (b = true → res = out ++ kept) := by
  have hconv : convertUTF8ToLatin1 out (utf8EncodeAll cs) true =
      stripCommentsFromSourceStringAs toResultChar true utf8Read
        ((utf8EncodeAll cs).length + 1) (utf8EncodeAll cs) out := by
    rw [scanAs_toResultChar]
    unfold convertUTF8ToLatin1
    simp only [if_true]
  obtain ⟨kept, hk⟩ := scanAs_total (fun c => c) utf8Read_readsWell_unchecked
    (utf8EncodeAll cs).length (utf8EncodeAll cs) ⟨cs, hv, rfl⟩ (le_refl _)
    (lastIsBackslash out)
  have hW := hk ((utf8EncodeAll cs).length + 1) out (by omega) rfl
  obtain ⟨o, ho, hT, hF⟩ := @scanAs_decides (fun c => c) toResultChar
    (fun _ => rfl) (fun c hc => toResultChar_of_lt (by omega)) utf8Read _ _ out _ hW
  have hko : o = kept := (List.append_cancel_left ho).symm
  subst hko
  by_cases hall : ∀ c ∈ o, c ≤ 255
  · refine ⟨o, true, out ++ o, hW, hconv.trans (hT hall), ?_, fun _ => rfl⟩
    constructor
    · intro h
      exact absurd h (by decide)
    · rintro ⟨c, hc, hgt⟩
      have := hall c hc
      omega
  · have hex : ∃ c ∈ o, c > 255 := by
      by_contra hne
      apply hall
      intro c hc
      by_contra hgt
      exact hne ⟨c, hc, by omega⟩
    obtain ⟨res, hres⟩ := hF hex
    refine ⟨o, false, res, hW, hconv.trans hres, ⟨fun _ => hex, fun _ => rfl⟩, ?_⟩
    intro h
    exact absurd h (by decide)

/-- C8, as amended. `convertUTF8ToLatin1` with `stripComment = true` on the
UTF-8 text of the code points `cs`, after any `oneByteString`, returns, and the
Latin-1 check is applied to the code points that the scan appends, not to every
decoded code point. With `kept` the code points that the same scan without the
check, into characters wide enough for every code point, appends: the call
returns false exactly when some code point of `kept` is above 255, and on true
`oneByteString` has grown by `kept`. Hence:
(1) when every code point is at most 255 the call returns true;
(2) when `cs` has no `/`, so that there is no comment, the call returns false
exactly when some code point is above 255, in normal text or inside a string;
(3) for `cs = pre ++ "/*" ++ body ++ "*/" ++ rest`, where `pre` and `rest` have
only code points up to 255, `pre` has no `/` and no quote and `body` has no `*`,
the call returns true whatever the code points of the body;
(4) for `cs = pre ++ "//" ++ body ++ LF ++ rest`, with `pre` and `rest` as in
(3), the text before the comment not ending in a backslash and `body` without
line terminator, the call returns true whatever the code points of the body. -/
theorem convertUTF8ToLatin1_strip_checks_kept (cs out : List Nat)
    (hv : ∀ c ∈ cs, c ≤ 0x10FFFF) :
    ∃ kept b res,
      stripCommentsFromSourceStringAs (fun c => c) false utf8Read
        ((utf8EncodeAll cs).length + 1) (utf8EncodeAll cs) out = .ok (true, out ++ kept) ∧
      convertUTF8ToLatin1 out (utf8EncodeAll cs) true = .ok (b, res) ∧
      (b = false ↔ ∃ c ∈ kept, c > 255) ∧
      (b = true → res = out ++ kept) ∧
      ((∀ c ∈ cs, c ≤ 255) → b = true) ∧
      (47 ∉ cs → (b = false ↔ ∃ c ∈ cs, c > 255)) ∧
      (∀ pre body rest, cs = pre ++ 47 :: 42 :: body ++ 42 :: 47 :: rest →
        (∀ c ∈ pre, c ≤ 255) → 47 ∉ pre → 39 ∉ pre → 34 ∉ pre → 96 ∉ pre →
        42 ∉ body → (∀ c ∈ rest, c ≤ 255) → b = true) ∧
      (∀ pre body rest, cs = pre ++ 47 :: 47 :: body ++ 10 :: rest →
        (∀ c ∈ pre, c ≤ 255) → 47 ∉ pre → 39 ∉ pre → 34 ∉ pre → 96 ∉ pre →
        (out ++ pre).getLast? ≠ some 92 →
        (∀ c ∈ body, isLineTerminator c = false) → (∀ c ∈ rest, c ≤ 255) → b = true) := by
  obtain ⟨kept, b, res, hW, hrun, hiff, hres⟩ := scan_utf8_checks_kept cs out hv
  have hconv : convertUTF8ToLatin1 out (utf8EncodeAll cs) true =
      stripCommentsFromSourceString true utf8Read
        ((utf8EncodeAll cs).length + 1) (utf8EncodeAll cs) out := by
    unfold convertUTF8ToLatin1
    simp only [if_true]
  have huniq : ∀ b' res', stripCommentsFromSourceString true utf8Read
      ((utf8EncodeAll cs).length + 1) (utf8EncodeAll cs) out = .ok (b', res') → b = b' := by
    intro b' res' h
    rw [← hconv, hrun] at h
    injection h with h
    exact congrArg Prod.fst h
  refine ⟨kept, b, res, hW, hrun, hiff, hres, ?_, ?_, ?_, ?_⟩
  · intro hall
    obtain ⟨o, ho⟩ := scan_utf8_latin1_true cs hall ((utf8EncodeAll cs).length + 1) out
      (by omega)
    exact huniq _ _ ho
  · intro h47
    obtain ⟨b', res', hrun', hiff'⟩ := (convertUTF8ToLatin1_strip_plain cs out hv).2 h47
    rw [hconv] at hrun'
    rw [huniq _ _ hrun']
    exact hiff'
  · intro pre body rest hcs hpre h47 h39 h34 h96 h42 hrest
    have hvb : ∀ c ∈ body, c ≤ 0x10FFFF := by
      intro c hc
      exact hv c (by rw [hcs]; simp [hc])
    obtain ⟨res', h⟩ := scan_utf8_block_comment_true pre body rest out hpre h47 h39 h34 h96
      hvb h42 hrest
    rw [← hcs] at h
    exact huniq _ _ h
  · intro pre body rest hcs hpre h47 h39 h34 h96 hlast hterm hrest
    have hvb : ∀ c ∈ body, c ≤ 0x10FFFF := by
      intro c hc
      exact hv c (by rw [hcs]; simp [hc])
    obtain ⟨res', h⟩ := scan_utf8_line_comment_true pre body rest out hpre h47 h39 h34 h96
      hlast hvb hterm hrest
    rw [← hcs] at h
    exact huniq _ _ h

/-- C8 as amended, at the text `/*€*/a` after an empty `oneByteString`, where
the call returns true by (3) although U+20AC is decoded; and the cases (2) and
(4) at the texts `x"€"` and `//€<LF>a`, where the call returns false and true. -/
theorem convertUTF8ToLatin1_strip_checks_kept_witness :
    (∀ c ∈ [47, 42, 0x20AC, 42, 47, 97], c ≤ 0x10FFFF) ∧
    (∃ kept b res,
      stripCommentsFromSourceStringAs (fun c => c) false utf8Read
        ((utf8EncodeAll [47, 42, 0x20AC, 42, 47, 97]).length + 1)
        (utf8EncodeAll [47, 42, 0x20AC, 42, 47, 97]) [] = .ok (true, [] ++ kept) ∧
      convertUTF8ToLatin1 [] (utf8EncodeAll [47, 42, 0x20AC, 42, 47, 97]) true =
        .ok (b, res) ∧
      (b = false ↔ ∃ c ∈ kept, c > 255) ∧
      (b = true → res = [] ++ kept) ∧
      ((∀ c ∈ [47, 42, 0x20AC, 42, 47, 97], c ≤ 255) → b = true) ∧
      (47 ∉ [47, 42, 0x20AC, 42, 47, 97] →
        (b = false ↔ ∃ c ∈ [47, 42, 0x20AC, 42, 47, 97], c > 255)) ∧
      (∀ pre body rest,
        [47, 42, 0x20AC, 42, 47, 97] = pre ++ 47 :: 42 :: body ++ 42 :: 47 :: rest →
        (∀ c ∈ pre, c ≤ 255) → 47 ∉ pre → 39 ∉ pre → 34 ∉ pre → 96 ∉ pre →
        42 ∉ body → (∀ c ∈ rest, c ≤ 255) → b = true) ∧
      (∀ pre body rest,
        [47, 42, 0x20AC, 42, 47, 97] = pre ++ 47 :: 47 :: body ++ 10 :: rest →
        (∀ c ∈ pre, c ≤ 255) → 47 ∉ pre → 39 ∉ pre → 34 ∉ pre → 96 ∉ pre →
        ([] ++ pre).getLast? ≠ some 92 →
        (∀ c ∈ body, isLineTerminator c = false) → (∀ c ∈ rest, c ≤ 255) → b = true)) ∧
    (∃ b res, convertUTF8ToLatin1 [] (utf8EncodeAll [47, 42, 0x20AC, 42, 47, 97]) true =
      .ok (b, res) ∧ b = true) ∧
    (∃ b res, convertUTF8ToLatin1 [] (utf8EncodeAll [120, 34, 0x20AC, 34]) true =
      .ok (b, res) ∧ b = false) ∧
    (∃ b res, convertUTF8ToLatin1 [] (utf8EncodeAll [47, 47, 0x20AC, 10, 97]) true =
      .ok (b, res) ∧ b = true) := by
  refine ⟨by decide,
    convertUTF8ToLatin1_strip_checks_kept [47, 42, 0x20AC, 42, 47, 97] [] (by decide),
    ?_, ?_, ?_⟩
  · obtain ⟨_, b, res, _, hrun, _, _, _, _, h3, _⟩ :=
      convertUTF8ToLatin1_strip_checks_kept [47, 42, 0x20AC, 42, 47, 97] [] (by decide)
    exact ⟨b, res, hrun, h3 [] [0x20AC] [97] rfl (by decide) (by decide) (by decide)
      (by decide) (by decide) (by decide) (by decide)⟩
  · obtain ⟨_, b, res, _, hrun, _, _, _, h2, _, _⟩ :=
      convertUTF8ToLatin1_strip_checks_kept [120, 34, 0x20AC, 34] [] (by decide)
    exact ⟨b, res, hrun, (h2 (by decide)).mpr ⟨0x20AC, by decide, by decide⟩⟩
  · obtain ⟨_, b, res, _, hrun, _, _, _, _, _, h4⟩ :=
      convertUTF8ToLatin1_strip_checks_kept [47, 47, 0x20AC, 10, 97] [] (by decide)
    exact ⟨b, res, hrun, h4 [] [0x20AC] [97] rfl (by decide) (by decide) (by decide)
      (by decide) (by decide) (by decide) (by decide) (by decide)⟩

/-- C8 as stated fails: in `/*€*/a` and in `//€<LF>a` the code point U+20AC is
decoded, inside a comment, and the call with `stripComment = true` returns
true. -/
theorem convertUTF8ToLatin1_strip_checks_kept_counterexample :
    (∃ c ∈ [47, 42, 0x20AC, 42, 47, 97], c > 255) ∧
    utf8EncodeAll [47, 42, 0x20AC, 42, 47, 97] = [0x2F, 0x2A, 0xE2, 0x82, 0xAC, 0x2A, 0x2F, 0x61] ∧
    convertUTF8ToLatin1 [] (utf8EncodeAll [47, 42, 0x20AC, 42, 47, 97]) true = .ok (true, [97]) ∧
    (∃ c ∈ [47, 47, 0x20AC, 10, 97], c > 255) ∧
    convertUTF8ToLatin1 [] (utf8EncodeAll [47, 47, 0x20AC, 10, 97]) true =
      .ok (true, [10, 97]) := by
  decide

/-- The texts `//€` at the end of the input and `//a` ended by U+2028: the line
comment loop stops at a code point above 255, which line 115 checks, and the
call returns false. -/
theorem convertUTF8ToLatin1_strip_line_comment_stop_eval :
    convertUTF8ToLatin1 [] (utf8EncodeAll [47, 47, 0x20AC]) true = .ok (false, []) ∧
    convertUTF8ToLatin1 [] (utf8EncodeAll [47, 47, 97, 0x2028, 98]) true = .ok (false, []) := by
  decide

end StringUtil

/-! ## The layout of the call record -/

namespace EscargotShim

/-- The loop writes the wrapped `argv[j]` at `argc - j - 1` for every `j` from
`i` on and leaves the slots from `argc - i` on as they are. -/
theorem fillArguments_spec {V H : Type} (createValue : V → H) (argc : Nat) (argv : List V)
    (hargv : argv.length = argc) :
    ∀ (fuel i : Nat) (values : List (Option H)), argc < fuel + i → i ≤ argc →
      values.length = argc + 1 →
      ∃ values', fillArguments createValue argc argv fuel i values = some values' ∧
        values'.length = argc + 1 ∧
        (∀ j, i ≤ j → j < argc →
          values'[argc - j - 1]? = some (argv[j]?.map createValue)) ∧
        (∀ m, argc - i ≤ m → values'[m]? = values[m]?) := by
  intro fuel
  induction fuel with
  | zero =>
    intro i values hk hi _
    omega
  | succ k ih =>
    intro i values hk hile hlen
    by_cases hi' : i < argc
    · have hi : i < argv.length := by omega
      have hget : argv[i]? = some argv[i] := List.getElem?_eq_getElem hi
      have hidx : argc - i - 1 < values.length := by omega
      obtain ⟨values', h, hlen', hw, hkeep⟩ :=
        ih (i + 1) (values.set (argc - i - 1) (some (createValue argv[i]))) (by omega)
          (by omega) (by simp [hlen])
      refine ⟨values', ?_, hlen', ?_, ?_⟩
      · rw [fillArguments, if_pos hi', hget]
        simp only [if_pos hidx]
        exact h
      · intro j hij hj
        by_cases hji : j = i
        · subst hji
          rw [hkeep (argc - j - 1) (by omega), List.getElem?_set_self hidx, hget]
          rfl
        · exact hw j (by omega) hj
      · intro m hm
        rw [hkeep m (by omega), List.getElem?_set_ne (by omega)]
    · refine ⟨values, ?_, hlen, ?_, fun _ _ => rfl⟩
      · rw [fillArguments, if_neg hi']
      · intro j hij hj
        omega

/-- C9. The call record layout built by `toWrapperArgs`: for `argv` of length
`argc` the call allocates `argc + 1` slots and returns the base index `argc - 1`;
the slot at `base + 1` holds the wrapped `thisValue`, for every `i < argc` the
slot at `base - i` holds the wrapped `argv[i]`, and these indices lie in
`[0, argc]`. -/
theorem toWrapperArgs_layout {V H : Type} (createValue : V → H) (thisValue : V) (argc : Nat)
    (argv : List V) (hargv : argv.length = argc) :
    ∃ values, toWrapperArgs createValue thisValue argc argv = some (values, (argc : Int) - 1) ∧
      values.length = argc + 1 ∧
      slotAt values ((argc : Int) - 1) 1 = some (createValue thisValue) ∧
      (0 ≤ (argc : Int) - 1 + 1 ∧ (argc : Int) - 1 + 1 ≤ argc) ∧
      ∀ i : Nat, i < argc →
        (∃ a, argv[i]? = some a ∧
          slotAt values ((argc : Int) - 1) (-(i : Int)) = some (createValue a)) ∧
        0 ≤ (argc : Int) - 1 + -(i : Int) ∧ (argc : Int) - 1 + -(i : Int) ≤ argc := by
  obtain ⟨values, h, hlen, hw, -⟩ :=
    fillArguments_spec createValue argc argv hargv (argc + 1) 0
      (List.replicate (argc + 1) none) (by omega) (by omega) (by simp)
  have hidx : argc < values.length := by omega
  refine ⟨values.set argc (some (createValue thisValue)), ?_, by simp [hlen], ?_,
    ⟨by omega, by omega⟩, ?_⟩
  · rw [toWrapperArgs, h]
    simp only [if_pos hidx]
  · have h0 : (0 : Int) ≤ (argc : Int) - 1 + 1 := by omega
    have hnat : ((argc : Int) - 1 + 1).toNat = argc := by omega
    rw [slotAt, if_pos h0, hnat, List.getElem?_set_self hidx]
    rfl
  · intro i hi
    have h0 : (0 : Int) ≤ (argc : Int) - 1 + -(i : Int) := by omega
    have hnat : ((argc : Int) - 1 + -(i : Int)).toNat = argc - i - 1 := by omega
    have hget : argv[i]? = some argv[i] := List.getElem?_eq_getElem (by omega)
    refine ⟨⟨argv[i], hget, ?_⟩, h0, by omega⟩
    rw [slotAt, if_pos h0, hnat, List.getElem?_set_ne (by omega), hw i (by omega) hi, hget]
    rfl

/-- C9, for `argc = 5`, and the arrays built for `argc = 0` and `argc = 1`; the
wrapping is modelled by adding 100 to a handle. -/
theorem toWrapperArgs_layout_witness :
    [1, 2, 3, 4, 5].length = 5 ∧
    (∃ values, toWrapperArgs (fun v : Nat => v + 100) 9 5 [1, 2, 3, 4, 5] =
        some (values, ((5 : Nat) : Int) - 1) ∧
      values.length = 5 + 1 ∧
      slotAt values (((5 : Nat) : Int) - 1) 1 = some (9 + 100) ∧
      (0 ≤ ((5 : Nat) : Int) - 1 + 1 ∧ ((5 : Nat) : Int) - 1 + 1 ≤ (5 : Nat)) ∧
      ∀ i : Nat, i < 5 →
        (∃ a, [1, 2, 3, 4, 5][i]? = some a ∧
          slotAt values (((5 : Nat) : Int) - 1) (-(i : Int)) = some (a + 100)) ∧
        0 ≤ ((5 : Nat) : Int) - 1 + -(i : Int) ∧
        ((5 : Nat) : Int) - 1 + -(i : Int) ≤ (5 : Nat)) ∧
    toWrapperArgs (fun v : Nat => v + 100) 9 5 [1, 2, 3, 4, 5] =
      some ([some 105, some 104, some 103, some 102, some 101, some 109], 4) ∧
    toWrapperArgs (fun v : Nat => v + 100) 9 1 [1] = some ([some 101, some 109], 0) ∧
    toWrapperArgs (fun v : Nat => v + 100) 9 0 [] = some ([some 109], -1) :=
  ⟨by decide, toWrapperArgs_layout (fun v : Nat => v + 100) 9 5 [1, 2, 3, 4, 5] (by decide),
    by decide, by decide, by decide⟩

/-! ## The destructor -/

/-- The call of `toWrapperArgs` succeeds and returns the base index `argc - 1`. -/
theorem toWrapperArgs_base {V H : Type} (createValue : V → H) (thisValue : V) (argc : Nat)
    (argv : List V) (hargv : argv.length = argc) :
    ∃ values, toWrapperArgs createValue thisValue argc argv = some (values, (argc : Int) - 1) ∧
      values.length = argc + 1 := by
  obtain ⟨values, h, hlen, -, -⟩ :=
    fillArguments_spec createValue argc argv hargv (argc + 1) 0
      (List.replicate (argc + 1) none) (by omega) (by omega) (by simp)
  have hidx : argc < values.length := by omega
  refine ⟨values.set argc (some (createValue thisValue)), ?_, by simp [hlen]⟩
  rw [toWrapperArgs, h]
  simp only [if_pos hidx]

/-- C11. The destructor recovers the start of the argument array: for `argv` of
length `argc` and an array that `toWrapperArgs` allocated at `start`, the object
holds the base `start + argc - 1` and `Length() = argc`, and the pointer the
destructor releases, `values_ - Length() + 1`, is `start`. -/
theorem destructor_releases_start {V H : Type} (createValue : V → H) (start : Int)
    (thisValue : V) (argc : Nat) (argv : List V) (hargv : argv.length = argc) :
    ∃ info, FunctionCallbackInfoWrap.create createValue start thisValue argc argv = some info ∧
      info.values_ = start + argc - 1 ∧ info.Length = argc ∧ info.released = start := by
  obtain ⟨values, h, -⟩ := toWrapperArgs_base createValue thisValue argc argv hargv
  refine ⟨{ values_ := start + ((argc : Int) - 1), length_ := argc }, ?_, ?_, rfl, ?_⟩
  · rw [FunctionCallbackInfoWrap.create, h]
  · show start + ((argc : Int) - 1) = start + argc - 1
    omega
  · show start + ((argc : Int) - 1) - (argc : Int) + 1 = start
    omega

/-- C11, for `argc = 0`, where the base lies one slot before the array, and for
`argc = 3` with the array at address 1000. -/
theorem destructor_releases_start_witness :
    ([] : List Nat).length = 0 ∧
    (∃ info, FunctionCallbackInfoWrap.create (fun v : Nat => v + 100) 1000 9 0 [] = some info ∧
      info.values_ = 1000 + ((0 : Nat) : Int) - 1 ∧ info.Length = ((0 : Nat) : Int) ∧
      info.released = 1000) ∧
    FunctionCallbackInfoWrap.create (fun v : Nat => v + 100) 1000 9 0 [] =
      some { values_ := 999, length_ := 0 } ∧
    FunctionCallbackInfoWrap.create (fun v : Nat => v + 100) 1000 9 3 [1, 2, 3] =
      some { values_ := 1002, length_ := 3 } ∧
    FunctionCallbackInfoWrap.released { values_ := 1002, length_ := 3 } = 1000 :=
  ⟨by decide, destructor_releases_start (fun v : Nat => v + 100) 1000 9 0 [] (by decide),
    by decide, by decide, by decide⟩

end EscargotShim
